import Mathlib

/-!
# Verification of the graph/grid core of an Advent-of-Code Rust repository

This file shallowly embeds the reusable core of the repository — the generic
adjacency-map graph (`src/graph.rs`) and the dense 2D grid (`src/lib.rs`) —
and proves/refutes the specification claims about them.

Modelling conventions:
* Node labels and edge weights are `Nat` (the claims instantiate the generic
  `N`/`W` parameters at small unsigned integers).
* Rust's `HashMap` is modelled as an association list whose iteration order is
  its list order; `insert` overwrites the value in place, `entry(..).or_default`
  appends a fresh entry at the end.  A `HashMap`'s real iteration order is
  arbitrary; where a claim depends on it we quantify over the orders.
* `BinaryHeap` is modelled as a list of entries whose `pop` removes a maximal
  entry w.r.t. the `Ord` implementation of `State` (reverse order on
  `distance`, then forward order on `node`).  That order has no ties between
  distinct entries, so the popped element is uniquely determined.
* Numeric casts (`usize as i32` in the grid code) are modelled as exact
  `Nat → Int` coercions: all values involved in the claims are far below 2^31.
-/

namespace AoC

/-! ## Association-list maps (the `HashMap` model) -/

/-- `HashMap::get`: first binding of a key wins. -/
def alookup {β : Type} (m : List (Nat × β)) (k : Nat) : Option β :=
  match m with
  | [] => none
  | (k', v) :: rest => if k' = k then some v else alookup rest k

/-- `HashMap::insert`: overwrite in place if present, else append. -/
def ainsert {β : Type} (m : List (Nat × β)) (k : Nat) (v : β) : List (Nat × β) :=
  match m with
  | [] => [(k, v)]
  | (k', v') :: rest => if k' = k then (k, v) :: rest else (k', v') :: ainsert rest k v

/-- `HashMap::entry(k).or_default()` followed by an update of the entry's value. -/
def aupsert {β : Type} (m : List (Nat × β)) (k : Nat) (f : Option β → β) : List (Nat × β) :=
  match m with
  | [] => [(k, f none)]
  | (k', v') :: rest => if k' = k then (k, f (some v')) :: rest else (k', v') :: aupsert rest k f

def keysOf {β : Type} (m : List (Nat × β)) : List Nat := m.map Prod.fst

theorem alookup_ainsert {β : Type} (m : List (Nat × β)) (k : Nat) (v : β) (k' : Nat) :
    alookup (ainsert m k v) k' = if k = k' then some v else alookup m k' := by
  induction m with
  | nil => by_cases h : k = k' <;> simp [ainsert, alookup, h]
  | cons p rest ih =>
    obtain ⟨a, b⟩ := p
    by_cases hak : a = k
    · subst hak
      by_cases h : a = k' <;> simp [ainsert, alookup, h, ih]
    · by_cases h : a = k'
      · subst h
        have : ¬ k = a := fun hh => hak hh.symm
        simp [ainsert, alookup, hak, this]
      · simp [ainsert, alookup, hak, h, ih]

theorem alookup_aupsert {β : Type} (m : List (Nat × β)) (k : Nat) (f : Option β → β)
    (k' : Nat) :
    alookup (aupsert m k f) k' =
      if k = k' then some (f (alookup m k)) else alookup m k' := by
  induction m with
  | nil => by_cases h : k = k' <;> simp [aupsert, alookup, h]
  | cons p rest ih =>
    obtain ⟨a, b⟩ := p
    by_cases hak : a = k
    · subst hak
      by_cases h : a = k' <;> simp [aupsert, alookup, h]
    · by_cases h : a = k'
      · subst h
        have : ¬ k = a := fun hh => hak hh.symm
        simp [aupsert, alookup, hak, this]
      · simp [aupsert, alookup, hak, h, ih]

theorem alookup_isSome_iff_mem_keys {β : Type} (m : List (Nat × β)) (k : Nat) :
    (alookup m k).isSome ↔ k ∈ keysOf m := by
  induction m with
  | nil => simp [alookup, keysOf]
  | cons p rest ih =>
    obtain ⟨a, b⟩ := p
    by_cases h : a = k
    · subst h
      simp [alookup, keysOf]
    · have h' : k ≠ a := fun hh => h hh.symm
      simp [alookup, keysOf, h, h', ih]

theorem alookup_mem {β : Type} {m : List (Nat × β)} {k : Nat} {v : β}
    (h : alookup m k = some v) : (k, v) ∈ m := by
  induction m with
  | nil => simp [alookup] at h
  | cons p rest ih =>
    obtain ⟨a, b⟩ := p
    by_cases hak : a = k
    · subst hak
      simp [alookup] at h
      simp [h]
    · simp [alookup, hak] at h
      simp [ih h]

theorem mem_alookup_of_nodup {β : Type} {m : List (Nat × β)} {k : Nat} {v : β}
    (hnd : (m.map Prod.fst).Nodup) (h : (k, v) ∈ m) : alookup m k = some v := by
  induction m with
  | nil => simp at h
  | cons p rest ih =>
    obtain ⟨a, b⟩ := p
    rw [List.map_cons, List.nodup_cons] at hnd
    rcases List.mem_cons.mp h with h1 | h1
    · cases h1
      simp [alookup]
    · have hak : a ≠ k := by
        intro hh
        subst hh
        exact hnd.1 (List.mem_map.mpr ⟨(a, v), h1, rfl⟩)
      simp [alookup, hak, ih hnd.2 h1]

/-! ## The graph (`src/graph.rs`), nodes and weights instantiated at `Nat` -/

/-- `Graph<N, W>`: an adjacency map from nodes to (neighbor → weight) maps,
plus the directedness flag. -/
structure Graph where
  adjacency_map : List (Nat × List (Nat × Nat))
  directed : Bool
deriving DecidableEq

namespace Graph

/-- `Graph::new(directed)`. -/
def new (directed : Bool) : Graph := ⟨[], directed⟩

/-- `Graph::undirected()`. -/
def undirected : Graph := new false

/-- `Graph::directedG()` — the `Graph::directed()` constructor. -/
def directedG : Graph := new true

/-- `Graph::add_node`: `self.adjacency_map.entry(node).or_default();`. -/
def add_node (g : Graph) (node : Nat) : Graph :=
  { g with adjacency_map := aupsert g.adjacency_map node (fun es => es.getD []) }

/-- `Graph::add_edge_weighted`: insert `from→to`; if undirected, also `to→from`. -/
def add_edge_weighted (g : Graph) (f t w : Nat) : Graph :=
  if g.directed then
    { g with adjacency_map :=
        aupsert g.adjacency_map f (fun es => ainsert (es.getD []) t w) }
  else
    let m1 := aupsert g.adjacency_map f (fun es => ainsert (es.getD []) t w)
    { g with adjacency_map := aupsert m1 t (fun es => ainsert (es.getD []) f w) }

/-- `Graph::add_edge`: weight defaults to `W::one()`. -/
def add_edge (g : Graph) (f t : Nat) : Graph := g.add_edge_weighted f t 1

/-- `Graph::get_weight`. -/
def get_weight (g : Graph) (f t : Nat) : Option Nat :=
  (alookup g.adjacency_map f).bind (fun es => alookup es t)

/-- `Graph::has_edge`. -/
def has_edge (g : Graph) (f t : Nat) : Bool :=
  match alookup g.adjacency_map f with
  | none => false
  | some es => (alookup es t).isSome

/-- `Graph::neighbors`: the key set of the node's adjacency entry (`None` if the
node is not a key of the adjacency map).  The `HashSet` iterates in the order
of the underlying entry list. -/
def neighbors (g : Graph) (n : Nat) : Option (List Nat) :=
  (alookup g.adjacency_map n).map keysOf

/-- `Graph::neighbors_weighted`. -/
def neighbors_weighted (g : Graph) (n : Nat) : Option (List (Nat × Nat)) :=
  alookup g.adjacency_map n

/-- `Graph::nodes`: keys chained with all neighbor keys, deduplicated, sorted. -/
def nodesList (g : Graph) : List Nat :=
  ((keysOf g.adjacency_map ++
      (g.adjacency_map.map (fun p => keysOf p.2)).flatten).dedup).insertionSort (· ≤ ·)

/-- `Graph::subgraph`: keep the supplied nodes and the edges among them. -/
def subgraph (g : Graph) (nodes : List Nat) : Graph :=
  nodes.foldl
    (fun sg f =>
      let sg := sg.add_node f
      match g.neighbors_weighted f with
      | some es =>
          es.foldl
            (fun sg p =>
              if p.1 ∈ nodes then sg.add_edge_weighted f p.1 p.2 else sg)
            sg
      | none => sg)
    (new g.directed)

end Graph

/-- All nodes that can ever be enqueued by a traversal: adjacency keys and all
inner (neighbor) keys.  Used only as a termination measure. -/
def allNodes (g : Graph) : List Nat :=
  (keysOf g.adjacency_map ++ (g.adjacency_map.map (fun p => keysOf p.2)).flatten).dedup

/-- Insert into a `HashSet` modelled as a list. -/
def insertSet (n : Nat) (s : List Nat) : List Nat := if n ∈ s then s else n :: s

/-- One pass of `Bfs::next`'s neighbor loop: mark unvisited neighbors visited
and collect them (in neighbor order) for enqueueing. -/
def bfsFold (acc : List Nat × List Nat) (n : Nat) : List Nat × List Nat :=
  if n ∈ acc.1 then acc else (n :: acc.1, acc.2 ++ [n])

theorem filter_length_mono (l : List Nat) (p q : Nat → Bool) (h : ∀ a, p a → q a) :
    (l.filter p).length ≤ (l.filter q).length := by
  induction l with
  | nil => simp
  | cons a t ih =>
    by_cases hp : p a = true
    · rw [List.filter_cons_of_pos hp, List.filter_cons_of_pos (h a hp)]
      simpa using Nat.succ_le_succ ih
    · rw [List.filter_cons_of_neg (by simpa using hp)]
      by_cases hq : q a = true
      · rw [List.filter_cons_of_pos hq]
        exact le_trans ih (Nat.le_succ _)
      · rw [List.filter_cons_of_neg (by simpa using hq)]
        exact ih

theorem length_filter_and_ne (p : Nat → Bool) (n : Nat) :
    ∀ (l : List Nat), l.Nodup → n ∈ l → p n = true →
      (l.filter p).length = (l.filter (fun m => p m && ! (m == n))).length + 1 := by
  intro l
  induction l with
  | nil => intro _ h; simp at h
  | cons a t ih =>
    intro hnd hmem hpn
    rw [List.nodup_cons] at hnd
    by_cases han : a = n
    · subst han
      rw [List.filter_cons_of_pos hpn,
        List.filter_cons_of_neg (by simp)]
      have htail : t.filter p = t.filter (fun m => p m && ! (m == a)) := by
        apply List.filter_congr
        intro m hm
        have hmn : (m == a) = false := by
          have : m ≠ a := fun hh => hnd.1 (hh ▸ hm)
          simpa using this
        simp [hmn]
      rw [htail, List.length_cons]
    · have hmt : n ∈ t := by
        rcases List.mem_cons.mp hmem with h | h
        · exact absurd h.symm han
        · exact h
      have han' : (a == n) = false := by simpa using han
      by_cases hpa : p a = true
      · have hq : (fun m => p m && ! (m == n)) a = true := by simp [hpa, han']
        rw [List.filter_cons_of_pos hpa,
          List.filter_cons_of_pos (p := fun m => p m && ! (m == n)) hq]
        simp only [List.length_cons]
        rw [ih hnd.2 hmt hpn]
      · have hq : ¬ ((fun m => p m && ! (m == n)) a = true) := by
          simp only [han', Bool.not_false, Bool.and_true]
          simpa using hpa
        rw [List.filter_cons_of_neg (by simpa using hpa),
          List.filter_cons_of_neg (p := fun m => p m && ! (m == n)) hq]
        exact ih hnd.2 hmt hpn

theorem length_filter_unvisited_cons (n : Nat) (visited : List Nat) (hv : ¬ n ∈ visited) :
    ∀ (l : List Nat), l.Nodup → n ∈ l →
      (l.filter (fun m => ¬ (m ∈ visited))).length =
        (l.filter (fun m => ¬ (m ∈ (n :: visited)))).length + 1 := by
  intro l hnd hmem
  have base := length_filter_and_ne (fun m => decide (¬ (m ∈ visited))) n l hnd hmem
    (by simpa using hv)
  have hcongr : l.filter (fun m => decide (¬ (m ∈ visited)) && ! (m == n)) =
      l.filter (fun m => decide (¬ (m ∈ (n :: visited)))) := by
    apply List.filter_congr
    intro m _
    by_cases h1 : m = n <;> by_cases h2 : m ∈ visited <;> simp [h1, h2, List.mem_cons]
  rw [hcongr] at base
  exact base

theorem bfsFold_measure (g : Graph) (ns : List Nat)
    (hns : ∀ n ∈ ns, n ∈ allNodes g) :
    ∀ visited enq,
      ((allNodes g).filter (fun n => ¬ (n ∈ (ns.foldl bfsFold (visited, enq)).1))).length +
          (ns.foldl bfsFold (visited, enq)).2.length ≤
        ((allNodes g).filter (fun n => ¬ (n ∈ visited))).length + enq.length ∧
      (∀ v ∈ visited, v ∈ (ns.foldl bfsFold (visited, enq)).1) := by
  induction ns with
  | nil => intro visited enq; exact ⟨Nat.le_refl _, fun v hv => hv⟩
  | cons n rest ih =>
    intro visited enq
    have hn : n ∈ allNodes g := hns n (List.mem_cons_self _ _)
    have hrest : ∀ m ∈ rest, m ∈ allNodes g := fun m hm => hns m (List.mem_cons_of_mem _ hm)
    by_cases hv : n ∈ visited
    · have hstep : bfsFold (visited, enq) n = (visited, enq) := by
        simp [bfsFold, hv]
      rw [List.foldl_cons, hstep]
      exact ih hrest visited enq
    · have hstep : bfsFold (visited, enq) n = (n :: visited, enq ++ [n]) := by
        simp [bfsFold, hv]
      have step := ih hrest (n :: visited) (enq ++ [n])
      rw [List.foldl_cons, hstep]
      refine ⟨?_, ?_⟩
      · have hsplit :=
          length_filter_unvisited_cons n visited hv (allNodes g) (List.nodup_dedup _) hn
        have happ : (enq ++ [n]).length = enq.length + 1 := by simp
        have s1 := step.1
        omega
      · intro v hvv
        exact step.2 v (List.mem_cons_of_mem _ hvv)

/-- The loop of the `Bfs` iterator (`Bfs::next` driven to exhaustion), emitting
nodes in the order the iterator yields them. -/
def bfsVisit (g : Graph) (visited : List Nat) (queue : List Nat) : List Nat :=
  match queue with
  | [] => []
  | current :: rest =>
    let visited1 := insertSet current visited
    let r := (g.neighbors current).getD [] |>.foldl bfsFold (visited1, [])
    current :: bfsVisit g r.1 (rest ++ r.2)
termination_by ((allNodes g).filter (fun n => ¬ (n ∈ visited))).length + queue.length
decreasing_by
  have hns : ∀ n ∈ (g.neighbors current).getD [], n ∈ allNodes g := by
    intro n hn
    rcases hnb : g.neighbors current with _ | ns
    · simp [hnb] at hn
    · rw [hnb] at hn
      simp only [Option.getD_some] at hn
      rcases hlk : alookup g.adjacency_map current with _ | es
      · simp [Graph.neighbors, hlk] at hnb
      · have hes : ns = keysOf es := by
          simp [Graph.neighbors, hlk] at hnb
          exact hnb.symm
        subst hes
        have hmem : (current, es) ∈ g.adjacency_map := alookup_mem hlk
        simp only [allNodes, List.mem_dedup, List.mem_append]
        right
        exact List.mem_flatten.mpr ⟨keysOf es, List.mem_map.mpr ⟨(current, es), hmem, rfl⟩, hn⟩
  have h := bfsFold_measure g _ hns (insertSet current visited) []
  have hmono :
      ((allNodes g).filter (fun n =>
          ¬ (n ∈ insertSet current visited))).length ≤
        ((allNodes g).filter (fun n => ¬ (n ∈ visited))).length := by
    apply filter_length_mono
    intro a ha
    simp only [decide_eq_true_eq] at *
    intro hmem
    apply ha
    by_cases hc : current ∈ visited <;> simp [insertSet, hc]
    · exact hmem
    · exact Or.inr hmem
  simp only [List.length_append]
  have h1 := h.1
  simp only [List.length_nil] at h1
  have hc : (current :: rest).length = rest.length + 1 := rfl
  omega

/-- `Graph::bfs(start)` run to completion: the sequence of yielded nodes. -/
def Graph.bfsList (g : Graph) (start : Nat) : List Nat :=
  bfsVisit g [start] [start]

/-! ## The priority queue (`BinaryHeap<State>`) model

A heap entry is a pair `(node, distance)`.  The derived `Ord` on `State`
compares reversed distances first and breaks ties by node order, so the heap's
maximum is the entry with the least distance, largest node.  Distinct entries
never compare `Equal`, so "pop the maximum" is a function of the entry
multiset; we model the heap as the list of its entries. -/

/-- The `Ord for State` implementation: reversed on distance, then by node. -/
def stateCmp (a b : Nat × Nat) : Ordering :=
  (compare b.2 a.2).then (compare a.1 b.1)

/-- A maximal entry w.r.t. `stateCmp` (the one `BinaryHeap::pop` returns). -/
def heapMax : List (Nat × Nat) → Option (Nat × Nat)
  | [] => none
  | x :: xs =>
    match heapMax xs with
    | none => some x
    | some m => some (if stateCmp x m = Ordering.lt then m else x)

/-- Remove the first occurrence of an entry. -/
def removeFirst : List (Nat × Nat) → (Nat × Nat) → List (Nat × Nat)
  | [], _ => []
  | x :: xs, a => if x = a then xs else x :: removeFirst xs a

/-- `BinaryHeap::pop`. -/
def popMax (l : List (Nat × Nat)) : Option ((Nat × Nat) × List (Nat × Nat)) :=
  (heapMax l).map (fun m => (m, removeFirst l m))

theorem heapMax_mem : ∀ {l : List (Nat × Nat)} {m : Nat × Nat},
    heapMax l = some m → m ∈ l := by
  intro l
  induction l with
  | nil => intro m h; simp [heapMax] at h
  | cons x xs ih =>
    intro m h
    rcases hx : heapMax xs with _ | m'
    · rw [heapMax, hx] at h
      simp at h
      simp [h]
    · rw [heapMax, hx] at h
      simp at h
      by_cases hc : stateCmp x m' = Ordering.lt
      · rw [if_pos hc] at h
        subst h
        exact List.mem_cons_of_mem _ (ih hx)
      · rw [if_neg hc] at h
        simp [h]

theorem stateCmp_lt_le {x m : Nat × Nat} (h : stateCmp x m = Ordering.lt) : m.2 ≤ x.2 := by
  unfold stateCmp at h
  rcases hcc : compare m.2 x.2 with _ | _ | _
  · exact Nat.le_of_lt (Nat.compare_eq_lt.mp hcc)
  · exact Nat.le_of_eq (Nat.compare_eq_eq.mp hcc)
  · rw [hcc] at h
    simp [Ordering.then] at h

theorem stateCmp_not_lt_le {x m : Nat × Nat} (h : ¬ stateCmp x m = Ordering.lt) :
    x.2 ≤ m.2 := by
  unfold stateCmp at h
  rcases hcc : compare m.2 x.2 with _ | _ | _
  · rw [hcc] at h
    simp [Ordering.then] at h
  · exact Nat.le_of_eq (Nat.compare_eq_eq.mp hcc).symm
  · exact Nat.le_of_lt (Nat.compare_eq_gt.mp hcc)

theorem heapMax_isMin : ∀ {l : List (Nat × Nat)} {m : Nat × Nat},
    heapMax l = some m → ∀ x ∈ l, m.2 ≤ x.2 := by
  intro l
  induction l with
  | nil => intro m h; simp [heapMax] at h
  | cons x xs ih =>
    intro m h y hy
    rcases hx : heapMax xs with _ | m'
    · rw [heapMax, hx] at h
      simp at h
      subst h
      have hxs : xs = [] := by
        cases xs with
        | nil => rfl
        | cons a t =>
          rw [heapMax] at hx
          rcases hh : heapMax t with _ | _ <;> simp [hh] at hx
      subst hxs
      rcases List.mem_cons.mp hy with h1 | h1
      · subst h1
        exact Nat.le_refl _
      · simp at h1
    · rw [heapMax, hx] at h
      simp at h
      by_cases hc : stateCmp x m' = Ordering.lt
      · rw [if_pos hc] at h
        subst h
        rcases List.mem_cons.mp hy with h1 | h1
        · subst h1
          exact stateCmp_lt_le hc
        · exact ih hx y h1
      · rw [if_neg hc] at h
        subst h
        rcases List.mem_cons.mp hy with h1 | h1
        · subst h1
          exact Nat.le_refl _
        · exact Nat.le_trans (stateCmp_not_lt_le hc) (ih hx y h1)

theorem removeFirst_length {m : Nat × Nat} :
    ∀ {l : List (Nat × Nat)}, m ∈ l → (removeFirst l m).length + 1 = l.length := by
  intro l
  induction l with
  | nil => intro h; simp at h
  | cons x xs ih =>
    intro h
    by_cases hx : x = m
    · simp [removeFirst, hx]
    · have hm : m ∈ xs := by
        rcases List.mem_cons.mp h with h1 | h1
        · exact absurd h1.symm hx
        · exact h1
      simp [removeFirst, hx, ih hm]

theorem removeFirst_perm {m : Nat × Nat} :
    ∀ {l : List (Nat × Nat)}, m ∈ l → (m :: removeFirst l m).Perm l := by
  intro l
  induction l with
  | nil => intro h; simp at h
  | cons x xs ih =>
    intro h
    by_cases hx : x = m
    · subst hx
      simp [removeFirst]
    · have hm : m ∈ xs := by
        rcases List.mem_cons.mp h with h1 | h1
        · exact absurd h1.symm hx
        · exact h1
      simp only [removeFirst, hx, if_false]
      have h1 : (m :: x :: removeFirst xs m).Perm (x :: m :: removeFirst xs m) :=
        List.Perm.swap x m _
      exact h1.trans ((ih hm).cons x)

theorem popMax_none_iff (l : List (Nat × Nat)) : popMax l = none ↔ l = [] := by
  cases l with
  | nil => simp [popMax, heapMax]
  | cons x xs =>
    constructor
    · intro h
      unfold popMax at h
      rw [heapMax] at h
      rcases hh : heapMax xs with _ | _ <;> simp [hh] at h
    · intro h
      exact absurd h (by simp)

theorem popMax_mem {l : List (Nat × Nat)} {m : Nat × Nat} {rest : List (Nat × Nat)}
    (h : popMax l = some (m, rest)) : m ∈ l ∧ rest = removeFirst l m := by
  unfold popMax at h
  rcases hh : heapMax l with _ | m'
  · rw [hh] at h
    simp at h
  · rw [hh] at h
    simp at h
    obtain ⟨h1, h2⟩ := h
    subst h1
    exact ⟨heapMax_mem hh, h2.symm⟩

theorem popMax_isMin {l : List (Nat × Nat)} {m : Nat × Nat} {rest : List (Nat × Nat)}
    (h : popMax l = some (m, rest)) : ∀ x ∈ l, m.2 ≤ x.2 := by
  unfold popMax at h
  rcases hh : heapMax l with _ | m'
  · rw [hh] at h
    simp at h
  · rw [hh] at h
    simp at h
    obtain ⟨h1, _⟩ := h
    subst h1
    exact heapMax_isMin hh

theorem popMax_perm {l : List (Nat × Nat)} {m : Nat × Nat} {rest : List (Nat × Nat)}
    (h : popMax l = some (m, rest)) : (m :: rest).Perm l := by
  obtain ⟨hm, hr⟩ := popMax_mem h
  rw [hr]
  exact removeFirst_perm hm

theorem popMax_length {l : List (Nat × Nat)} {m : Nat × Nat} {rest : List (Nat × Nat)}
    (h : popMax l = some (m, rest)) : rest.length + 1 = l.length := by
  obtain ⟨hm, hr⟩ := popMax_mem h
  rw [hr]
  exact removeFirst_length hm

/-! ## Dijkstra (`Dijkstra::shortest_path`) -/

/-- The mutable state of a `Dijkstra` value. -/
structure DState where
  distances : List (Nat × Nat)
  predecessors : List (Nat × Nat)
  queue : List (Nat × Nat)
deriving DecidableEq

/-- The body of `reconstruct_path`'s `while let` loop, fuelled.  The loop
follows predecessor links until a node with no predecessor; under the
invariants maintained by the search the chain is acyclic, so
`preds.length + 1` steps always suffice (proved below). -/
def predChain (preds : List (Nat × Nat)) : Nat → Nat → List Nat
  | 0, cur => [cur]
  | fuel + 1, cur =>
    match alookup preds cur with
    | none => [cur]
    | some p => cur :: predChain preds fuel p

/-- `Dijkstra::reconstruct_path`. -/
def reconstruct_path (preds : List (Nat × Nat)) (endN : Nat) : List Nat :=
  (predChain preds (preds.length + 1) endN).reverse

/-- The body of `shortest_path`'s relaxation `for` loop for one neighbor
entry `e = (next, weight)`. -/
def relax1 (node dz : Nat) (s : DState) (e : Nat × Nat) : DState :=
  let nd := dz + e.2
  match alookup s.distances e.1 with
  | some cur =>
    if nd < cur then
      { distances := ainsert s.distances e.1 nd
        predecessors := ainsert s.predecessors e.1 node
        queue := s.queue ++ [(e.1, nd)] }
    else s
  | none =>
      { distances := ainsert s.distances e.1 nd
        predecessors := ainsert s.predecessors e.1 node
        queue := s.queue ++ [(e.1, nd)] }

/-- The whole relaxation loop over `neighbors_weighted(node)`. -/
def relaxAll (g : Graph) (node dz : Nat) (s : DState) : DState :=
  match alookup g.adjacency_map node with
  | some ns => ns.foldl (relax1 node dz) s
  | none => s

/-- Count of candidate nodes not yet in the distance map (first component of
the termination measure). -/
def mu1 (g : Graph) (dist : List (Nat × Nat)) : Nat :=
  ((allNodes g).filter (fun n => alookup dist n = none)).length

/-- Sum of all recorded tentative distances (second component). -/
def mu2 (dist : List (Nat × Nat)) : Nat := (dist.map Prod.snd).sum

theorem mu1_ainsert_some (g : Graph) (dist : List (Nat × Nat)) (k v : Nat)
    {cur : Nat} (h : alookup dist k = some cur) :
    mu1 g (ainsert dist k v) = mu1 g dist := by
  unfold mu1
  congr 1
  apply List.filter_congr
  intro n _
  rw [alookup_ainsert]
  by_cases hk : k = n
  · subst hk
    simp [h]
  · simp [hk]

theorem mu1_ainsert_none (g : Graph) (dist : List (Nat × Nat)) (k v : Nat)
    (h : alookup dist k = none) (hk : k ∈ allNodes g) :
    mu1 g (ainsert dist k v) + 1 = mu1 g dist := by
  have base := length_filter_and_ne (fun n => decide (alookup dist n = none)) k
    (allNodes g) (List.nodup_dedup _) hk (by simp [h])
  have hcongr : (allNodes g).filter
        (fun n => decide (alookup dist n = none) && ! (n == k)) =
      (allNodes g).filter (fun n => alookup (ainsert dist k v) n = none) := by
    apply List.filter_congr
    intro n _
    rw [alookup_ainsert]
    by_cases hk2 : k = n
    · subst hk2
      simp
    · have : ¬ (n = k) := fun hh => hk2 hh.symm
      simp [hk2, this]
  rw [hcongr] at base
  unfold mu1
  omega

theorem mu2_ainsert_some (dist : List (Nat × Nat)) (k v : Nat)
    {cur : Nat} (h : alookup dist k = some cur) :
    mu2 (ainsert dist k v) + cur = mu2 dist + v := by
  induction dist with
  | nil => simp [alookup] at h
  | cons p rest ih =>
    obtain ⟨a, b⟩ := p
    by_cases hak : a = k
    · subst hak
      rw [alookup] at h
      simp at h
      subst h
      simp [ainsert, mu2]
      omega
    · rw [alookup] at h
      rw [if_neg hak] at h
      have := ih h
      simp [ainsert, hak, mu2] at this ⊢
      omega

/-- Effect of one relaxation step on the termination measure: unchanged state,
or a strict lexicographic decrease in `(mu1, mu2)`. -/
theorem relax1_measure (g : Graph) (node dz : Nat) (s : DState) (e : Nat × Nat)
    (he : e.1 ∈ allNodes g) :
    relax1 node dz s e = s ∨
      (mu1 g (relax1 node dz s e).distances < mu1 g s.distances ∨
        (mu1 g (relax1 node dz s e).distances = mu1 g s.distances ∧
          mu2 (relax1 node dz s e).distances < mu2 s.distances)) := by
  unfold relax1
  rcases hd : alookup s.distances e.1 with _ | cur
  · right
    left
    simp only
    have := mu1_ainsert_none g s.distances e.1 (dz + e.2) hd he
    omega
  · by_cases hlt : dz + e.2 < cur
    · right
      right
      simp only [hlt, if_pos]
      constructor
      · exact mu1_ainsert_some g s.distances e.1 (dz + e.2) hd
      · have := mu2_ainsert_some s.distances e.1 (dz + e.2) hd
        omega
    · left
      simp [hlt]

/-- `relax1` never grows the pending queue except together with a measure
decrease; in the unchanged case everything is unchanged (it returns `s`). -/
theorem relaxFold_measure (g : Graph) (node dz : Nat) :
    ∀ (ns : List (Nat × Nat)), (∀ e ∈ ns, e.1 ∈ allNodes g) →
      ∀ (s : DState),
        ns.foldl (relax1 node dz) s = s ∨
          (mu1 g (ns.foldl (relax1 node dz) s).distances < mu1 g s.distances ∨
            (mu1 g (ns.foldl (relax1 node dz) s).distances = mu1 g s.distances ∧
              mu2 (ns.foldl (relax1 node dz) s).distances < mu2 s.distances)) := by
  intro ns
  induction ns with
  | nil => intro _ s; left; rfl
  | cons e rest ih =>
    intro hmem s
    have he : e.1 ∈ allNodes g := hmem e (List.mem_cons_self _ _)
    have hrest : ∀ x ∈ rest, x.1 ∈ allNodes g := fun x hx => hmem x (List.mem_cons_of_mem _ hx)
    rw [List.foldl_cons]
    rcases relax1_measure g node dz s e he with h1 | h1
    · rw [h1]
      exact ih hrest s
    · rcases ih hrest (relax1 node dz s e) with h2 | h2
      · rw [h2]
        right
        exact h1
      · right
        rcases h1 with h1 | h1 <;> rcases h2 with h2 | h2 <;>
          first
            | (left; omega)
            | (right; constructor <;> omega)

theorem relaxAll_measure (g : Graph) (node dz : Nat) (s : DState) :
    relaxAll g node dz s = s ∨
      (mu1 g (relaxAll g node dz s).distances < mu1 g s.distances ∨
        (mu1 g (relaxAll g node dz s).distances = mu1 g s.distances ∧
          mu2 (relaxAll g node dz s).distances < mu2 s.distances)) := by
  unfold relaxAll
  rcases hn : alookup g.adjacency_map node with _ | ns
  · left; rfl
  · apply relaxFold_measure
    intro e he
    have hmem : (node, ns) ∈ g.adjacency_map := alookup_mem hn
    simp only [allNodes, List.mem_dedup, List.mem_append]
    right
    refine List.mem_flatten.mpr ⟨keysOf ns, List.mem_map.mpr ⟨(node, ns), hmem, rfl⟩, ?_⟩
    exact List.mem_map.mpr ⟨e, he, rfl⟩

/-- `relax1` leaves the queue unchanged whenever it leaves the distances
unchanged (it either returns `s` or pushes). -/
theorem relaxAll_queue_of_eq (g : Graph) (node dz : Nat) (s : DState)
    (h : relaxAll g node dz s = s) : (relaxAll g node dz s).queue = s.queue := by
  rw [h]

theorem lex3_of {a1 a2 b1 b2 c1 c2 : Nat}
    (h : a1 < a2 ∨ (a1 = a2 ∧ (b1 < b2 ∨ (b1 = b2 ∧ c1 < c2)))) :
    Prod.Lex (· < ·) (Prod.Lex (· < ·) (· < ·)) (a1, b1, c1) (a2, b2, c2) := by
  rcases h with h | ⟨he, h⟩
  · exact Prod.Lex.left _ _ h
  · subst he
    rcases h with h | ⟨he2, h⟩
    · exact Prod.Lex.right _ (Prod.Lex.left _ _ h)
    · subst he2
      exact Prod.Lex.right _ (Prod.Lex.right _ h)

/-- The main loop of `Dijkstra::shortest_path`.  Terminates because every
iteration removes a queue entry, and entries are only pushed together with a
strict improvement of the distance map. -/
def dloop (g : Graph) (endN : Nat) (s : DState) : Option (List Nat × Nat) :=
  match hp : popMax s.queue with
  | none => none
  | some ((node, dz), rest) =>
    if node = endN then some (reconstruct_path s.predecessors endN, dz)
    else
      match alookup s.distances node with
      | some best =>
        if best < dz then dloop g endN { s with queue := rest }
        else dloop g endN (relaxAll g node dz { s with queue := rest })
      | none => dloop g endN (relaxAll g node dz { s with queue := rest })
termination_by (mu1 g s.distances, mu2 s.distances, s.queue.length)
decreasing_by
  · apply lex3_of
    dsimp only
    have hlen := popMax_length hp
    exact Or.inr ⟨rfl, Or.inr ⟨rfl, by omega⟩⟩
  · apply lex3_of
    rcases relaxAll_measure g node dz { s with queue := rest } with h | h
    · rw [h]
      dsimp only
      have hlen := popMax_length hp
      exact Or.inr ⟨rfl, Or.inr ⟨rfl, by omega⟩⟩
    · dsimp only at h ⊢
      rcases h with h | h
      · exact Or.inl h
      · exact Or.inr ⟨h.1, Or.inl h.2⟩

/-- `Dijkstra::new(graph, start)` followed by `shortest_path(&end)`;
also `Graph::shortest_path`. -/
def Graph.shortest_path (g : Graph) (start endN : Nat) : Option (List Nat × Nat) :=
  dloop g endN ⟨[(start, 0)], [], [(start, 0)]⟩

/-! ## `Dijkstra::all_shortest_paths` -/

/-- The state of `all_shortest_paths`: distances, the multi-predecessor map
`all_predecessors`, and the heap. -/
structure AState where
  distances : List (Nat × Nat)
  all_predecessors : List (Nat × List Nat)
  queue : List (Nat × Nat)
deriving DecidableEq

/-- One neighbor relaxation of `all_shortest_paths`: skip on strictly worse,
append a predecessor on a tie, clear-and-set predecessors plus push on
strictly better or first discovery. -/
def relaxA1 (node dz : Nat) (s : AState) (e : Nat × Nat) : AState :=
  let nd := dz + e.2
  match alookup s.distances e.1 with
  | some cur =>
    if cur < nd then s
    else if nd = cur then
      { s with all_predecessors :=
          aupsert s.all_predecessors e.1 (fun l => (l.getD []) ++ [node]) }
    else
      { distances := ainsert s.distances e.1 nd
        all_predecessors := aupsert s.all_predecessors e.1 (fun _ => [node])
        queue := s.queue ++ [(e.1, nd)] }
  | none =>
      { distances := ainsert s.distances e.1 nd
        all_predecessors := aupsert s.all_predecessors e.1 (fun _ => [node])
        queue := s.queue ++ [(e.1, nd)] }

def relaxAllA (g : Graph) (node dz : Nat) (s : AState) : AState :=
  match alookup g.adjacency_map node with
  | some ns => ns.foldl (relaxA1 node dz) s
  | none => s

/-- `Dijkstra::build_paths`, fuelled: the recursive depth-first enumeration of
all predecessor chains.  Under the search's invariants chains are acyclic, so
`preds.length + 1` levels of recursion suffice. -/
def build_paths (preds : List (Nat × List Nat)) :
    Nat → Nat → List Nat → List (List Nat)
  | 0, _, _ => []
  | fuel + 1, current, curPath =>
    let curPath2 := curPath ++ [current]
    match alookup preds current with
    | some ps => (ps.map (fun p => build_paths preds fuel p curPath2)).flatten
    | none => [curPath2]

/-- `Dijkstra::reconstruct_all_paths`. -/
def reconstruct_all_paths (preds : List (Nat × List Nat)) (endN : Nat) :
    List (List Nat) :=
  (build_paths preds (preds.length + 1) endN []).map List.reverse

theorem relaxA1_measure (g : Graph) (node dz : Nat) (s : AState) (e : Nat × Nat)
    (he : e.1 ∈ allNodes g) :
    ((relaxA1 node dz s e).distances = s.distances ∧
        (relaxA1 node dz s e).queue = s.queue) ∨
      (mu1 g (relaxA1 node dz s e).distances < mu1 g s.distances ∨
        (mu1 g (relaxA1 node dz s e).distances = mu1 g s.distances ∧
          mu2 (relaxA1 node dz s e).distances < mu2 s.distances)) := by
  unfold relaxA1
  rcases hd : alookup s.distances e.1 with _ | cur
  · right
    left
    simp only
    have := mu1_ainsert_none g s.distances e.1 (dz + e.2) hd he
    omega
  · by_cases hgt : cur < dz + e.2
    · left
      simp [hgt]
    · by_cases heq : dz + e.2 = cur
      · left
        simp [hgt, heq]
      · right
        right
        simp only [hgt, heq, if_neg, if_false]
        have hlt : dz + e.2 < cur := by omega
        constructor
        · exact mu1_ainsert_some g s.distances e.1 (dz + e.2) hd
        · have := mu2_ainsert_some s.distances e.1 (dz + e.2) hd
          omega

theorem relaxFoldA_measure (g : Graph) (node dz : Nat) :
    ∀ (ns : List (Nat × Nat)), (∀ e ∈ ns, e.1 ∈ allNodes g) →
      ∀ (s : AState),
        ((ns.foldl (relaxA1 node dz) s).distances = s.distances ∧
            (ns.foldl (relaxA1 node dz) s).queue = s.queue) ∨
          (mu1 g (ns.foldl (relaxA1 node dz) s).distances < mu1 g s.distances ∨
            (mu1 g (ns.foldl (relaxA1 node dz) s).distances = mu1 g s.distances ∧
              mu2 (ns.foldl (relaxA1 node dz) s).distances < mu2 s.distances)) := by
  intro ns
  induction ns with
  | nil => intro _ s; left; exact ⟨rfl, rfl⟩
  | cons e rest ih =>
    intro hmem s
    have he : e.1 ∈ allNodes g := hmem e (List.mem_cons_self _ _)
    have hrest : ∀ x ∈ rest, x.1 ∈ allNodes g := fun x hx => hmem x (List.mem_cons_of_mem _ hx)
    rw [List.foldl_cons]
    rcases relaxA1_measure g node dz s e he with h1 | h1
    · rcases ih hrest (relaxA1 node dz s e) with h2 | h2
      · left
        exact ⟨h2.1.trans h1.1, h2.2.trans h1.2⟩
      · right
        rw [h1.1] at h2
        exact h2
    · rcases ih hrest (relaxA1 node dz s e) with h2 | h2
      · right
        rw [h2.1]
        exact h1
      · right
        rcases h1 with h1 | h1 <;> rcases h2 with h2 | h2 <;>
          first
            | (left; omega)
            | (right; constructor <;> omega)

theorem relaxAllA_measure (g : Graph) (node dz : Nat) (s : AState) :
    ((relaxAllA g node dz s).distances = s.distances ∧
        (relaxAllA g node dz s).queue = s.queue) ∨
      (mu1 g (relaxAllA g node dz s).distances < mu1 g s.distances ∨
        (mu1 g (relaxAllA g node dz s).distances = mu1 g s.distances ∧
          mu2 (relaxAllA g node dz s).distances < mu2 s.distances)) := by
  unfold relaxAllA
  rcases hn : alookup g.adjacency_map node with _ | ns
  · left; exact ⟨rfl, rfl⟩
  · apply relaxFoldA_measure
    intro e he
    have hmem : (node, ns) ∈ g.adjacency_map := alookup_mem hn
    simp only [allNodes, List.mem_dedup, List.mem_append]
    right
    refine List.mem_flatten.mpr ⟨keysOf ns, List.mem_map.mpr ⟨(node, ns), hmem, rfl⟩, ?_⟩
    exact List.mem_map.mpr ⟨e, he, rfl⟩

/-- The main loop of `Dijkstra::all_shortest_paths`. -/
def aloop (g : Graph) (endN : Nat) (s : AState) : Option (List (List Nat) × Nat) :=
  match hp : popMax s.queue with
  | none => none
  | some ((node, dz), rest) =>
    if node = endN then some (reconstruct_all_paths s.all_predecessors endN, dz)
    else
      match alookup s.distances node with
      | some best =>
        if best < dz then aloop g endN { s with queue := rest }
        else aloop g endN (relaxAllA g node dz { s with queue := rest })
      | none => aloop g endN (relaxAllA g node dz { s with queue := rest })
termination_by (mu1 g s.distances, mu2 s.distances, s.queue.length)
decreasing_by
  · apply lex3_of
    dsimp only
    have hlen := popMax_length hp
    exact Or.inr ⟨rfl, Or.inr ⟨rfl, by omega⟩⟩
  · apply lex3_of
    rcases relaxAllA_measure g node dz { s with queue := rest } with h | h
    · dsimp only at h ⊢
      rw [h.1, h.2]
      have hlen := popMax_length hp
      exact Or.inr ⟨rfl, Or.inr ⟨rfl, by omega⟩⟩
    · dsimp only at h ⊢
      rcases h with h | h
      · exact Or.inl h
      · exact Or.inr ⟨h.1, Or.inl h.2⟩

/-- `Dijkstra::new(graph, start)` followed by `all_shortest_paths(&end)`. -/
def Graph.all_shortest_paths (g : Graph) (start endN : Nat) :
    Option (List (List Nat) × Nat) :=
  aloop g endN ⟨[(start, 0)], [], [(start, 0)]⟩

/-! ## `Graph::connected_components` -/

/-- `Vec::pop`: remove the last element. -/
def vecPop (v : List Nat) : Option (Nat × List Nat) :=
  match v.getLast? with
  | none => none
  | some x => some (x, v.dropLast)

/-- The generator loop of `connected_components`, materialised into a list. -/
def ccLoop (g : Graph) (nodes : List Nat) (visited : List Nat) : List Graph :=
  match hv : vecPop nodes with
  | none => []
  | some (node, rest) =>
    if node ∈ visited then ccLoop g rest visited
    else
      let component := g.bfsList node
      let rest2 := rest.filter (fun n => ¬ n ∈ component)
      g.subgraph component :: ccLoop g rest2 (visited ++ component)
termination_by nodes.length
decreasing_by
  all_goals
    have hlen : rest.length + 1 = nodes.length := by
      unfold vecPop at hv
      rcases hl : nodes.getLast? with _ | x
      · rw [hl] at hv
        simp at hv
      · rw [hl] at hv
        simp at hv
        obtain ⟨_, h2⟩ := hv
        subst h2
        have : nodes ≠ [] := by
          intro hh
          subst hh
          simp at hl
        rw [List.length_dropLast]
        have := List.length_pos.mpr this
        omega
  · omega
  · have hfil : (rest.filter (fun n => ¬ n ∈ g.bfsList node)).length ≤ rest.length :=
      List.length_filter_le _ _
    omega

/-- `Graph::connected_components`: an `InvalidOperation` error on directed
graphs, otherwise the component subgraphs in sorted-scan order. -/
def Graph.connected_components (g : Graph) : Except String (List Graph) :=
  if g.directed then
    Except.error "Cannot find connected components of a directed graph"
  else
    Except.ok (ccLoop g g.nodesList.reverse [])

/-! ## The grid (`src/lib.rs`) -/

/-- `Grid<T>`: a flat backing vector plus dimensions. -/
structure Grid (T : Type) where
  data : List T
  width : Nat
  height : Nat

namespace Grid

/-- `Grid::new(width, height, default)`: `vec![default; width * height]`. -/
def new {T : Type} (width height : Nat) (default : T) : Grid T :=
  ⟨List.replicate (width * height) default, width, height⟩

/-- `Grid::get`: bounds-checked read; `none` outside `[0,w) × [0,h)`. -/
def get {T : Type} (g : Grid T) (x y : Nat) : Option T :=
  if x < g.width ∧ y < g.height then g.data[y * g.width + x]? else none

/-- Unchecked indexing `grid[(x, y)]` (the `Index` impl): reads the backing
vector at the computed linear index; `none` models the `Vec` index panic. -/
def indexGet {T : Type} (g : Grid T) (x y : Nat) : Option T :=
  g.data[y * g.width + x]?

/-- `Vec::swap` on a list (both indices must be in bounds). -/
def listSwap {T : Type} (l : List T) (i j : Nat) : List T :=
  match l[i]?, l[j]? with
  | some a, some b => (l.set i b).set j a
  | _, _ => l

/-- `Grid::swap`: exchanges the data at the two computed linear indices;
`none` models the `Vec::swap` panic on an out-of-range linear index. -/
def swap {T : Type} (g : Grid T) (a b : Nat × Nat) : Option (Grid T) :=
  let i := a.2 * g.width + a.1
  let j := b.2 * g.width + b.1
  if i < g.data.length ∧ j < g.data.length then
    some { g with data := listSwap g.data i j }
  else none

/-- `Grid::idx_to_xy`. -/
def idx_to_xy {T : Type} (g : Grid T) (idx : Nat) : Nat × Nat :=
  let x := idx % g.width
  let y := (idx - x) / g.width
  (x, y)

/-- The `(dx, dy)` pairs visited by `Grid::neighbors`' double loop
(`dy` outer, `dx` inner, centre skipped), in visit order. -/
def neighborOffsets : List (Int × Int) :=
  [(-1, -1), (0, -1), (1, -1), (-1, 0), (1, 0), (-1, 1), (0, 1), (1, 1)]

/-- The cardinal offsets of `Grid::cardinal_neighbors`, in source order. -/
def cardinalOffsets : List (Int × Int) := [(0, -1), (1, 0), (0, 1), (-1, 0)]

/-- `usize as i32`: truncate to the low 32 bits, read as two's complement
(what the source's `as` cast does in every build profile). -/
def toI32 (n : Nat) : Int :=
  if n % 2 ^ 32 < 2 ^ 31 then ((n % 2 ^ 32 : Nat) : Int)
  else ((n % 2 ^ 32 : Nat) : Int) - 2 ^ 32

/-- Wrapping `i32` addition (the release-profile `+`; a debug build panics on
overflow, and every theorem below stays in the range where the two agree). -/
def addI32 (a b : Int) : Int :=
  (a + b + 2 ^ 31) % 2 ^ 32 - 2 ^ 31

/-- Keep an offset if the shifted coordinate is inside the grid, computing
`x as i32 + dx` and comparing against `width as i32` exactly as the source
does; `new_x as usize` on the guarded non-negative result is `Int.toNat`. -/
def offsetFilter {T : Type} (g : Grid T) (x y : Nat) (d : Int × Int) :
    Option (Nat × Nat) :=
  let nx : Int := addI32 (toI32 x) d.1
  let ny : Int := addI32 (toI32 y) d.2
  if 0 ≤ nx ∧ nx < toI32 g.width ∧ 0 ≤ ny ∧ ny < toI32 g.height then
    some (nx.toNat, ny.toNat)
  else none

/-- `Grid::neighbors`: the in-bounds Moore neighborhood. -/
def neighbors {T : Type} (g : Grid T) (x y : Nat) : List (Nat × Nat) :=
  neighborOffsets.filterMap (offsetFilter g x y)

/-- `Grid::cardinal_neighbors`: the in-bounds axis-aligned neighbors. -/
def cardinal_neighbors {T : Type} (g : Grid T) (x y : Nat) : List (Nat × Nat) :=
  cardinalOffsets.filterMap (offsetFilter g x y)

end Grid

/-! ## Fuelled twins of the search loops

The loops above use well-founded recursion, which the kernel cannot evaluate
directly.  These structurally recursive twins return `none` when out of fuel
and `some result` when the loop finished; a twin run that finishes agrees with
the loop.  Concrete executions are carried out on the twins. -/

def dloopF (g : Graph) (endN : Nat) : Nat → DState → Option (Option (List Nat × Nat))
  | 0, _ => none
  | fuel + 1, s =>
    match popMax s.queue with
    | none => some none
    | some ((node, dz), rest) =>
      if node = endN then some (some (reconstruct_path s.predecessors endN, dz))
      else
        match alookup s.distances node with
        | some best =>
          if best < dz then dloopF g endN fuel { s with queue := rest }
          else dloopF g endN fuel (relaxAll g node dz { s with queue := rest })
        | none => dloopF g endN fuel (relaxAll g node dz { s with queue := rest })

def aloopF (g : Graph) (endN : Nat) :
    Nat → AState → Option (Option (List (List Nat) × Nat))
  | 0, _ => none
  | fuel + 1, s =>
    match popMax s.queue with
    | none => some none
    | some ((node, dz), rest) =>
      if node = endN then
        some (some (reconstruct_all_paths s.all_predecessors endN, dz))
      else
        match alookup s.distances node with
        | some best =>
          if best < dz then aloopF g endN fuel { s with queue := rest }
          else aloopF g endN fuel (relaxAllA g node dz { s with queue := rest })
        | none => aloopF g endN fuel (relaxAllA g node dz { s with queue := rest })

def bfsVisitF (g : Graph) : Nat → List Nat → List Nat → Option (List Nat)
  | 0, _, _ => none
  | fuel + 1, visited, queue =>
    match queue with
    | [] => some []
    | current :: rest =>
      let visited1 := insertSet current visited
      let r := (g.neighbors current).getD [] |>.foldl bfsFold (visited1, [])
      (bfsVisitF g fuel r.1 (rest ++ r.2)).map (fun t => current :: t)

theorem dloopF_sound (g : Graph) (endN : Nat) :
    ∀ (fuel : Nat) (s : DState) (r : Option (List Nat × Nat)),
      dloopF g endN fuel s = some r → dloop g endN s = r := by
  intro fuel
  induction fuel with
  | zero => intro s r h; simp [dloopF] at h
  | succ n ih =>
    intro s r h
    rw [dloop]
    rw [dloopF] at h
    rcases hp : popMax s.queue with _ | p
    · rw [hp] at h
      dsimp only
      simp at h
      simp [h]
    · obtain ⟨⟨node, dz⟩, rest⟩ := p
      rw [hp] at h
      dsimp only
      dsimp only at h
      by_cases hend : node = endN
      · rw [if_pos hend] at h ⊢
        simp at h
        simp [h]
      · rw [if_neg hend] at h ⊢
        rcases hd : alookup s.distances node with _ | best
        · rw [hd] at h
          dsimp only at h ⊢
          exact ih _ _ h
        · rw [hd] at h
          dsimp only at h ⊢
          by_cases hb : best < dz
          · rw [if_pos hb] at h ⊢
            exact ih _ _ h
          · rw [if_neg hb] at h ⊢
            exact ih _ _ h

theorem aloopF_sound (g : Graph) (endN : Nat) :
    ∀ (fuel : Nat) (s : AState) (r : Option (List (List Nat) × Nat)),
      aloopF g endN fuel s = some r → aloop g endN s = r := by
  intro fuel
  induction fuel with
  | zero => intro s r h; simp [aloopF] at h
  | succ n ih =>
    intro s r h
    rw [aloop]
    rw [aloopF] at h
    rcases hp : popMax s.queue with _ | p
    · rw [hp] at h
      dsimp only
      simp at h
      simp [h]
    · obtain ⟨⟨node, dz⟩, rest⟩ := p
      rw [hp] at h
      dsimp only
      dsimp only at h
      by_cases hend : node = endN
      · rw [if_pos hend] at h ⊢
        simp at h
        simp [h]
      · rw [if_neg hend] at h ⊢
        rcases hd : alookup s.distances node with _ | best
        · rw [hd] at h
          dsimp only at h ⊢
          exact ih _ _ h
        · rw [hd] at h
          dsimp only at h ⊢
          by_cases hb : best < dz
          · rw [if_pos hb] at h ⊢
            exact ih _ _ h
          · rw [if_neg hb] at h ⊢
            exact ih _ _ h

theorem bfsVisitF_sound (g : Graph) :
    ∀ (fuel : Nat) (visited queue : List Nat) (r : List Nat),
      bfsVisitF g fuel visited queue = some r → bfsVisit g visited queue = r := by
  intro fuel
  induction fuel with
  | zero => intro v q r h; simp [bfsVisitF] at h
  | succ n ih =>
    intro v q r h
    rw [bfsVisit.eq_def]
    rw [bfsVisitF.eq_def] at h
    dsimp only at h
    cases q with
    | nil =>
      simp at h
      simp [h]
    | cons current rest =>
      simp only [Option.map_eq_some'] at h
      obtain ⟨t, ht, hr⟩ := h
      subst hr
      simp only
      rw [ih _ _ _ ht]

/-! ## Specification vocabulary: walks, reachability, distances, path lists -/

/-- A walk from `s` through weighted edges, with its total weight. -/
inductive Walk (g : Graph) (s : Nat) : Nat → Nat → Prop
  | nil : Walk g s s 0
  | cons {u v d w : Nat} :
      Walk g s u d → g.get_weight u v = some w → Walk g s v (d + w)

/-- A walk from `s` counted by its number of edges. -/
inductive WalkLen (g : Graph) (s : Nat) : Nat → Nat → Prop
  | nil : WalkLen g s s 0
  | cons {u v k : Nat} :
      WalkLen g s u k → g.has_edge u v = true → WalkLen g s v (k + 1)

/-- `v` is reachable from `s`. -/
def Reach (g : Graph) (s v : Nat) : Prop := ∃ k, WalkLen g s v k

/-- `d` is the graph distance (least edge count) from `s` to `v`. -/
def IsDist (g : Graph) (s v d : Nat) : Prop :=
  WalkLen g s v d ∧ ∀ k, WalkLen g s v k → d ≤ k

theorem has_edge_iff_get_weight (g : Graph) (u v : Nat) :
    g.has_edge u v = true ↔ ∃ w, g.get_weight u v = some w := by
  unfold Graph.has_edge Graph.get_weight
  rcases h : alookup g.adjacency_map u with _ | es
  · simp
  · simp [Option.isSome_iff_exists]

theorem walk_reach {g : Graph} {s v d : Nat} (h : Walk g s v d) : Reach g s v := by
  induction h with
  | nil => exact ⟨0, WalkLen.nil⟩
  | cons _ he ih =>
    obtain ⟨k, hk⟩ := ih
    exact ⟨k + 1, WalkLen.cons hk ((has_edge_iff_get_weight _ _ _).mpr ⟨_, he⟩)⟩

theorem reach_walk {g : Graph} {s v : Nat} (h : Reach g s v) : ∃ d, Walk g s v d := by
  obtain ⟨k, hk⟩ := h
  induction hk with
  | nil => exact ⟨0, Walk.nil⟩
  | cons _ he ih =>
    obtain ⟨d, hd⟩ := ih
    obtain ⟨w, hw⟩ := (has_edge_iff_get_weight _ _ _).mp he
    exact ⟨d + w, Walk.cons hd hw⟩

/-- The total weight of a node list read as a path (`none` if the list is
empty or some consecutive pair is not an edge). -/
def listPathWeight (g : Graph) : List Nat → Option Nat
  | [] => none
  | [_] => some 0
  | a :: b :: rest =>
    match g.get_weight a b, listPathWeight g (b :: rest) with
    | some w, some rw => some (w + rw)
    | _, _ => none

/-- `l` is a path from `s` to `e` of total weight `wt`. -/
def IsPathList (g : Graph) (s e : Nat) (l : List Nat) (wt : Nat) : Prop :=
  l.head? = some s ∧ l.getLast? = some e ∧ listPathWeight g l = some wt

theorem listPathWeight_snoc (g : Graph) :
    ∀ (l : List Nat) (u v d w : Nat), l.getLast? = some u →
      g.get_weight u v = some w → listPathWeight g l = some d →
      listPathWeight g (l ++ [v]) = some (d + w) := by
  intro l
  induction l with
  | nil => intro u v d w hl; simp at hl
  | cons a t ih =>
    intro u v d w hl he hw
    cases t with
    | nil =>
      simp at hl
      subst hl
      simp [listPathWeight] at hw
      subst hw
      simp [listPathWeight, he]
    | cons b t2 =>
      rw [List.getLast?_cons_cons] at hl
      unfold listPathWeight at hw
      rcases h1 : g.get_weight a b with _ | w1
      · rw [h1] at hw
        simp at hw
      · rw [h1] at hw
        rcases h2 : listPathWeight g (b :: t2) with _ | rw2
        · rw [h2] at hw
          simp at hw
        · rw [h2] at hw
          simp at hw
          have hrec := ih u v rw2 w hl he h2
          have hlist : (a :: b :: t2) ++ [v] = a :: (b :: (t2 ++ [v])) := by simp
          rw [hlist]
          unfold listPathWeight
          have hlist2 : b :: (t2 ++ [v]) = (b :: t2) ++ [v] := by simp
          rw [hlist2, hrec, h1]
          simp
          omega

theorem walk_to_pathList {g : Graph} {s v d : Nat} (h : Walk g s v d) :
    ∃ l, IsPathList g s v l d := by
  induction h with
  | nil => exact ⟨[s], by simp, by simp, rfl⟩
  | @cons u v' d' w _ he ih =>
    obtain ⟨l, h1, h2, h3⟩ := ih
    refine ⟨l ++ [v'], ?_, ?_, ?_⟩
    · cases l with
      | nil => simp at h1
      | cons a t => simpa using h1
    · simp
    · exact listPathWeight_snoc g l u v' d' w h2 he h3

theorem pathList_to_walk_aux (g : Graph) :
    ∀ (l : List Nat) (a e wt : Nat), l.head? = some a → l.getLast? = some e →
      listPathWeight g l = some wt →
      ∀ (s d0 : Nat), Walk g s a d0 → Walk g s e (d0 + wt) := by
  intro l
  induction l with
  | nil => intro a e wt h1; simp at h1
  | cons x t ih =>
    intro a e wt h1 h2 h3 s d0 hw
    simp at h1
    subst h1
    cases t with
    | nil =>
      simp at h2
      subst h2
      simp [listPathWeight] at h3
      subst h3
      simpa using hw
    | cons b t2 =>
      rw [List.getLast?_cons_cons] at h2
      unfold listPathWeight at h3
      rcases hab : g.get_weight x b with _ | w1
      · rw [hab] at h3
        simp at h3
      · rw [hab] at h3
        rcases hrest : listPathWeight g (b :: t2) with _ | rw2
        · rw [hrest] at h3
          simp at h3
        · rw [hrest] at h3
          simp at h3
          have hwb : Walk g s b (d0 + w1) := Walk.cons hw hab
          have := ih b e rw2 rfl h2 hrest s (d0 + w1) hwb
          rw [← h3]
          have hassoc : d0 + w1 + rw2 = d0 + (w1 + rw2) := by omega
          rwa [hassoc] at this

theorem pathList_to_walk {g : Graph} {s e : Nat} {l : List Nat} {wt : Nat}
    (h : IsPathList g s e l wt) : Walk g s e wt := by
  obtain ⟨h1, h2, h3⟩ := h
  have := pathList_to_walk_aux g l s e wt h1 h2 h3 s 0 Walk.nil
  simpa using this

theorem walk_iff_pathList (g : Graph) (s v d : Nat) :
    Walk g s v d ↔ ∃ l, IsPathList g s v l d :=
  ⟨walk_to_pathList, fun ⟨_, hl⟩ => pathList_to_walk hl⟩

/-! ## Grid lemmas (claims C6, C7, C10) -/

theorem grid_new_get (T : Type) (w h : Nat) (d : T) (x y : Nat) :
    Grid.get (Grid.new w h d) x y = if x < w ∧ y < h then some d else none := by
  unfold Grid.get Grid.new
  by_cases hb : x < w ∧ y < h
  · rw [if_pos hb, if_pos hb]
    have hlt : y * w + x < w * h := by
      obtain ⟨h1, h2⟩ := hb
      calc y * w + x < y * w + w := by omega
        _ = (y + 1) * w := by ring
        _ ≤ h * w := Nat.mul_le_mul_right w (by omega)
        _ = w * h := Nat.mul_comm h w
    simp [List.getElem?_replicate, hlt]
  · rw [if_neg hb, if_neg hb]

theorem mem_cardinal_mem_neighbors (T : Type) (g : Grid T) (x y : Nat) :
    ∀ p ∈ g.cardinal_neighbors x y, p ∈ g.neighbors x y := by
  intro p hp
  unfold Grid.cardinal_neighbors at hp
  unfold Grid.neighbors
  rw [List.mem_filterMap] at hp ⊢
  obtain ⟨d, hd, hfd⟩ := hp
  refine ⟨d, ?_, hfd⟩
  unfold Grid.cardinalOffsets at hd
  unfold Grid.neighborOffsets
  rcases List.mem_cons.mp hd with h1 | h1
  · subst h1; simp
  rcases List.mem_cons.mp h1 with h2 | h2
  · subst h2; simp
  rcases List.mem_cons.mp h2 with h3 | h3
  · subst h3; simp
  rcases List.mem_cons.mp h3 with h4 | h4
  · subst h4; simp
  · simp at h4

theorem toI32_eq (n : Nat) (h : n < 2 ^ 31) : Grid.toI32 n = (n : Int) := by
  unfold Grid.toI32
  have h32 : n % 2 ^ 32 = n := Nat.mod_eq_of_lt (by omega)
  rw [h32, if_pos h]

theorem addI32_eq (a b : Int) (h1 : -2 ^ 31 ≤ a + b) (h2 : a + b < 2 ^ 31) :
    Grid.addI32 a b = a + b := by
  unfold Grid.addI32
  have hm : (a + b + 2 ^ 31) % 2 ^ 32 = a + b + 2 ^ 31 :=
    Int.emod_eq_of_lt (by omega) (by omega)
  omega

/-- On grids whose extents fit `i32` and at in-bounds coordinates, the
source's truncating casts agree with exact arithmetic. -/
theorem offsetFilter_ideal {T : Type} (g : Grid T) (x y : Nat) (d : Int × Int)
    (hw : g.width < 2 ^ 31) (hh : g.height < 2 ^ 31)
    (hx : x < g.width) (hy : y < g.height)
    (hd1 : -1 ≤ d.1 ∧ d.1 ≤ 1) (hd2 : -1 ≤ d.2 ∧ d.2 ≤ 1) :
    Grid.offsetFilter g x y d =
      (if 0 ≤ (x : Int) + d.1 ∧ (x : Int) + d.1 < (g.width : Int) ∧
          0 ≤ (y : Int) + d.2 ∧ (y : Int) + d.2 < (g.height : Int) then
        some (((x : Int) + d.1).toNat, ((y : Int) + d.2).toNat)
      else none) := by
  unfold Grid.offsetFilter
  rw [toI32_eq x (by omega), toI32_eq y (by omega),
    toI32_eq g.width hw, toI32_eq g.height hh,
    addI32_eq (x : Int) d.1 (by omega) (by omega),
    addI32_eq (y : Int) d.2 (by omega) (by omega)]

theorem cardinal_nonempty_of_wide (T : Type) (g : Grid T) (x y : Nat)
    (hx : x < g.width) (hy : y < g.height) (hw : 2 ≤ g.width)
    (hw31 : g.width < 2 ^ 31) (hh31 : g.height < 2 ^ 31) :
    g.cardinal_neighbors x y ≠ [] := by
  unfold Grid.cardinal_neighbors Grid.cardinalOffsets
  by_cases hx0 : x + 1 < g.width
  · -- the (1, 0) offset survives
    intro hc
    have : ((1 : Int), (0 : Int)) ∈ [((0 : Int), (-1 : Int)), (1, 0), (0, 1), (-1, 0)] := by
      simp
    have hmem : ((x + 1 : Nat), y) ∈
        List.filterMap (Grid.offsetFilter g x y)
          [((0 : Int), (-1 : Int)), (1, 0), (0, 1), (-1, 0)] := by
      rw [List.mem_filterMap]
      refine ⟨(1, 0), this, ?_⟩
      rw [offsetFilter_ideal g x y (1, 0) hw31 hh31 hx hy (by norm_num) (by norm_num)]
      dsimp only
      have hcond : (0 : Int) ≤ (x : Int) + 1 ∧ (x : Int) + 1 < (g.width : Int) ∧
          (0 : Int) ≤ (y : Int) + 0 ∧ (y : Int) + 0 < (g.height : Int) := by
        refine ⟨by omega, ?_, by omega, ?_⟩
        · omega
        · omega
      rw [if_pos hcond]
      simp
      try omega
    rw [hc] at hmem
    simp at hmem
  · -- x = width - 1 ≥ 1, so the (-1, 0) offset survives
    have hx1 : 1 ≤ x := by omega
    intro hc
    have hmem : ((x - 1 : Nat), y) ∈
        List.filterMap (Grid.offsetFilter g x y)
          [((0 : Int), (-1 : Int)), (1, 0), (0, 1), (-1, 0)] := by
      rw [List.mem_filterMap]
      refine ⟨(-1, 0), by simp, ?_⟩
      rw [offsetFilter_ideal g x y (-1, 0) hw31 hh31 hx hy (by norm_num) (by norm_num)]
      dsimp only
      have hcond : (0 : Int) ≤ (x : Int) + (-1) ∧ (x : Int) + (-1) < (g.width : Int) ∧
          (0 : Int) ≤ (y : Int) + 0 ∧ (y : Int) + 0 < (g.height : Int) := by
        refine ⟨by omega, by omega, by omega, by omega⟩
      rw [if_pos hcond]
      simp
      try omega
    rw [hc] at hmem
    simp at hmem

theorem cardinal_nonempty_of_tall (T : Type) (g : Grid T) (x y : Nat)
    (hx : x < g.width) (hy : y < g.height) (hh : 2 ≤ g.height)
    (hw31 : g.width < 2 ^ 31) (hh31 : g.height < 2 ^ 31) :
    g.cardinal_neighbors x y ≠ [] := by
  unfold Grid.cardinal_neighbors Grid.cardinalOffsets
  by_cases hy0 : y + 1 < g.height
  · intro hc
    have hmem : (x, (y + 1 : Nat)) ∈
        List.filterMap (Grid.offsetFilter g x y)
          [((0 : Int), (-1 : Int)), (1, 0), (0, 1), (-1, 0)] := by
      rw [List.mem_filterMap]
      refine ⟨(0, 1), by simp, ?_⟩
      rw [offsetFilter_ideal g x y (0, 1) hw31 hh31 hx hy (by norm_num) (by norm_num)]
      dsimp only
      have hcond : (0 : Int) ≤ (x : Int) + 0 ∧ (x : Int) + 0 < (g.width : Int) ∧
          (0 : Int) ≤ (y : Int) + 1 ∧ (y : Int) + 1 < (g.height : Int) := by
        refine ⟨by omega, by omega, by omega, by omega⟩
      rw [if_pos hcond]
      simp
      try omega
    rw [hc] at hmem
    simp at hmem
  · have hy1 : 1 ≤ y := by omega
    intro hc
    have hmem : (x, (y - 1 : Nat)) ∈
        List.filterMap (Grid.offsetFilter g x y)
          [((0 : Int), (-1 : Int)), (1, 0), (0, 1), (-1, 0)] := by
      rw [List.mem_filterMap]
      refine ⟨(0, -1), by simp, ?_⟩
      rw [offsetFilter_ideal g x y (0, -1) hw31 hh31 hx hy (by norm_num) (by norm_num)]
      dsimp only
      have hcond : (0 : Int) ≤ (x : Int) + 0 ∧ (x : Int) + 0 < (g.width : Int) ∧
          (0 : Int) ≤ (y : Int) + (-1) ∧ (y : Int) + (-1) < (g.height : Int) := by
        refine ⟨by omega, by omega, by omega, by omega⟩
      rw [if_pos hcond]
      simp
      try omega
    rw [hc] at hmem
    simp at hmem

theorem grid_unchecked_alias (T : Type) (g : Grid T) (x y : Nat)
    (hlen : g.data.length = g.width * g.height) (hx : g.width ≤ x)
    (hidx : y * g.width + x < g.width * g.height) :
    (∃ t, Grid.indexGet g x y = some t) ∧
      Grid.get g x y = none ∧
      Grid.indexGet g x y =
        Grid.get g ((y * g.width + x) % g.width) ((y * g.width + x) / g.width) ∧
      ((y * g.width + x) % g.width, (y * g.width + x) / g.width) ≠ (x, y) ∧
      (∀ x2 y2, y2 * g.width + x2 < g.width * g.height →
        (Grid.swap g (x, y) (x2, y2)).isSome = true) := by
  have hwpos : 0 < g.width := by
    rcases Nat.eq_zero_or_pos g.width with h0 | h0
    · rw [h0] at hidx
      omega
    · exact h0
  have hlt : y * g.width + x < g.data.length := by omega
  have hmod : (y * g.width + x) % g.width < g.width := Nat.mod_lt _ hwpos
  have hdiv : (y * g.width + x) / g.width < g.height := by
    rw [Nat.div_lt_iff_lt_mul hwpos]
    calc y * g.width + x < g.width * g.height := hidx
      _ = g.height * g.width := Nat.mul_comm _ _
  refine ⟨⟨g.data.get ⟨y * g.width + x, hlt⟩, ?_⟩, ?_, ?_, ?_, ?_⟩
  · unfold Grid.indexGet
    exact List.getElem?_eq_getElem hlt
  · unfold Grid.get
    rw [if_neg]
    intro hcon
    omega
  · unfold Grid.indexGet Grid.get
    rw [if_pos ⟨hmod, hdiv⟩]
    congr 1
    have := Nat.div_add_mod (y * g.width + x) g.width
    calc y * g.width + x
        = g.width * ((y * g.width + x) / g.width) + (y * g.width + x) % g.width := this.symm
      _ = (y * g.width + x) / g.width * g.width + (y * g.width + x) % g.width := by ring
  · intro hcon
    have h1 : (y * g.width + x) % g.width = x := congrArg Prod.fst hcon
    omega
  · intro x2 y2 h2
    unfold Grid.swap
    rw [if_pos ⟨by dsimp only; omega, by dsimp only; omega⟩]
    rfl

/-! ## BFS first element (claim C9) -/

theorem bfsList_head (g : Graph) (s : Nat) : ∃ t, g.bfsList s = s :: t := by
  unfold Graph.bfsList
  rw [bfsVisit.eq_def]
  dsimp only
  exact ⟨_, rfl⟩

theorem bfsList_absent (g : Graph) (s : Nat)
    (h : alookup g.adjacency_map s = none) : g.bfsList s = [s] := by
  unfold Graph.bfsList
  rw [bfsVisit.eq_def]
  have hn : g.neighbors s = none := by
    unfold Graph.neighbors
    rw [h]
    rfl
  dsimp only
  rw [hn]
  simp only [Option.getD_none, List.foldl_nil, List.nil_append]
  rw [bfsVisit.eq_def]

/-! ## Connected components error behaviour (claim C5) -/

theorem connected_components_error_iff (g : Graph) :
    ((∃ e, g.connected_components = Except.error e) ↔ g.directed = true) ∧
      ((∃ l, g.connected_components = Except.ok l) ↔ g.directed = false) := by
  unfold Graph.connected_components
  by_cases h : g.directed = true
  · rw [if_pos h]
    constructor
    · exact ⟨fun _ => h, fun _ => ⟨_, rfl⟩⟩
    · constructor
      · intro ⟨l, hl⟩
        cases hl
      · intro hfalse
        rw [h] at hfalse
        cases hfalse
  · rw [if_neg h]
    have hf : g.directed = false := by
      cases hd : g.directed
      · rfl
      · exact absurd hd h
    constructor
    · constructor
      · intro ⟨e, he⟩
        cases he
      · intro ht
        exact absurd ht h
    · exact ⟨fun _ => hf, fun _ => ⟨_, rfl⟩⟩

/-! ## The undirected mirror invariant (claim C4) -/

/-- Every stored edge has its mirror with the same weight. -/
def Mirrored (g : Graph) : Prop :=
  ∀ u v w, g.get_weight u v = some w → g.get_weight v u = some w

theorem get_weight_eq_getD (g : Graph) (u v : Nat) :
    g.get_weight u v = alookup ((alookup g.adjacency_map u).getD []) v := by
  unfold Graph.get_weight
  rcases h : alookup g.adjacency_map u with _ | es
  · simp [alookup]
  · simp

theorem get_weight_add_node (g : Graph) (n u v : Nat) :
    (g.add_node n).get_weight u v = g.get_weight u v := by
  rw [get_weight_eq_getD, get_weight_eq_getD]
  unfold Graph.add_node
  dsimp only
  rw [alookup_aupsert]
  by_cases h : n = u
  · subst h
    rcases hlk : alookup g.adjacency_map n with _ | es <;> simp
  · rw [if_neg h]

theorem directed_add_node (g : Graph) (n : Nat) :
    (g.add_node n).directed = g.directed := rfl

theorem directed_add_edge_weighted (g : Graph) (a b w : Nat) :
    (g.add_edge_weighted a b w).directed = g.directed := by
  unfold Graph.add_edge_weighted
  split <;> rfl

theorem get_weight_add_edge_undirected (g : Graph) (a b w u v : Nat)
    (hg : g.directed = false) :
    (g.add_edge_weighted a b w).get_weight u v =
      if (u = a ∧ v = b) ∨ (u = b ∧ v = a) then some w else g.get_weight u v := by
  unfold Graph.add_edge_weighted
  rw [hg]
  simp only [Bool.false_eq_true, if_false]
  rw [get_weight_eq_getD]
  dsimp only
  rw [alookup_aupsert]
  by_cases hbu : b = u
  · subst hbu
    rw [if_pos rfl, Option.getD_some, alookup_ainsert]
    by_cases hav : a = v
    · subst hav
      rw [if_pos rfl, if_pos (Or.inr ⟨rfl, rfl⟩)]
    · rw [if_neg hav, alookup_aupsert]
      by_cases hab : a = b
      · rw [if_pos hab, Option.getD_some, alookup_ainsert, if_neg ?hbv, if_neg ?hc1]
        case hbv =>
          intro hcon
          exact hav (hab.trans hcon)
        case hc1 =>
          intro hcon
          rcases hcon with ⟨_, h2⟩ | ⟨_, h2⟩
          · exact hav (hab.trans h2.symm)
          · exact hav h2.symm
        rw [← hab]
        exact (get_weight_eq_getD g a v).symm
      · rw [if_neg hab, if_neg ?hc2]
        case hc2 =>
          intro hcon
          rcases hcon with ⟨h1, _⟩ | ⟨_, h2⟩
          · exact hab h1.symm
          · exact hav h2.symm
        exact (get_weight_eq_getD g b v).symm
  · rw [if_neg hbu, alookup_aupsert]
    by_cases hau : a = u
    · subst hau
      rw [if_pos rfl, Option.getD_some, alookup_ainsert]
      by_cases hbv : b = v
      · subst hbv
        rw [if_pos rfl, if_pos (Or.inl ⟨rfl, rfl⟩)]
      · rw [if_neg hbv, if_neg ?hc3]
        case hc3 =>
          intro hcon
          rcases hcon with ⟨_, h2⟩ | ⟨h1, _⟩
          · exact hbv h2.symm
          · exact hbu h1.symm
        exact (get_weight_eq_getD g a v).symm
    · rw [if_neg hau, if_neg ?hc4]
      case hc4 =>
        intro hcon
        rcases hcon with ⟨h1, _⟩ | ⟨h1, _⟩
        · exact hau h1.symm
        · exact hbu h1.symm
      exact (get_weight_eq_getD g u v).symm

theorem mirrored_add_node (g : Graph) (n : Nat) (h : Mirrored g) :
    Mirrored (g.add_node n) := by
  intro u v w hw
  rw [get_weight_add_node] at hw
  rw [get_weight_add_node]
  exact h u v w hw

theorem mirrored_add_edge_weighted (g : Graph) (a b w : Nat)
    (hg : g.directed = false) (h : Mirrored g) :
    Mirrored (g.add_edge_weighted a b w) := by
  intro u v wt hw
  rw [get_weight_add_edge_undirected g a b w u v hg] at hw
  rw [get_weight_add_edge_undirected g a b w v u hg]
  by_cases hcond : (u = a ∧ v = b) ∨ (u = b ∧ v = a)
  · rw [if_pos hcond] at hw
    have hsym : (v = a ∧ u = b) ∨ (v = b ∧ u = a) := by tauto
    rw [if_pos hsym]
    exact hw
  · rw [if_neg hcond] at hw
    have hsym : ¬ ((v = a ∧ u = b) ∨ (v = b ∧ u = a)) := by tauto
    rw [if_neg hsym]
    exact h u v wt hw

theorem mirrored_new (d : Bool) : Mirrored (Graph.new d) := by
  intro u v w hw
  unfold Graph.get_weight Graph.new at hw
  simp [alookup] at hw

theorem subgraph_inner_directed (g : Graph) (nodes : List Nat) :
    ∀ (es2 : List (Nat × Nat)) (f : Nat) (sg2 : Graph),
      (es2.foldl (fun sg p =>
        if p.1 ∈ nodes then sg.add_edge_weighted f p.1 p.2 else sg) sg2).directed =
        sg2.directed := by
  intro es2
  induction es2 with
  | nil => intro f sg2; rfl
  | cons e t2 ih2 =>
    intro f sg2
    rw [List.foldl_cons]
    rw [ih2]
    by_cases hmem : e.1 ∈ nodes
    · rw [if_pos hmem, directed_add_edge_weighted]
    · rw [if_neg hmem]

theorem subgraph_inner_mirrored (g : Graph) (nodes : List Nat) :
    ∀ (es2 : List (Nat × Nat)) (f : Nat) (sg2 : Graph), sg2.directed = false →
      Mirrored sg2 →
      Mirrored (es2.foldl (fun sg p =>
        if p.1 ∈ nodes then sg.add_edge_weighted f p.1 p.2 else sg) sg2) := by
  intro es2
  induction es2 with
  | nil => intro f sg2 _ hm; exact hm
  | cons e t2 ih2 =>
    intro f sg2 hsg2 hm
    rw [List.foldl_cons]
    by_cases hmem : e.1 ∈ nodes
    · rw [if_pos hmem]
      apply ih2
      · rw [directed_add_edge_weighted]
        exact hsg2
      · exact mirrored_add_edge_weighted sg2 f e.1 e.2 hsg2 hm
    · rw [if_neg hmem]
      exact ih2 f sg2 hsg2 hm

theorem subgraph_fold_directed (g : Graph) (nodes : List Nat) :
    ∀ (l : List Nat) (sg : Graph),
      (l.foldl (fun sg f =>
        let sg := sg.add_node f
        match g.neighbors_weighted f with
        | some es =>
            es.foldl (fun sg p =>
              if p.1 ∈ nodes then sg.add_edge_weighted f p.1 p.2 else sg) sg
        | none => sg) sg).directed = sg.directed := by
  intro l
  induction l with
  | nil => intro sg; rfl
  | cons f t ih =>
    intro sg
    rw [List.foldl_cons]
    rw [ih]
    dsimp only
    rcases hnw : g.neighbors_weighted f with _ | es
    · rfl
    · rw [subgraph_inner_directed g nodes es f]
      rfl

theorem subgraph_directed (g : Graph) (nodes : List Nat) :
    (g.subgraph nodes).directed = g.directed := by
  unfold Graph.subgraph
  rw [subgraph_fold_directed g nodes nodes (Graph.new g.directed)]
  rfl

theorem mirrored_subgraph (g : Graph) (nodes : List Nat)
    (hg : g.directed = false) : Mirrored (g.subgraph nodes) := by
  unfold Graph.subgraph
  suffices h : ∀ (l : List Nat) (sg : Graph), sg.directed = false → Mirrored sg →
      Mirrored (l.foldl (fun sg f =>
        let sg := sg.add_node f
        match g.neighbors_weighted f with
        | some es =>
            es.foldl (fun sg p =>
              if p.1 ∈ nodes then sg.add_edge_weighted f p.1 p.2 else sg) sg
        | none => sg) sg) by
    exact h nodes (Graph.new g.directed) hg (mirrored_new _)
  intro l
  induction l with
  | nil => intro sg _ hm; exact hm
  | cons f t ih =>
    intro sg hsg hm
    rw [List.foldl_cons]
    dsimp only
    rcases hnw : g.neighbors_weighted f with _ | es
    · apply ih
      · simpa using hsg
      · exact mirrored_add_node sg f hm
    · apply ih
      · rw [subgraph_inner_directed g nodes es f]
        simpa using hsg
      · apply subgraph_inner_mirrored g nodes es f
        · simpa using hsg
        · exact mirrored_add_node sg f hm

/-! ## BFS correctness (claims C3, C9, C8) -/

theorem mem_neighbors_iff (g : Graph) (cur n : Nat) :
    n ∈ (g.neighbors cur).getD [] ↔ g.has_edge cur n = true := by
  unfold Graph.neighbors Graph.has_edge
  rcases h : alookup g.adjacency_map cur with _ | es
  · simp
  · simp only [Option.map_some', Option.getD_some]
    rw [← alookup_isSome_iff_mem_keys]

theorem walklen_prepend {g : Graph} {u u' v : Nat} (he : g.has_edge u u' = true) :
    ∀ {k : Nat}, WalkLen g u' v k → WalkLen g u v (k + 1) := by
  intro k h
  induction h with
  | nil => exact WalkLen.cons WalkLen.nil he
  | cons hw he2 ih => exact WalkLen.cons ih he2

theorem walklen_trans {g : Graph} {s u v : Nat} {j : Nat} (h1 : WalkLen g s u j) :
    ∀ {k : Nat}, WalkLen g u v k → WalkLen g s v (j + k) := by
  intro k h2
  induction h2 with
  | nil => exact h1
  | cons hw he ih => exact WalkLen.cons ih he

theorem reach_isDist {g : Graph} {s v : Nat} (h : Reach g s v) :
    ∃ d, IsDist g s v d := by
  obtain ⟨k, hk⟩ := h
  have hdec : DecidablePred (fun n => WalkLen g s v n) := Classical.decPred _
  refine ⟨Nat.find ⟨k, hk⟩, Nat.find_spec ⟨k, hk⟩, ?_⟩
  intro j hj
  exact Nat.find_le hj

theorem isDist_unique {g : Graph} {s v d1 d2 : Nat}
    (h1 : IsDist g s v d1) (h2 : IsDist g s v d2) : d1 = d2 :=
  Nat.le_antisymm (h1.2 d2 h2.1) (h2.2 d1 h1.1)

theorem isDist_edge_le {g : Graph} {s u n du dn : Nat} (hd : IsDist g s u du)
    (he : g.has_edge u n = true) (hn : IsDist g s n dn) : dn ≤ du + 1 :=
  hn.2 (du + 1) (WalkLen.cons hd.1 he)

/-- `bfsVisit` together with the final visited set. -/
def bfsVisitV (g : Graph) (visited : List Nat) (queue : List Nat) :
    List Nat × List Nat :=
  match queue with
  | [] => ([], visited)
  | current :: rest =>
    let visited1 := insertSet current visited
    let r := (g.neighbors current).getD [] |>.foldl bfsFold (visited1, [])
    let res := bfsVisitV g r.1 (rest ++ r.2)
    (current :: res.1, res.2)
termination_by ((allNodes g).filter (fun n => ¬ (n ∈ visited))).length + queue.length
decreasing_by
  have hns : ∀ n ∈ (g.neighbors current).getD [], n ∈ allNodes g := by
    intro n hn
    rcases hnb : g.neighbors current with _ | ns
    · simp [hnb] at hn
    · rw [hnb] at hn
      simp only [Option.getD_some] at hn
      rcases hlk : alookup g.adjacency_map current with _ | es
      · simp [Graph.neighbors, hlk] at hnb
      · have hes : ns = keysOf es := by
          simp [Graph.neighbors, hlk] at hnb
          exact hnb.symm
        subst hes
        have hmem : (current, es) ∈ g.adjacency_map := alookup_mem hlk
        simp only [allNodes, List.mem_dedup, List.mem_append]
        right
        exact List.mem_flatten.mpr ⟨keysOf es, List.mem_map.mpr ⟨(current, es), hmem, rfl⟩, hn⟩
  have h := bfsFold_measure g _ hns (insertSet current visited) []
  have hmono :
      ((allNodes g).filter (fun n =>
          ¬ (n ∈ insertSet current visited))).length ≤
        ((allNodes g).filter (fun n => ¬ (n ∈ visited))).length := by
    apply filter_length_mono
    intro a ha
    simp only [decide_eq_true_eq] at *
    intro hmem
    apply ha
    by_cases hc : current ∈ visited <;> simp [insertSet, hc]
    · exact hmem
    · exact Or.inr hmem
  simp only [List.length_append]
  have h1 := h.1
  simp only [List.length_nil] at h1
  have hc : (current :: rest).length = rest.length + 1 := rfl
  omega

theorem bfsVisitV_fst (g : Graph) :
    ∀ visited queue, (bfsVisitV g visited queue).1 = bfsVisit g visited queue := by
  intro visited queue
  induction visited, queue using bfsVisitV.induct g
  next visited => rw [bfsVisitV, bfsVisit]
  next visited current rest ih =>
    rw [bfsVisitV, bfsVisit]
    dsimp only
    rw [ih]

/-- Everything `bfsFold` guarantees about one neighbor sweep. -/
theorem bfsFold_spec :
    ∀ (ns : List Nat) (acc : List Nat × List Nat),
      (∀ v ∈ acc.2, v ∈ acc.1) →
      ((∀ v ∈ acc.1, v ∈ (ns.foldl bfsFold acc).1) ∧
       (∀ v, v ∈ (ns.foldl bfsFold acc).1 ↔ v ∈ acc.1 ∨ v ∈ (ns.foldl bfsFold acc).2) ∧
       (∀ v ∈ (ns.foldl bfsFold acc).2, v ∈ acc.2 ∨ v ∈ ns) ∧
       (∀ v ∈ (ns.foldl bfsFold acc).2, v ∈ acc.2 ∨ ¬ v ∈ acc.1) ∧
       (acc.2.Nodup → (ns.foldl bfsFold acc).2.Nodup) ∧
       (∀ n ∈ ns, n ∈ (ns.foldl bfsFold acc).1) ∧
       (∀ v ∈ acc.2, v ∈ (ns.foldl bfsFold acc).2) ∧
       (∀ v ∈ (ns.foldl bfsFold acc).2, v ∈ (ns.foldl bfsFold acc).1)) := by
  intro ns
  induction ns with
  | nil =>
    intro acc hsub
    refine ⟨fun v hv => hv, fun v => ?_, fun v hv => Or.inl hv, fun v hv => Or.inl hv,
      fun h => h, by simp, fun v hv => hv, hsub⟩
    simp only [List.foldl_nil]
    exact ⟨fun h => Or.inl h, fun h => h.elim id (fun h2 => hsub v h2)⟩
  | cons n rest ih =>
    intro acc hsub
    rw [List.foldl_cons]
    by_cases hv : n ∈ acc.1
    · have hfold : bfsFold acc n = acc := by simp [bfsFold, hv]
      rw [hfold]
      obtain ⟨g1, g2, g3, g4, g5, g6, g7, g8⟩ := ih acc hsub
      refine ⟨g1, g2, ?_, g4, g5, ?_, g7, g8⟩
      · intro v hv2
        rcases g3 v hv2 with h | h
        · exact Or.inl h
        · exact Or.inr (List.mem_cons_of_mem _ h)
      · intro m hm
        rcases List.mem_cons.mp hm with h | h
        · subst h
          exact g1 m hv
        · exact g6 m h
    · have hfold : bfsFold acc n = (n :: acc.1, acc.2 ++ [n]) := by simp [bfsFold, hv]
      rw [hfold]
      have hsub' : ∀ v ∈ acc.2 ++ [n], v ∈ n :: acc.1 := by
        intro v hv2
        rcases List.mem_append.mp hv2 with h | h
        · exact List.mem_cons_of_mem _ (hsub v h)
        · simp at h
          subst h
          exact List.mem_cons_self _ _
      obtain ⟨g1, g2, g3, g4, g5, g6, g7, g8⟩ := ih (n :: acc.1, acc.2 ++ [n]) hsub'
      dsimp only at g1 g2 g3 g4 g5 g6 g7 g8
      have hnr2 : n ∈ (rest.foldl bfsFold (n :: acc.1, acc.2 ++ [n])).2 :=
        g7 n (by simp)
      refine ⟨?_, ?_, ?_, ?_, ?_, ?_, ?_, g8⟩
      · intro v hv2
        exact g1 v (List.mem_cons_of_mem _ hv2)
      · intro v
        rw [g2 v]
        constructor
        · intro h
          rcases h with h | h
          · rcases List.mem_cons.mp h with h2 | h2
            · subst h2
              exact Or.inr hnr2
            · exact Or.inl h2
          · exact Or.inr h
        · intro h
          rcases h with h | h
          · exact Or.inl (List.mem_cons_of_mem _ h)
          · exact Or.inr h
      · intro v hv2
        rcases g3 v hv2 with h | h
        · rcases List.mem_append.mp h with h2 | h2
          · exact Or.inl h2
          · simp at h2
            subst h2
            exact Or.inr (List.mem_cons_self _ _)
        · exact Or.inr (List.mem_cons_of_mem _ h)
      · intro v hv2
        rcases g4 v hv2 with h | h
        · rcases List.mem_append.mp h with h2 | h2
          · exact Or.inl h2
          · simp at h2
            subst h2
            exact Or.inr hv
        · exact Or.inr (fun hc => h (List.mem_cons_of_mem _ hc))
      · intro hnd
        apply g5
        rw [List.nodup_append]
        refine ⟨hnd, by simp, ?_⟩
        intro v hv2
        simp only [List.mem_singleton]
        intro hc
        subst hc
        exact hv (hsub v hv2)
      · intro m hm
        rcases List.mem_cons.mp hm with h | h
        · subst h
          exact g1 m (List.mem_cons_self _ _)
        · exact g6 m h
      · intro v hv2
        exact g7 v (List.mem_append.mpr (Or.inl hv2))

theorem insertSet_mem {a : Nat} {s : List Nat} (h : a ∈ s) : insertSet a s = s := by
  simp [insertSet, h]

/-- The combined BFS loop invariant: final visited set, membership, no
duplicates, soundness of emissions, and closedness of the final visited set. -/
theorem bfs_main (g : Graph) : ∀ (visited queue : List Nat),
    (∀ v ∈ queue, v ∈ visited) → queue.Nodup →
    (∀ v ∈ visited, ¬ v ∈ queue → ∀ n, g.has_edge v n = true → n ∈ visited) →
    ((∀ v, v ∈ (bfsVisitV g visited queue).2 ↔
        (v ∈ visited ∨ v ∈ (bfsVisitV g visited queue).1)) ∧
     (∀ v ∈ queue, v ∈ (bfsVisitV g visited queue).1) ∧
     (∀ v ∈ (bfsVisitV g visited queue).1, v ∈ queue ∨ ¬ v ∈ visited) ∧
     (bfsVisitV g visited queue).1.Nodup ∧
     (∀ v ∈ (bfsVisitV g visited queue).1, ∃ u, u ∈ queue ∧ ∃ k, WalkLen g u v k) ∧
     (∀ u ∈ (bfsVisitV g visited queue).2, ∀ n, g.has_edge u n = true →
        n ∈ (bfsVisitV g visited queue).2) ∧
     (∀ v ∈ visited, v ∈ (bfsVisitV g visited queue).2)) := by
  intro visited queue
  induction visited, queue using bfsVisitV.induct g with
  | case1 visited =>
    intro h1 h2 h4
    rw [bfsVisitV]
    refine ⟨by simp, by simp, by simp, List.nodup_nil, by simp, ?_, fun v hv => hv⟩
    intro u hu n he
    exact h4 u hu (by simp) n he
  | case2 visited current rest visited1 r ih =>
    intro h1 h2 h4
    have hcur : current ∈ visited := h1 current (List.mem_cons_self _ _)
    have hins : insertSet current visited = visited := insertSet_mem hcur
    have hr : r = List.foldl bfsFold (insertSet current visited, [])
        ((g.neighbors current).getD []) := rfl
    rw [hr, hins] at ih
    rw [bfsVisitV]
    dsimp only
    rw [hins]
    have hfs := bfsFold_spec ((g.neighbors current).getD []) (visited, [])
      (by intro v hv; simp at hv)
    obtain ⟨g1, g2, g3, g4x, g5, g6, g7, g8⟩ := hfs
    dsimp only at g1 g2 g3 g4x g5 g6 g7 g8
    -- abbreviations
    have g3' : ∀ v ∈ (((g.neighbors current).getD []).foldl bfsFold (visited, [])).2,
        v ∈ (g.neighbors current).getD [] := by
      intro v hv
      rcases g3 v hv with h | h
      · simp at h
      · exact h
    have g4' : ∀ v ∈ (((g.neighbors current).getD []).foldl bfsFold (visited, [])).2,
        ¬ v ∈ visited := by
      intro v hv
      rcases g4x v hv with h | h
      · simp at h
      · exact h
    have hrest_sub : ∀ v ∈ rest, v ∈ visited :=
      fun v hv => h1 v (List.mem_cons_of_mem _ hv)
    -- the new hypotheses for the recursive state
    have h1' : ∀ v ∈ rest ++ (((g.neighbors current).getD []).foldl
        bfsFold (visited, [])).2,
        v ∈ (((g.neighbors current).getD []).foldl bfsFold (visited, [])).1 := by
      intro v hv
      rcases List.mem_append.mp hv with h | h
      · exact g1 v (hrest_sub v h)
      · exact g8 v h
    have h2' : (rest ++ (((g.neighbors current).getD []).foldl
        bfsFold (visited, [])).2).Nodup := by
      rw [List.nodup_append]
      refine ⟨(List.nodup_cons.mp h2).2, g5 List.nodup_nil, ?_⟩
      intro v hv hv2
      exact g4' v hv2 (hrest_sub v hv)
    have h4' : ∀ v ∈ (((g.neighbors current).getD []).foldl bfsFold (visited, [])).1,
        ¬ v ∈ rest ++ (((g.neighbors current).getD []).foldl bfsFold (visited, [])).2 →
        ∀ n, g.has_edge v n = true →
          n ∈ (((g.neighbors current).getD []).foldl bfsFold (visited, [])).1 := by
      intro v hv hnq n he
      rcases (g2 v).mp hv with hvv | hvr
      · by_cases hvc : v = current
        · subst hvc
          exact g6 n ((mem_neighbors_iff g v n).mpr he)
        · have hvq : ¬ v ∈ current :: rest := by
            intro hc
            rcases List.mem_cons.mp hc with h | h
            · exact hvc h
            · exact hnq (List.mem_append.mpr (Or.inl h))
          exact g1 n (h4 v hvv hvq n he)
      · exact absurd (List.mem_append.mpr (Or.inr hvr)) hnq
    have spec := ih h1' h2' h4'
    obtain ⟨a1, a2, a3, a4, a5, a6, a7⟩ := spec
    have hcurout : ¬ current ∈ (bfsVisitV g
        (((g.neighbors current).getD []).foldl bfsFold (visited, [])).1
        (rest ++ (((g.neighbors current).getD []).foldl bfsFold (visited, [])).2)).1 := by
      intro hc
      rcases a3 current hc with h | h
      · rcases List.mem_append.mp h with h3 | h3
        · exact (List.nodup_cons.mp h2).1 h3
        · exact g4' current h3 hcur
      · exact h (g1 current hcur)
    refine ⟨?_, ?_, ?_, ?_, ?_, a6, ?_⟩
    · intro v
      rw [a1 v]
      constructor
      · intro h
        rcases h with h | h
        · rcases (g2 v).mp h with h2 | h2
          · exact Or.inl h2
          · right
            exact List.mem_cons_of_mem _ (a2 v (List.mem_append.mpr (Or.inr h2)))
        · exact Or.inr (List.mem_cons_of_mem _ h)
      · intro h
        rcases h with h | h
        · exact Or.inl (g1 v h)
        · rcases List.mem_cons.mp h with h2 | h2
          · subst h2
            exact Or.inl (g1 v hcur)
          · exact Or.inr h2
    · intro v hv
      rcases List.mem_cons.mp hv with h | h
      · subst h
        exact List.mem_cons_self _ _
      · exact List.mem_cons_of_mem _ (a2 v (List.mem_append.mpr (Or.inl h)))
    · intro v hv
      rcases List.mem_cons.mp hv with h | h
      · subst h
        exact Or.inl (List.mem_cons_self _ _)
      · rcases a3 v h with h2 | h2
        · rcases List.mem_append.mp h2 with h3 | h3
          · exact Or.inl (List.mem_cons_of_mem _ h3)
          · exact Or.inr (g4' v h3)
        · exact Or.inr (fun hc => h2 (g1 v hc))
    · rw [List.nodup_cons]
      exact ⟨hcurout, a4⟩
    · intro v hv
      rcases List.mem_cons.mp hv with h | h
      · subst h
        exact ⟨v, List.mem_cons_self _ _, 0, WalkLen.nil⟩
      · obtain ⟨u, hu, k, hk⟩ := a5 v h
        rcases List.mem_append.mp hu with h2 | h2
        · exact ⟨u, List.mem_cons_of_mem _ h2, k, hk⟩
        · refine ⟨current, List.mem_cons_self _ _, k + 1, ?_⟩
          have he : g.has_edge current u = true :=
            (mem_neighbors_iff g current u).mp (g3' u h2)
          exact walklen_prepend he hk
    · intro v hv
      exact a7 v (g1 v hv)

theorem bfsList_mem_iff (g : Graph) (s : Nat) :
    ∀ v, v ∈ g.bfsList s ↔ Reach g s v := by
  have hmain := bfs_main g [s] [s] (fun v hv => hv) (by simp)
    (fun v hv hnv => absurd hv hnv)
  obtain ⟨a1, a2, a3, a4, a5, a6, a7⟩ := hmain
  have hfst : (bfsVisitV g [s] [s]).1 = g.bfsList s := bfsVisitV_fst g [s] [s]
  intro v
  constructor
  · intro hv
    rw [← hfst] at hv
    obtain ⟨u, hu, k, hk⟩ := a5 v hv
    simp at hu
    subst hu
    exact ⟨k, hk⟩
  · intro hv
    obtain ⟨k, hk⟩ := hv
    have hs : s ∈ (bfsVisitV g [s] [s]).2 := a7 s (by simp)
    have hvis : v ∈ (bfsVisitV g [s] [s]).2 := by
      induction hk with
      | nil => exact hs
      | cons hw he ih => exact a6 _ ih _ he
    rcases (a1 v).mp hvis with h | h
    · simp at h
      subst h
      rw [← hfst]
      exact a2 v (by simp)
    · rw [← hfst]
      exact h

theorem bfsList_nodup (g : Graph) (s : Nat) : (g.bfsList s).Nodup := by
  have hmain := bfs_main g [s] [s] (fun v hv => hv) (by simp)
    (fun v hv hnv => absurd hv hnv)
  unfold Graph.bfsList
  rw [← bfsVisitV_fst g [s] [s]]
  exact hmain.2.2.2.1

/-- Emitted nodes come from the candidate pool, so BFS emits at most
`|allNodes| + 1` nodes: the traversal is finite even on cyclic graphs. -/
theorem bfsList_length_le (g : Graph) (s : Nat) :
    (g.bfsList s).length ≤ (allNodes g).length + 1 := by
  have hsub : ∀ v ∈ g.bfsList s, v ∈ s :: allNodes g := by
    intro v hv
    rcases (bfsList_mem_iff g s v).mp hv with ⟨k, hk⟩
    cases hk with
    | nil => exact List.mem_cons_self _ _
    | cons hw he =>
      rename_i u k'
      apply List.mem_cons_of_mem
      unfold Graph.has_edge at he
      rcases hlk : alookup g.adjacency_map u with _ | es
      · rw [hlk] at he
        simp at he
      · rw [hlk] at he
        have hmem : (u, es) ∈ g.adjacency_map := alookup_mem hlk
        have hkeys : v ∈ keysOf es := (alookup_isSome_iff_mem_keys es v).mp he
        unfold allNodes
        rw [List.mem_dedup, List.mem_append]
        right
        exact List.mem_flatten.mpr ⟨keysOf es, List.mem_map.mpr ⟨(u, es), hmem, rfl⟩, hkeys⟩
  have hnd := bfsList_nodup g s
  have hcard : (g.bfsList s).toFinset.card = (g.bfsList s).length :=
    List.toFinset_card_of_nodup hnd
  have hsub2 : (g.bfsList s).toFinset ⊆ (s :: allNodes g).toFinset := by
    intro v hv
    rw [List.mem_toFinset] at hv ⊢
    exact hsub v hv
  have := Finset.card_le_card hsub2
  have hle := List.toFinset_card_le (s :: allNodes g)
  simp only [List.length_cons] at hle
  omega

/-- `a` is no farther from `s` than `b`. -/
def DistLE (g : Graph) (s a b : Nat) : Prop :=
  ∀ da db, IsDist g s a da → IsDist g s b db → da ≤ db

theorem distLE_refl (g : Graph) (s v : Nat) : DistLE g s v v := by
  intro da db h1 h2
  rw [isDist_unique h1 h2]

theorem distLE_trans {g : Graph} {s a b c : Nat} (hb : Reach g s b)
    (h1 : DistLE g s a b) (h2 : DistLE g s b c) : DistLE g s a c := by
  intro da dc hda hdc
  obtain ⟨db, hdb⟩ := reach_isDist hb
  exact Nat.le_trans (h1 da db hda hdb) (h2 db dc hdb hdc)

/-- Any walk to an unvisited node crosses the queue frontier. -/
theorem bfs_crossing (g : Graph) (s : Nat) (visited queue : List Nat)
    (h1 : ∀ v ∈ queue, v ∈ visited)
    (h4 : ∀ v ∈ visited, ¬ v ∈ queue → ∀ n, g.has_edge v n = true → n ∈ visited)
    (hs : s ∈ visited) :
    ∀ v k, WalkLen g s v k → ¬ v ∈ visited →
      ∃ u, u ∈ queue ∧ ∃ j, WalkLen g s u j ∧ j + 1 ≤ k := by
  intro v k hk
  induction hk with
  | nil => intro hc; exact absurd hs hc
  | @cons u' v' k' hw he ih =>
    intro hv
    by_cases hu : u' ∈ visited
    · by_cases huq : u' ∈ queue
      · exact ⟨u', huq, k', hw, Nat.le_refl _⟩
      · exact absurd (h4 u' hu huq v' he) hv
    · obtain ⟨u, huq, j, hwj, hle⟩ := ih hu
      exact ⟨u, huq, j, hwj, Nat.le_trans hle (Nat.le_succ _)⟩

/-- BFS emits nodes in non-decreasing order of graph distance. -/
theorem bfs_sorted (g : Graph) (s : Nat) : ∀ (visited queue : List Nat),
    (∀ v ∈ queue, v ∈ visited) →
    queue.Nodup →
    (∀ v ∈ visited, ¬ v ∈ queue → ∀ n, g.has_edge v n = true → n ∈ visited) →
    s ∈ visited →
    (∀ v ∈ visited, Reach g s v) →
    List.Pairwise (DistLE g s) queue →
    (∀ hq tq, queue = hq :: tq → ∀ b ∈ queue, ∀ dh db,
        IsDist g s hq dh → IsDist g s b db → db ≤ dh + 1) →
    (List.Pairwise (DistLE g s) (bfsVisit g visited queue) ∧
     ∀ v ∈ bfsVisit g visited queue, ∀ hq, queue.head? = some hq → DistLE g s hq v) := by
  intro visited queue
  induction visited, queue using bfsVisit.induct g with
  | case1 visited =>
    intro _ _ _ _ _ _ _
    rw [bfsVisit]
    exact ⟨List.Pairwise.nil, by simp⟩
  | case2 visited current rest visited1 r ih =>
    intro h1 h2 h4 hsv hr5 hp hq2
    have hcur : current ∈ visited := h1 current (List.mem_cons_self _ _)
    have hins : insertSet current visited = visited := insertSet_mem hcur
    have hr : r = List.foldl bfsFold (insertSet current visited, [])
        ((g.neighbors current).getD []) := rfl
    rw [hr, hins] at ih
    rw [bfsVisit]
    try dsimp only
    rw [hins]
    set R := List.foldl bfsFold (visited, []) ((g.neighbors current).getD []) with hRdef
    have hfs := bfsFold_spec ((g.neighbors current).getD []) (visited, [])
      (by intro v hv; simp at hv)
    rw [← hRdef] at hfs
    obtain ⟨g1, g2, g3, g4x, g5, g6, g7, g8⟩ := hfs
    dsimp only at g1 g2 g3 g4x g5 g6 g7 g8
    have g3' : ∀ v ∈ R.2, v ∈ (g.neighbors current).getD [] := by
      intro v hv
      rcases g3 v hv with h | h
      · simp at h
      · exact h
    have g4' : ∀ v ∈ R.2, ¬ v ∈ visited := by
      intro v hv
      rcases g4x v hv with h | h
      · simp at h
      · exact h
    have hrest_sub : ∀ v ∈ rest, v ∈ visited :=
      fun v hv => h1 v (List.mem_cons_of_mem _ hv)
    obtain ⟨dc, hdc⟩ := reach_isDist (hr5 current hcur)
    -- every freshly enqueued node is at distance exactly dc + 1
    have hnew : ∀ n ∈ R.2, IsDist g s n (dc + 1) := by
      intro n hn
      have hedge : g.has_edge current n = true :=
        (mem_neighbors_iff g current n).mp (g3' n hn)
      have hnv : ¬ n ∈ visited := g4' n hn
      obtain ⟨dn, hdn⟩ := reach_isDist ⟨dc + 1, WalkLen.cons hdc.1 hedge⟩
      have hle : dn ≤ dc + 1 := isDist_edge_le hdc hedge hdn
      have hge : dc + 1 ≤ dn := by
        obtain ⟨u, huq, j, hwj, hj⟩ :=
          bfs_crossing g s visited (current :: rest) h1 h4 hsv n dn hdn.1 hnv
        obtain ⟨du, hdu⟩ := reach_isDist (hr5 u (h1 u huq))
        have hdu_j : du ≤ j := hdu.2 j hwj
        have hcu : dc ≤ du := by
          rcases List.mem_cons.mp huq with hh | hh
          · subst hh
            exact Nat.le_of_eq (isDist_unique hdc hdu)
          · exact (List.pairwise_cons.mp hp).1 u hh dc du hdc hdu
        omega
      have heq : dn = dc + 1 := Nat.le_antisymm hle hge
      rw [← heq]
      exact hdn
    have hq2c : ∀ b ∈ current :: rest, ∀ db, IsDist g s b db → db ≤ dc + 1 := by
      intro b hb db hdb
      exact hq2 current rest rfl b hb dc db hdc hdb
    have hcb : ∀ b ∈ rest, DistLE g s current b := (List.pairwise_cons.mp hp).1
    -- hypotheses of the recursive call
    have h1' : ∀ v ∈ rest ++ R.2, v ∈ R.1 := by
      intro v hv
      rcases List.mem_append.mp hv with h | h
      · exact g1 v (hrest_sub v h)
      · exact g8 v h
    have h2' : (rest ++ R.2).Nodup := by
      rw [List.nodup_append]
      refine ⟨(List.nodup_cons.mp h2).2, g5 List.nodup_nil, ?_⟩
      intro v hv hv2
      exact g4' v hv2 (hrest_sub v hv)
    have h4' : ∀ v ∈ R.1, ¬ v ∈ rest ++ R.2 →
        ∀ n, g.has_edge v n = true → n ∈ R.1 := by
      intro v hv hnq n he
      rcases (g2 v).mp hv with hvv | hvr
      · by_cases hvc : v = current
        · subst hvc
          exact g6 n ((mem_neighbors_iff g v n).mpr he)
        · have hvq : ¬ v ∈ current :: rest := by
            intro hc
            rcases List.mem_cons.mp hc with h | h
            · exact hvc h
            · exact hnq (List.mem_append.mpr (Or.inl h))
          exact g1 n (h4 v hvv hvq n he)
      · exact absurd (List.mem_append.mpr (Or.inr hvr)) hnq
    have hsv' : s ∈ R.1 := g1 s hsv
    have hr5' : ∀ v ∈ R.1, Reach g s v := by
      intro v hv
      rcases (g2 v).mp hv with h | h
      · exact hr5 v h
      · exact ⟨dc + 1, (hnew v h).1⟩
    have hp' : List.Pairwise (DistLE g s) (rest ++ R.2) := by
      rw [List.pairwise_append]
      refine ⟨(List.pairwise_cons.mp hp).2, ?_, ?_⟩
      · apply List.pairwise_of_forall_mem_list
        intro a ha b hb
        intro da db hda hdb
        rw [isDist_unique hda (hnew a ha), isDist_unique hdb (hnew b hb)]
      · intro a ha b hb da db hda hdb
        have h1a := hq2c a (List.mem_cons_of_mem _ ha) da hda
        rw [isDist_unique hdb (hnew b hb)]
        exact h1a
    have hq2' : ∀ hq tq, rest ++ R.2 = hq :: tq → ∀ b ∈ rest ++ R.2, ∀ dh db,
        IsDist g s hq dh → IsDist g s b db → db ≤ dh + 1 := by
      intro hq tq heq b hb dh db hdh hdb
      have hdc_dh : dc ≤ dh := by
        cases hrest : rest with
        | nil =>
          rw [hrest, List.nil_append] at heq
          have hhq : hq ∈ R.2 := by
            rw [heq]
            exact List.mem_cons_self _ _
          rw [isDist_unique hdh (hnew hq hhq)]
          omega
        | cons a t =>
          rw [hrest] at heq
          simp at heq
          have hha : hq = a := heq.1.symm
          subst hha
          exact hcb hq (by rw [hrest]; exact List.mem_cons_self _ _) dc dh hdc hdh
      rcases List.mem_append.mp hb with h | h
      · have := hq2c b (List.mem_cons_of_mem _ h) db hdb
        omega
      · rw [isDist_unique hdb (hnew b h)]
        omega
    obtain ⟨ihp, ihhead⟩ := ih h1' h2' h4' hsv' hr5' hp' hq2'
    have houtle : ∀ v ∈ bfsVisit g R.1 (rest ++ R.2), DistLE g s current v := by
      intro v hv
      rcases hqe : (rest ++ R.2) with _ | ⟨hh, tt⟩
      · rw [hqe] at hv
        rw [bfsVisit] at hv
        simp at hv
      · have hhm : hh ∈ rest ++ R.2 := by
          rw [hqe]
          exact List.mem_cons_self _ _
        have hhead : (rest ++ R.2).head? = some hh := by rw [hqe]; rfl
        have h_hv := ihhead v hv hh hhead
        have hch : DistLE g s current hh := by
          intro da db hda hdb
          rcases List.mem_append.mp hhm with h | h
          · exact hcb hh h da db hda hdb
          · rw [isDist_unique hda hdc, isDist_unique hdb (hnew hh h)]
            omega
        have hrh : Reach g s hh := hr5' hh (h1' hh hhm)
        exact distLE_trans hrh hch h_hv
    constructor
    · rw [List.pairwise_cons]
      exact ⟨houtle, ihp⟩
    · intro v hv hq hhq
      have hqc : hq = current := by
        simp at hhq
        exact hhq.symm
      subst hqc
      rcases List.mem_cons.mp hv with h | h
      · subst h
        exact distLE_refl g s v
      · exact houtle v h

/-! ## Dijkstra correctness (claim C2): predecessor chains -/

/-- Well-formedness of the adjacency representation: inner key lists have no
duplicate keys (always true of a real `HashMap`). -/
def InnerNodup (g : Graph) : Prop :=
  ∀ p ∈ g.adjacency_map, (p.2.map Prod.fst).Nodup

/-- `l` is the complete predecessor chain starting at `n`: follow `preds`
until a node with no predecessor. -/
inductive ChainIs (preds : List (Nat × Nat)) : Nat → List Nat → Prop
  | stop {n : Nat} : alookup preds n = none → ChainIs preds n [n]
  | step {n p : Nat} {l : List Nat} :
      alookup preds n = some p → ChainIs preds p l → ChainIs preds n (n :: l)

theorem chainIs_ne_nil {preds : List (Nat × Nat)} {n : Nat} {l : List Nat}
    (h : ChainIs preds n l) : l ≠ [] := by
  cases h <;> simp

theorem chainIs_head {preds : List (Nat × Nat)} {n : Nat} {l : List Nat}
    (h : ChainIs preds n l) : ∃ t, l = n :: t := by
  cases h <;> exact ⟨_, rfl⟩

theorem chainIs_unique {preds : List (Nat × Nat)} :
    ∀ {n : Nat} {l1 : List Nat}, ChainIs preds n l1 →
      ∀ {l2 : List Nat}, ChainIs preds n l2 → l1 = l2 := by
  intro n l1 h1
  induction h1 with
  | @stop n hnone =>
    intro l2 h2
    cases h2 with
    | stop _ => rfl
    | step hsome _ => rw [hnone] at hsome; cases hsome
  | @step n p l' hsome hrec ih =>
    intro l2 h2
    cases h2 with
    | stop hnone => rw [hnone] at hsome; cases hsome
    | step hsome2 hrec2 =>
      rw [hsome] at hsome2
      have hp := Option.some_inj.mp hsome2
      subst hp
      rw [ih hrec2]

theorem chainIs_split {preds : List (Nat × Nat)} {m : Nat} {l : List Nat}
    (h : ChainIs preds m l) :
    ∀ l1 a l2, l = l1 ++ a :: l2 → ChainIs preds a (a :: l2) := by
  induction h with
  | @stop n hnone =>
    intro l1 a l2 heq
    cases l1 with
    | nil =>
      rw [List.nil_append] at heq
      injection heq with h1 h2
      subst h1
      subst h2
      exact ChainIs.stop hnone
    | cons b t =>
      rw [List.cons_append] at heq
      injection heq with h1 h2
      simp at h2
  | @step n p l' hsome hrec ih =>
    intro l1 a l2 heq
    cases l1 with
    | nil =>
      rw [List.nil_append] at heq
      injection heq with h1 h2
      subst h1
      subst h2
      exact ChainIs.step hsome hrec
    | cons b t =>
      rw [List.cons_append] at heq
      injection heq with h1 h2
      exact ih t a l2 h2

theorem chainIs_unaffected {preds : List (Nat × Nat)} {next v : Nat} {m : Nat}
    {l : List Nat} (h : ChainIs preds m l) (hn : ¬ next ∈ l) :
    ChainIs (ainsert preds next v) m l := by
  induction h with
  | @stop n hnone =>
    refine ChainIs.stop ?_
    rw [alookup_ainsert]
    rw [if_neg]
    · exact hnone
    · intro hc
      exact hn (by rw [hc]; simp)
  | @step n p l' hsome hrec ih =>
    refine ChainIs.step (p := p) ?_ ?_
    · rw [alookup_ainsert]
      rw [if_neg]
      · exact hsome
      · intro hc
        exact hn (by rw [hc]; simp)
    · exact ih (fun hc => hn (List.mem_cons_of_mem _ hc))

theorem chainIs_step_inv {preds : List (Nat × Nat)} {n : Nat} {rest : List Nat}
    (h : ChainIs preds n (n :: rest)) (hne : rest ≠ []) :
    ∃ p, alookup preds n = some p ∧ ChainIs preds p rest := by
  cases h with
  | stop _ => exact absurd rfl hne
  | step hs hr => exact ⟨_, hs, hr⟩

/-- After setting `next`'s predecessor, an old chain passing through `next`
is rerouted: keep the prefix before `next`, then continue with `next`'s new
chain. -/
theorem chainIs_graft {preds : List (Nat × Nat)} {next node : Nat}
    {lnode : List Nat} (hnode : ChainIs (ainsert preds next node) next (next :: lnode)) :
    ∀ {pre : List Nat} {m : Nat} {suf : List Nat}, ChainIs preds m (pre ++ next :: suf) →
      ¬ next ∈ pre → pre ≠ [] →
      ChainIs (ainsert preds next node) m (pre ++ next :: lnode) := by
  intro pre
  induction pre with
  | nil => intro m suf _ _ hne; exact absurd rfl hne
  | cons a t ih =>
    intro m suf h hnp _
    have ham : a = m := by
      obtain ⟨t2, ht2⟩ := chainIs_head h
      have h3 := congrArg List.head? ht2
      rw [List.cons_append] at h3
      simpa using h3
    subst ham
    rw [List.cons_append] at h
    have hrest : t ++ next :: suf ≠ [] := by simp
    obtain ⟨p, hsome, hrec⟩ := chainIs_step_inv h hrest
    have hanext : a ≠ next := fun hc => hnp (by rw [hc]; exact List.mem_cons_self _ _)
    cases t with
    | nil =>
      rw [List.nil_append] at hrec
      have hp : p = next := by
        obtain ⟨t3, ht3⟩ := chainIs_head hrec
        injection ht3 with h1 _
        exact h1.symm
      subst hp
      rw [List.singleton_append]
      exact ChainIs.step
        (by rw [alookup_ainsert, if_neg (fun hc => hanext hc.symm)]; exact hsome) hnode
    | cons b t2 =>
      rw [List.cons_append] at hrec
      have hnp2 : ¬ next ∈ b :: t2 := fun hc => hnp (List.mem_cons_of_mem _ hc)
      have hgraft := ih hrec hnp2 (by simp)
      rw [List.cons_append]
      refine ChainIs.step ?_ hgraft
      rw [alookup_ainsert, if_neg (fun hc => hanext hc.symm)]
      exact hsome

/-- Along a predecessor chain, recorded distances are monotone: every node on
the chain has a distance at most the head's. -/
theorem chain_dist_mono {g : Graph} {dist preds : List (Nat × Nat)}
    (hlocal : ∀ n p, alookup preds n = some p → ∃ w dn dp,
        g.get_weight p n = some w ∧ alookup dist n = some dn ∧
        alookup dist p = some dp ∧ dp + w ≤ dn) :
    ∀ {m : Nat} {l : List Nat}, ChainIs preds m l → ∀ dm, alookup dist m = some dm →
      ∀ x ∈ l, ∃ dx, alookup dist x = some dx ∧ dx ≤ dm := by
  intro m l h
  induction h with
  | @stop n _ =>
    intro dm hdm x hx
    rw [List.mem_singleton] at hx
    subst hx
    exact ⟨dm, hdm, le_refl _⟩
  | @step n p l' hsome hrec ih =>
    intro dm hdm x hx
    obtain ⟨w, dn, dp, _, hdn, hdp, hle⟩ := hlocal n p hsome
    have hdm' : dn = dm := by rw [hdm] at hdn; exact (Option.some_inj.mp hdn).symm
    subst hdm'
    rcases List.mem_cons.mp hx with h1 | h1
    · subst h1
      exact ⟨dn, hdn, le_refl _⟩
    · obtain ⟨dx, hdx, hxle⟩ := ih dp hdp x h1
      exact ⟨dx, hdx, le_trans hxle (le_trans (Nat.le_add_right dp w) hle)⟩

/-- A predecessor chain ending at `s` yields a path list from `s` whose weight
is bounded by the head's recorded distance. -/
theorem chain_path {g : Graph} {s : Nat} {dist preds : List (Nat × Nat)}
    (hlocal : ∀ n p, alookup preds n = some p → ∃ w dn dp,
        g.get_weight p n = some w ∧ alookup dist n = some dn ∧
        alookup dist p = some dp ∧ dp + w ≤ dn) :
    ∀ {m : Nat} {l : List Nat}, ChainIs preds m l → l.getLast? = some s →
      ∀ dm, alookup dist m = some dm →
      ∃ wt, IsPathList g s m l.reverse wt ∧ wt ≤ dm := by
  intro m l h
  induction h with
  | @stop n _ =>
    intro hlast dm _
    simp at hlast
    subst hlast
    exact ⟨0, ⟨by simp, by simp, rfl⟩, Nat.zero_le _⟩
  | @step n p l' hsome hrec ih =>
    intro hlast dm hdm
    obtain ⟨w, dn, dp, hw, hdn, hdp, hle⟩ := hlocal n p hsome
    have hdm' : dn = dm := by rw [hdm] at hdn; exact (Option.some_inj.mp hdn).symm
    subst hdm'
    have hlast' : l'.getLast? = some s := by
      obtain ⟨c, t, hct⟩ : ∃ c t, l' = c :: t := by
        cases l' with
        | nil => exact absurd rfl (chainIs_ne_nil hrec)
        | cons c t => exact ⟨c, t, rfl⟩
      rw [hct] at hlast ⊢
      rw [List.getLast?_cons_cons] at hlast
      exact hlast
    obtain ⟨wt', ⟨hh, hl, hwt⟩, hwle⟩ := ih hlast' dp hdp
    refine ⟨wt' + w, ⟨?_, ?_, ?_⟩, ?_⟩
    · rw [List.reverse_cons]
      cases hrev : l'.reverse with
      | nil =>
        exact absurd (List.reverse_eq_nil_iff.mp hrev) (chainIs_ne_nil hrec)
      | cons c t =>
        rw [hrev] at hh
        simpa using hh
    · rw [List.reverse_cons]
      simp
    · rw [List.reverse_cons]
      have hplast : l'.reverse.getLast? = some p := by
        rw [List.getLast?_reverse]
        obtain ⟨t, ht⟩ := chainIs_head hrec
        rw [ht]
        rfl
      exact listPathWeight_snoc g l'.reverse p n wt' w hplast hw hwt
    · omega

/-- Every node of a chain except the final one is a key of `preds`. -/
theorem chainIs_mem_keys {preds : List (Nat × Nat)} :
    ∀ {m : Nat} {l : List Nat}, ChainIs preds m l →
      ∀ x ∈ l.dropLast, x ∈ keysOf preds := by
  intro m l h
  induction h with
  | @stop n _ => intro x hx; simp at hx
  | @step n p l' hsome hrec ih =>
    intro x hx
    rw [List.dropLast_cons_of_ne_nil (chainIs_ne_nil hrec)] at hx
    rcases List.mem_cons.mp hx with h1 | h1
    · subst h1
      exact (alookup_isSome_iff_mem_keys preds x).mp (by rw [hsome]; rfl)
    · exact ih x h1

/-- A duplicate-free chain is no longer than the predecessor map plus one. -/
theorem chainIs_length_le {preds : List (Nat × Nat)} {m : Nat} {l : List Nat}
    (h : ChainIs preds m l) (hnd : l.Nodup) : l.length ≤ preds.length + 1 := by
  have hsub : l.dropLast ⊆ keysOf preds := fun x hx => chainIs_mem_keys h x hx
  have hndd : l.dropLast.Nodup := hnd.sublist (List.dropLast_sublist l)
  have hcard : l.dropLast.length ≤ (keysOf preds).length := by
    have h1 : l.dropLast.toFinset.card = l.dropLast.length :=
      List.toFinset_card_of_nodup hndd
    have h2 : l.dropLast.toFinset ⊆ (keysOf preds).toFinset := by
      intro a ha
      rw [List.mem_toFinset] at ha ⊢
      exact hsub ha
    have h3 := Finset.card_le_card h2
    have h4 : (keysOf preds).toFinset.card ≤ (keysOf preds).length :=
      List.toFinset_card_le _
    omega
  have hkl : (keysOf preds).length = preds.length := List.length_map _ _
  have hll : l.dropLast.length + 1 = l.length := by
    cases l with
    | nil => exact absurd rfl (chainIs_ne_nil h)
    | cons a t => simp
  omega

/-- With enough fuel, the `reconstruct_path` loop body computes exactly the
chain. -/
theorem predChain_of_chainIs {preds : List (Nat × Nat)} :
    ∀ {m : Nat} {l : List Nat}, ChainIs preds m l →
      ∀ fuel, l.length ≤ fuel + 1 → predChain preds fuel m = l := by
  intro m l h
  induction h with
  | @stop n hnone =>
    intro fuel _
    cases fuel with
    | zero => rfl
    | succ f => rw [predChain, hnone]
  | @step n p l' hsome hrec ih =>
    intro fuel hfuel
    cases fuel with
    | zero =>
      simp at hfuel
      have := chainIs_ne_nil hrec
      cases l' with
      | nil => exact absurd rfl this
      | cons c t => simp at hfuel
    | succ f =>
      have hlen : l'.length ≤ f + 1 := by
        have : (n :: l').length = l'.length + 1 := rfl
        omega
      rw [predChain, hsome]
      show n :: predChain preds f p = n :: l'
      rw [ih f hlen]

/-- The ghost invariant of `shortest_path`'s main loop; `S` is the list of
settled nodes (popped, non-stale, processed). -/
structure DInv (g : Graph) (s endN : Nat) (σ : DState) (S : List Nat) : Prop where
  start_dist : alookup σ.distances s = some 0
  dist_sound : ∀ n d, alookup σ.distances n = some d → Walk g s n d
  queue_dist : ∀ p ∈ σ.queue, ∃ dn, alookup σ.distances p.1 = some dn ∧ dn ≤ p.2
  queue_nodup : σ.queue.Nodup
  settled_min : ∀ u ∈ S, ∀ du, alookup σ.distances u = some du →
      ∀ k, Walk g s u k → du ≤ k
  settled_dist : ∀ u ∈ S, (alookup σ.distances u).isSome = true
  settled_relaxed : ∀ u ∈ S, ∀ v w, g.get_weight u v = some w →
      ∀ du, alookup σ.distances u = some du →
      ∃ dv, alookup σ.distances v = some dv ∧ dv ≤ du + w
  unsettled_queue : ∀ n d, alookup σ.distances n = some d → ¬ n ∈ S →
      (n, d) ∈ σ.queue
  settled_stale : ∀ p ∈ σ.queue, p.1 ∈ S →
      ∀ dn, alookup σ.distances p.1 = some dn → dn < p.2
  end_not_settled : ¬ endN ∈ S
  pred_none_s : alookup σ.predecessors s = none
  pred_local : ∀ n p, alookup σ.predecessors n = some p → ∃ w dn dp,
      g.get_weight p n = some w ∧ alookup σ.distances n = some dn ∧
      alookup σ.distances p = some dp ∧ dp + w ≤ dn
  pred_chain : ∀ n, (alookup σ.distances n).isSome = true → ∃ l,
      ChainIs σ.predecessors n l ∧ l.Nodup ∧ l.getLast? = some s

/-- Any walk to an unsettled node is covered by a queue entry of no larger
tentative distance (the frontier cuts every such walk). -/
theorem frontier_cover {g : Graph} {s endN : Nat} {σ : DState} {S : List Nat}
    (inv : DInv g s endN σ S) :
    ∀ {v k : Nat}, Walk g s v k → ¬ v ∈ S → ∃ e ∈ σ.queue, e.2 ≤ k := by
  intro v k hw
  induction hw with
  | nil =>
    intro hs
    exact ⟨(s, 0), inv.unsettled_queue s 0 inv.start_dist hs, le_refl 0⟩
  | @cons u v' d w hwu he ih =>
    intro hv
    by_cases hu : u ∈ S
    · obtain ⟨du, hdu⟩ : ∃ du, alookup σ.distances u = some du :=
        Option.isSome_iff_exists.mp (inv.settled_dist u hu)
      obtain ⟨dv, hdv, hdvle⟩ := inv.settled_relaxed u hu v' w he du hdu
      have hmin := inv.settled_min u hu du hdu d hwu
      exact ⟨(v', dv), inv.unsettled_queue v' dv hdv hv, by omega⟩
    · obtain ⟨e, he2, hle⟩ := ih hu
      exact ⟨e, he2, by omega⟩

/-- What `BinaryHeap::pop` returns for an unsettled node is already optimal. -/
theorem pop_min_le {g : Graph} {s endN : Nat} {σ : DState} {S : List Nat}
    (inv : DInv g s endN σ S) {node dz : Nat} {rest : List (Nat × Nat)}
    (hpop : popMax σ.queue = some ((node, dz), rest)) (hnode : ¬ node ∈ S) :
    ∀ k, Walk g s node k → dz ≤ k := by
  intro k hw
  obtain ⟨e, he, hle⟩ := frontier_cover inv hw hnode
  have hmin := popMax_isMin hpop e he
  exact le_trans hmin hle

/-- The invariant holds at `Dijkstra::new`'s initial state. -/
theorem dinv_init (g : Graph) (s endN : Nat) :
    DInv g s endN ⟨[(s, 0)], [], [(s, 0)]⟩ [] := by
  have hlook : ∀ n d, alookup [(s, 0)] n = some d → n = s ∧ d = 0 := by
    intro n d h
    rw [alookup] at h
    by_cases hsn : s = n
    · rw [if_pos hsn] at h
      exact ⟨hsn.symm, (Option.some_inj.mp h).symm⟩
    · rw [if_neg hsn] at h
      rw [alookup] at h
      cases h
  refine ⟨?_, ?_, ?_, ?_, ?_, ?_, ?_, ?_, ?_, ?_, ?_, ?_, ?_⟩
  · simp [alookup]
  · intro n d h
    obtain ⟨h1, h2⟩ := hlook n d h
    subst h1
    subst h2
    exact Walk.nil
  · intro p hp
    simp at hp
    subst hp
    exact ⟨0, by simp [alookup], le_refl 0⟩
  · simp
  · intro u hu
    simp at hu
  · intro u hu
    simp at hu
  · intro u hu
    simp at hu
  · intro n d h _
    obtain ⟨h1, h2⟩ := hlook n d h
    subst h1
    subst h2
    simp
  · intro p _ hpS
    simp at hpS
  · simp
  · rfl
  · intro n p h
    rw [alookup] at h
    cases h
  · intro n h
    have hn : n = s := by
      rcases Option.isSome_iff_exists.mp h with ⟨d, hd⟩
      exact (hlook n d hd).1
    subst hn
    exact ⟨[n], ChainIs.stop rfl, by simp, by simp⟩

/-- Popping a stale entry (recorded distance strictly better) preserves the
invariant with the same settled set. -/
theorem dinv_skip {g : Graph} {s endN : Nat} {σ : DState} {S : List Nat}
    (inv : DInv g s endN σ S) {node dz best : Nat} {rest : List (Nat × Nat)}
    (hpop : popMax σ.queue = some ((node, dz), rest))
    (hbest : alookup σ.distances node = some best) (hlt : best < dz) :
    DInv g s endN { σ with queue := rest } S := by
  have hperm := popMax_perm hpop
  have hsub : ∀ x ∈ rest, x ∈ σ.queue := fun x hx =>
    hperm.mem_iff.mp (List.mem_cons_of_mem _ hx)
  refine ⟨inv.start_dist, inv.dist_sound, ?_, ?_, inv.settled_min, inv.settled_dist,
    inv.settled_relaxed, ?_, ?_, inv.end_not_settled, inv.pred_none_s,
    inv.pred_local, inv.pred_chain⟩
  · intro p hp
    exact inv.queue_dist p (hsub p hp)
  · have hnd := hperm.nodup_iff.mpr inv.queue_nodup
    exact (List.nodup_cons.mp hnd).2
  · intro n d hlook2 hnS
    have hmem := inv.unsettled_queue n d hlook2 hnS
    have hne : (n, d) ≠ (node, dz) := by
      intro hc
      have h1 : n = node := congrArg Prod.fst hc
      have h2 : d = dz := congrArg Prod.snd hc
      rw [h1, hbest] at hlook2
      have h3 : best = d := Option.some_inj.mp hlook2
      omega
    rcases List.mem_cons.mp (hperm.mem_iff.mpr hmem) with h | h
    · exact absurd h hne
    · exact h
  · intro p hp hpS dn hdn
    exact inv.settled_stale p (hsub p hp) hpS dn hdn

/-! ### The relaxation sweep preserves the invariant -/

theorem getLast?_cons_ne {α : Type} (a : α) (l : List α) (h : l ≠ []) :
    (a :: l).getLast? = l.getLast? := by
  cases l with
  | nil => exact absurd rfl h
  | cons b t => exact List.getLast?_cons_cons

theorem getLast?_append_right {α : Type} (l1 l2 : List α) (h : l2 ≠ []) :
    (l1 ++ l2).getLast? = l2.getLast? := by
  induction l1 with
  | nil => rfl
  | cons a t ih =>
    rw [List.cons_append]
    rw [getLast?_cons_ne]
    · exact ih
    · intro hc
      rcases List.append_eq_nil.mp hc with ⟨_, h2⟩
      exact h h2

theorem mem_dropLast_or_last {α : Type} {x v : α} {l : List α}
    (hx : x ∈ l) (hl : l.getLast? = some v) : x ∈ l.dropLast ∨ x = v := by
  induction l with
  | nil => simp at hx
  | cons a t ih =>
    cases t with
    | nil =>
      simp at hx hl
      right
      rw [hx, hl]
    | cons b t2 =>
      rw [List.getLast?_cons_cons] at hl
      rw [List.dropLast_cons_of_ne_nil (by simp)]
      rcases List.mem_cons.mp hx with h1 | h1
      · left
        rw [h1]
        exact List.mem_cons_self _ _
      · rcases ih h1 hl with h2 | h2
        · exact Or.inl (List.mem_cons_of_mem _ h2)
        · exact Or.inr h2

/-- Equation lemma: stale relaxation (no improvement) leaves the state. -/
theorem relax1_eq_skip (node dz : Nat) (σ : DState) (e : Nat × Nat) {cur : Nat}
    (hd : alookup σ.distances e.1 = some cur) (hge : ¬ dz + e.2 < cur) :
    relax1 node dz σ e = σ := by
  unfold relax1
  rw [hd]
  dsimp only
  rw [if_neg hge]

/-- Equation lemma: improving relaxation writes distance, predecessor and
pushes the heap entry. -/
theorem relax1_eq_update (node dz : Nat) (σ : DState) (e : Nat × Nat)
    (hfire : alookup σ.distances e.1 = none ∨
      ∃ cur, alookup σ.distances e.1 = some cur ∧ dz + e.2 < cur) :
    relax1 node dz σ e = ⟨ainsert σ.distances e.1 (dz + e.2),
      ainsert σ.predecessors e.1 node, σ.queue ++ [(e.1, dz + e.2)]⟩ := by
  unfold relax1
  rcases hfire with hd | ⟨cur, hd, hlt⟩
  · rw [hd]
  · rw [hd]
    dsimp only
    rw [if_pos hlt]

/-- The mid-sweep invariant while relaxing `node`'s neighbors: `node` has just
been settled at its final distance `dz`, and the entries in `processed` are
already relaxed. -/
structure DInvMid (g : Graph) (s endN node dz : Nat) (processed : List (Nat × Nat))
    (σ : DState) (S : List Nat) : Prop where
  start_dist : alookup σ.distances s = some 0
  dist_sound : ∀ n d, alookup σ.distances n = some d → Walk g s n d
  queue_dist : ∀ p ∈ σ.queue, ∃ dn, alookup σ.distances p.1 = some dn ∧ dn ≤ p.2
  queue_nodup : σ.queue.Nodup
  settled_min : ∀ u ∈ S, ∀ du, alookup σ.distances u = some du →
      ∀ k, Walk g s u k → du ≤ k
  settled_dist : ∀ u ∈ S, (alookup σ.distances u).isSome = true
  settled_relaxed1 : ∀ u ∈ S, u ≠ node → ∀ v w, g.get_weight u v = some w →
      ∀ du, alookup σ.distances u = some du →
      ∃ dv, alookup σ.distances v = some dv ∧ dv ≤ du + w
  relaxed_node : ∀ e ∈ processed,
      ∃ dv, alookup σ.distances e.1 = some dv ∧ dv ≤ dz + e.2
  unsettled_queue : ∀ n d, alookup σ.distances n = some d → ¬ n ∈ S →
      (n, d) ∈ σ.queue
  settled_stale : ∀ p ∈ σ.queue, p.1 ∈ S →
      ∀ dn, alookup σ.distances p.1 = some dn → dn < p.2
  end_not_settled : ¬ endN ∈ S
  pred_none_s : alookup σ.predecessors s = none
  pred_local : ∀ n p, alookup σ.predecessors n = some p → ∃ w dn dp,
      g.get_weight p n = some w ∧ alookup σ.distances n = some dn ∧
      alookup σ.distances p = some dp ∧ dp + w ≤ dn
  pred_chain : ∀ n, (alookup σ.distances n).isSome = true → ∃ l,
      ChainIs σ.predecessors n l ∧ l.Nodup ∧ l.getLast? = some s
  node_mem : node ∈ S
  node_dist : alookup σ.distances node = some dz

/-- The improving branch of one relaxation step preserves the mid-sweep
invariant (the hard case: distance, predecessor and queue all change). -/
theorem relax1_mid_fire {g : Graph} {s endN node dz : Nat}
    {processed : List (Nat × Nat)} {σ : DState} {S : List Nat}
    (inv : DInvMid g s endN node dz processed σ S) {e : Nat × Nat}
    (he : g.get_weight node e.1 = some e.2)
    (hcur : ∀ c, alookup σ.distances e.1 = some c → dz + e.2 < c) :
    DInvMid g s endN node dz (processed ++ [e])
      ⟨ainsert σ.distances e.1 (dz + e.2), ainsert σ.predecessors e.1 node,
        σ.queue ++ [(e.1, dz + e.2)]⟩ S := by
  have hwnode : Walk g s node dz := inv.dist_sound node dz inv.node_dist
  have hwnext : Walk g s e.1 (dz + e.2) := Walk.cons hwnode he
  have hnexts : e.1 ≠ s := by
    intro hc
    rw [hc] at hcur
    have := hcur 0 inv.start_dist
    omega
  have hnextS : ¬ e.1 ∈ S := by
    intro hc
    obtain ⟨du, hdu⟩ : ∃ du, alookup σ.distances e.1 = some du :=
      Option.isSome_iff_exists.mp (inv.settled_dist e.1 hc)
    have h1 := inv.settled_min e.1 hc du hdu (dz + e.2) hwnext
    have h2 := hcur du hdu
    omega
  have hnextnode : e.1 ≠ node := fun hc => hnextS (by rw [hc]; exact inv.node_mem)
  have hlookn : alookup (ainsert σ.distances e.1 (dz + e.2)) e.1 = some (dz + e.2) := by
    rw [alookup_ainsert, if_pos rfl]
  have hlooko : ∀ n, n ≠ e.1 →
      alookup (ainsert σ.distances e.1 (dz + e.2)) n = alookup σ.distances n := by
    intro n hn
    rw [alookup_ainsert, if_neg (fun hc => hn hc.symm)]
  have hplookn : alookup (ainsert σ.predecessors e.1 node) e.1 = some node := by
    rw [alookup_ainsert, if_pos rfl]
  have hplooko : ∀ n, n ≠ e.1 →
      alookup (ainsert σ.predecessors e.1 node) n = alookup σ.predecessors n := by
    intro n hn
    rw [alookup_ainsert, if_neg (fun hc => hn hc.symm)]
  have hnotq : ¬ (e.1, dz + e.2) ∈ σ.queue := by
    intro hc
    obtain ⟨dn, hdn, hle⟩ := inv.queue_dist (e.1, dz + e.2) hc
    have := hcur dn hdn
    omega
  -- `node`'s chain avoids `e.1`, so it survives the predecessor update.
  obtain ⟨lnode0, hc0, hnd0, hlast0⟩ :=
    inv.pred_chain node (by rw [inv.node_dist]; rfl)
  have hnot : ¬ e.1 ∈ lnode0 := by
    intro hc
    obtain ⟨dx, hdx, hdxle⟩ :=
      chain_dist_mono inv.pred_local hc0 dz inv.node_dist e.1 hc
    have := hcur dx hdx
    omega
  have hcnext : ChainIs (ainsert σ.predecessors e.1 node) e.1 (e.1 :: lnode0) :=
    ChainIs.step hplookn (chainIs_unaffected hc0 hnot)
  have hlnode0ne : lnode0 ≠ [] := chainIs_ne_nil hc0
  refine ⟨?_, ?_, ?_, ?_, ?_, ?_, ?_, ?_, ?_, ?_, inv.end_not_settled, ?_, ?_, ?_,
    inv.node_mem, ?_⟩
  · -- start_dist
    rw [hlooko s (fun hc => hnexts hc.symm)]
    exact inv.start_dist
  · -- dist_sound
    intro n d h
    by_cases hn : n = e.1
    · subst hn
      rw [hlookn] at h
      rw [← Option.some_inj.mp h]
      exact hwnext
    · rw [hlooko n hn] at h
      exact inv.dist_sound n d h
  · -- queue_dist
    intro p hp
    rcases List.mem_append.mp hp with hp1 | hp1
    · obtain ⟨dn, hdn, hle⟩ := inv.queue_dist p hp1
      by_cases hpe : p.1 = e.1
      · rw [hpe] at hdn
        have := hcur dn hdn
        refine ⟨dz + e.2, ?_, by omega⟩
        rw [hpe]
        exact hlookn
      · exact ⟨dn, by rw [hlooko p.1 hpe]; exact hdn, hle⟩
    · rw [List.mem_singleton] at hp1
      subst hp1
      exact ⟨dz + e.2, hlookn, le_refl _⟩
  · -- queue_nodup
    rw [List.nodup_append]
    refine ⟨inv.queue_nodup, by simp, ?_⟩
    intro a ha hb
    rw [List.mem_singleton] at hb
    subst hb
    exact hnotq ha
  · -- settled_min
    intro u hu du hdu k hwk
    have hue : u ≠ e.1 := fun hc => hnextS (by rw [← hc]; exact hu)
    rw [hlooko u hue] at hdu
    exact inv.settled_min u hu du hdu k hwk
  · -- settled_dist
    intro u hu
    have hue : u ≠ e.1 := fun hc => hnextS (by rw [← hc]; exact hu)
    rw [hlooko u hue]
    exact inv.settled_dist u hu
  · -- settled_relaxed1
    intro u hu hun v w hvw du hdu
    have hue : u ≠ e.1 := fun hc => hnextS (by rw [← hc]; exact hu)
    rw [hlooko u hue] at hdu
    obtain ⟨dv0, hdv0, hle0⟩ := inv.settled_relaxed1 u hu hun v w hvw du hdu
    by_cases hv : v = e.1
    · rw [hv] at hdv0
      have := hcur dv0 hdv0
      refine ⟨dz + e.2, ?_, by omega⟩
      rw [hv]
      exact hlookn
    · exact ⟨dv0, by rw [hlooko v hv]; exact hdv0, hle0⟩
  · -- relaxed_node
    intro e' he'
    rcases List.mem_append.mp he' with h1 | h1
    · obtain ⟨dv0, hdv0, hle0⟩ := inv.relaxed_node e' h1
      by_cases hv : e'.1 = e.1
      · rw [hv] at hdv0
        have := hcur dv0 hdv0
        refine ⟨dz + e.2, ?_, by omega⟩
        rw [hv]
        exact hlookn
      · exact ⟨dv0, by rw [hlooko e'.1 hv]; exact hdv0, hle0⟩
    · rw [List.mem_singleton] at h1
      subst h1
      exact ⟨dz + e'.2, hlookn, le_refl _⟩
  · -- unsettled_queue
    intro n d h hnS
    by_cases hn : n = e.1
    · subst hn
      rw [hlookn] at h
      rw [← Option.some_inj.mp h]
      exact List.mem_append.mpr (Or.inr (List.mem_singleton.mpr rfl))
    · rw [hlooko n hn] at h
      exact List.mem_append.mpr (Or.inl (inv.unsettled_queue n d h hnS))
  · -- settled_stale
    intro p hp hpS dn hdn
    rcases List.mem_append.mp hp with hp1 | hp1
    · have hpe : p.1 ≠ e.1 := fun hc => hnextS (by rw [← hc]; exact hpS)
      rw [hlooko p.1 hpe] at hdn
      exact inv.settled_stale p hp1 hpS dn hdn
    · rw [List.mem_singleton] at hp1
      subst hp1
      exact absurd hpS hnextS
  · -- pred_none_s
    rw [hplooko s (fun hc => hnexts hc.symm)]
    exact inv.pred_none_s
  · -- pred_local
    intro n p h
    by_cases hn : n = e.1
    · subst hn
      rw [hplookn] at h
      have hp : p = node := (Option.some_inj.mp h).symm
      rw [hp]
      exact ⟨e.2, dz + e.2, dz, he, hlookn,
        by rw [hlooko node (fun hc => hnextnode hc.symm)]; exact inv.node_dist,
        le_refl _⟩
    · rw [hplooko n hn] at h
      obtain ⟨w, dn, dp, hw, hdn, hdp, hle⟩ := inv.pred_local n p h
      by_cases hp : p = e.1
      · rw [hp] at hdp
        have := hcur dp hdp
        refine ⟨w, dn, dz + e.2, hw, by rw [hlooko n hn]; exact hdn, ?_, by omega⟩
        rw [hp]
        exact hlookn
      · exact ⟨w, dn, dp, hw, by rw [hlooko n hn]; exact hdn,
          by rw [hlooko p hp]; exact hdp, hle⟩
  · -- pred_chain
    intro n hs2
    by_cases hn : n = e.1
    · subst hn
      refine ⟨e.1 :: lnode0, hcnext, ?_, ?_⟩
      · exact List.nodup_cons.mpr ⟨hnot, hnd0⟩
      · rw [getLast?_cons_ne _ _ hlnode0ne]
        exact hlast0
    · rw [hlooko n hn] at hs2
      obtain ⟨l0, hcl, hndl, hlastl⟩ := inv.pred_chain n hs2
      by_cases hmem : e.1 ∈ l0
      · -- reroute the old chain through the new chain of `e.1`
        obtain ⟨pre, suf, hsplit⟩ := List.append_of_mem hmem
        rw [hsplit] at hcl hndl hlastl
        have hnds := List.nodup_append.mp hndl
        have hnpre : ¬ e.1 ∈ pre := by
          intro hc
          exact (hnds.2.2 hc) (List.mem_cons_self _ _)
        have hpre : pre ≠ [] := by
          intro hc
          subst hc
          rw [List.nil_append] at hcl
          obtain ⟨t0, ht0⟩ := chainIs_head hcl
          injection ht0 with h1 _
          exact hn h1.symm
        refine ⟨pre ++ e.1 :: lnode0, chainIs_graft hcnext hcl hnpre hpre, ?_, ?_⟩
        · rw [List.nodup_append]
          refine ⟨hnds.1, List.nodup_cons.mpr ⟨hnot, hnd0⟩, ?_⟩
          intro a ha hb
          rcases List.mem_cons.mp hb with hb1 | hb1
          · subst hb1
            exact hnpre ha
          · -- `a` on both the prefix and `node`'s chain: the two chains from
            -- `a` coincide, yet one passes through `e.1` and the other cannot.
            obtain ⟨pa, pb, hpa⟩ := List.append_of_mem ha
            obtain ⟨la, lb, hla⟩ := List.append_of_mem hb1
            have hch1 : ChainIs σ.predecessors a (a :: (pb ++ e.1 :: suf)) := by
              refine chainIs_split hcl pa a (pb ++ e.1 :: suf) ?_
              rw [hpa]
              simp
            have hch2 : ChainIs σ.predecessors a (a :: lb) := by
              refine chainIs_split hc0 la a lb ?_
              rw [hla]
            have heq := chainIs_unique hch1 hch2
            injection heq with _ h2
            have : e.1 ∈ lb := by
              rw [← h2]
              exact List.mem_append.mpr (Or.inr (List.mem_cons_self _ _))
            exact hnot (by rw [hla]; exact List.mem_append.mpr (Or.inr
              (List.mem_cons_of_mem _ this)))
        · rw [getLast?_append_right _ _ (by simp)]
          rw [getLast?_cons_ne _ _ hlnode0ne]
          exact hlast0
      · exact ⟨l0, chainIs_unaffected hcl hmem, hndl, hlastl⟩
  · -- node_dist
    rw [hlooko node (fun hc => hnextnode hc.symm)]
    exact inv.node_dist

/-- One relaxation step preserves the mid-sweep invariant. -/
theorem relax1_mid {g : Graph} {s endN node dz : Nat}
    {processed : List (Nat × Nat)} {σ : DState} {S : List Nat}
    (inv : DInvMid g s endN node dz processed σ S) {e : Nat × Nat}
    (he : g.get_weight node e.1 = some e.2) :
    DInvMid g s endN node dz (processed ++ [e]) (relax1 node dz σ e) S := by
  rcases hd : alookup σ.distances e.1 with _ | cur
  · rw [relax1_eq_update node dz σ e (Or.inl hd)]
    exact relax1_mid_fire inv he (fun c hc => by rw [hd] at hc; cases hc)
  · by_cases hlt : dz + e.2 < cur
    · rw [relax1_eq_update node dz σ e (Or.inr ⟨cur, hd, hlt⟩)]
      refine relax1_mid_fire inv he ?_
      intro c hc
      rw [hd] at hc
      rw [← Option.some_inj.mp hc]
      exact hlt
    · rw [relax1_eq_skip node dz σ e hd hlt]
      refine ⟨inv.start_dist, inv.dist_sound, inv.queue_dist, inv.queue_nodup,
        inv.settled_min, inv.settled_dist, inv.settled_relaxed1, ?_,
        inv.unsettled_queue, inv.settled_stale, inv.end_not_settled,
        inv.pred_none_s, inv.pred_local, inv.pred_chain, inv.node_mem,
        inv.node_dist⟩
      intro e' he'
      rcases List.mem_append.mp he' with h1 | h1
      · exact inv.relaxed_node e' h1
      · rw [List.mem_singleton] at h1
        subst h1
        exact ⟨cur, hd, by omega⟩

/-- Folding the relaxation step over a neighbor list preserves the mid-sweep
invariant, accumulating the processed entries. -/
theorem relaxList_mid {g : Graph} {s endN node dz : Nat} {S : List Nat} :
    ∀ (rest processed : List (Nat × Nat)) (σ : DState),
      DInvMid g s endN node dz processed σ S →
      (∀ e ∈ rest, g.get_weight node e.1 = some e.2) →
      DInvMid g s endN node dz (processed ++ rest)
        (rest.foldl (relax1 node dz) σ) S := by
  intro rest
  induction rest with
  | nil =>
    intro processed σ inv _
    rw [List.append_nil]
    exact inv
  | cons e t ih =>
    intro processed σ inv hmem
    rw [List.foldl_cons]
    have h1 := relax1_mid inv (hmem e (List.mem_cons_self _ _))
    have h2 := ih (processed ++ [e]) _ h1 (fun x hx => hmem x (List.mem_cons_of_mem _ hx))
    have heq : processed ++ e :: t = (processed ++ [e]) ++ t := by simp
    rw [heq]
    exact h2

/-- Settling a freshly popped optimal node establishes the mid-sweep
invariant over the empty processed list. -/
theorem dinv_mid_start {g : Graph} {s endN : Nat} {σ : DState} {S : List Nat}
    {node dz : Nat} {rest : List (Nat × Nat)}
    (inv : DInv g s endN σ S)
    (hpop : popMax σ.queue = some ((node, dz), rest))
    (hdz : alookup σ.distances node = some dz)
    (hnS : ¬ node ∈ S) (hne : node ≠ endN) :
    DInvMid g s endN node dz [] { σ with queue := rest } (node :: S) := by
  have hperm := popMax_perm hpop
  have hsub : ∀ x ∈ rest, x ∈ σ.queue := fun x hx =>
    hperm.mem_iff.mp (List.mem_cons_of_mem _ hx)
  have hndrest : ((node, dz) :: rest).Nodup := hperm.nodup_iff.mpr inv.queue_nodup
  have hmin : ∀ k, Walk g s node k → dz ≤ k := pop_min_le inv hpop hnS
  refine ⟨inv.start_dist, inv.dist_sound, ?_, ?_, ?_, ?_, ?_, ?_, ?_, ?_, ?_,
    inv.pred_none_s, inv.pred_local, inv.pred_chain, List.mem_cons_self _ _, hdz⟩
  · intro p hp
    exact inv.queue_dist p (hsub p hp)
  · exact (List.nodup_cons.mp hndrest).2
  · intro u hu du hdu k hwk
    rcases List.mem_cons.mp hu with h1 | h1
    · subst h1
      rw [hdz] at hdu
      rw [← Option.some_inj.mp hdu]
      exact hmin k hwk
    · exact inv.settled_min u h1 du hdu k hwk
  · intro u hu
    rcases List.mem_cons.mp hu with h1 | h1
    · subst h1
      rw [hdz]
      rfl
    · exact inv.settled_dist u h1
  · intro u hu hun v w hvw du hdu
    rcases List.mem_cons.mp hu with h1 | h1
    · exact absurd h1 hun
    · exact inv.settled_relaxed u h1 v w hvw du hdu
  · intro e he
    simp at he
  · intro n d h hnS2
    have hn1 : ¬ n ∈ S := fun hc => hnS2 (List.mem_cons_of_mem _ hc)
    have hn2 : n ≠ node := fun hc => hnS2 (by rw [hc]; exact List.mem_cons_self _ _)
    have hmem := inv.unsettled_queue n d h hn1
    rcases List.mem_cons.mp (hperm.mem_iff.mpr hmem) with h1 | h1
    · have : n = node := congrArg Prod.fst h1
      exact absurd this hn2
    · exact h1
  · intro p hp hpS dn hdn
    rcases List.mem_cons.mp hpS with h1 | h1
    · -- a second queue entry for the just-settled node must be stale
      obtain ⟨dn0, hdn0, hle0⟩ := inv.queue_dist p (hsub p hp)
      rw [h1, hdz] at hdn0
      have hdn0e : dz = dn0 := Option.some_inj.mp hdn0
      rw [h1, hdz] at hdn
      have hdne : dz = dn := Option.some_inj.mp hdn
      rcases Nat.lt_or_ge dz p.2 with hlt | hge
      · omega
      · exfalso
        have hpe : p = (node, dz) := by
          have : p.2 = dz := by omega
          obtain ⟨pa, pb⟩ := p
          simp at h1 this ⊢
          exact ⟨h1, this⟩
        rw [hpe] at hp
        exact (List.nodup_cons.mp hndrest).1 hp
    · have hpe : p.1 ≠ node := by
        intro hc
        rw [hc] at h1
        exact hnS h1
      exact inv.settled_stale p (hsub p hp) h1 dn hdn
  · intro hc
    rcases List.mem_cons.mp hc with h1 | h1
    · exact hne h1.symm
    · exact inv.end_not_settled h1

/-- Once every outgoing edge of `node` is covered by the processed list, the
mid-sweep invariant yields the plain invariant with `node` settled. -/
theorem dinv_of_mid {g : Graph} {s endN node dz : Nat}
    {processed : List (Nat × Nat)} {σ : DState} {S : List Nat}
    (inv : DInvMid g s endN node dz processed σ S)
    (hcover : ∀ v w, g.get_weight node v = some w → (v, w) ∈ processed) :
    DInv g s endN σ S := by
  refine ⟨inv.start_dist, inv.dist_sound, inv.queue_dist, inv.queue_nodup,
    inv.settled_min, inv.settled_dist, ?_, inv.unsettled_queue, inv.settled_stale,
    inv.end_not_settled, inv.pred_none_s, inv.pred_local, inv.pred_chain⟩
  intro u hu v w hw du hdu
  by_cases hun : u = node
  · subst hun
    obtain ⟨dv, hdv, hle⟩ := inv.relaxed_node (v, w) (hcover v w hw)
    have hdz : du = dz := by
      rw [inv.node_dist] at hdu
      exact (Option.some_inj.mp hdu).symm
    subst hdz
    exact ⟨dv, hdv, hle⟩
  · exact inv.settled_relaxed1 u hu hun v w hw du hdu

/-- The full relaxation sweep turns the mid-sweep invariant back into the
plain invariant. -/
theorem dinv_relaxAll {g : Graph} {s endN node dz : Nat} {σ : DState}
    {S : List Nat} (hg : InnerNodup g)
    (inv : DInvMid g s endN node dz [] σ S) :
    DInv g s endN (relaxAll g node dz σ) S := by
  unfold relaxAll
  rcases hn : alookup g.adjacency_map node with _ | ns
  · refine dinv_of_mid inv ?_
    intro v w hw
    exfalso
    unfold Graph.get_weight at hw
    rw [hn] at hw
    cases hw
  · have hedges : ∀ e ∈ ns, g.get_weight node e.1 = some e.2 := by
      intro e he2
      unfold Graph.get_weight
      rw [hn]
      show alookup ns e.1 = some e.2
      exact mem_alookup_of_nodup (hg (node, ns) (alookup_mem hn)) he2
    have hmid := relaxList_mid ns [] σ inv hedges
    refine dinv_of_mid hmid ?_
    intro v w hw
    unfold Graph.get_weight at hw
    rw [hn] at hw
    exact alookup_mem hw

/-- At a pop of the end node, the returned pair is a real path of minimal
weight. -/
theorem dinv_final {g : Graph} {s endN : Nat} {σ : DState} {S : List Nat}
    {dz : Nat} {rest : List (Nat × Nat)}
    (inv : DInv g s endN σ S)
    (hpop : popMax σ.queue = some ((endN, dz), rest)) :
    IsPathList g s endN (reconstruct_path σ.predecessors endN) dz ∧
    ∀ k, Walk g s endN k → dz ≤ k := by
  have hmin : ∀ k, Walk g s endN k → dz ≤ k :=
    pop_min_le inv hpop inv.end_not_settled
  have hmemq : (endN, dz) ∈ σ.queue := (popMax_mem hpop).1
  obtain ⟨dn, hdn, hdnle⟩ := inv.queue_dist (endN, dz) hmemq
  have hwalk : Walk g s endN dn := inv.dist_sound endN dn hdn
  have hdzeq : dn = dz := le_antisymm hdnle (hmin dn hwalk)
  subst hdzeq
  obtain ⟨l, hc, hnd, hlast⟩ := inv.pred_chain endN (by rw [hdn]; rfl)
  obtain ⟨wt, hpath, hwtle⟩ := chain_path inv.pred_local hc hlast dn hdn
  have hwteq : wt = dn := le_antisymm hwtle (hmin wt (pathList_to_walk hpath))
  subst hwteq
  have hfuel : l.length ≤ σ.predecessors.length + 1 := chainIs_length_le hc hnd
  have hrp : reconstruct_path σ.predecessors endN = l.reverse := by
    unfold reconstruct_path
    rw [predChain_of_chainIs hc (σ.predecessors.length + 1) (by omega)]
  rw [hrp]
  exact ⟨hpath, hmin⟩

/-- An empty heap means the end node is unreachable. -/
theorem dinv_empty {g : Graph} {s endN : Nat} {σ : DState} {S : List Nat}
    (inv : DInv g s endN σ S) (hq : popMax σ.queue = none) :
    ∀ k, ¬ Walk g s endN k := by
  intro k hw
  have hqnil : σ.queue = [] := (popMax_none_iff _).mp hq
  obtain ⟨e, he, _⟩ := frontier_cover inv hw inv.end_not_settled
  rw [hqnil] at he
  simp at he

/-- Main loop correctness: from any state satisfying the invariant, the loop
returns a minimal-weight path to `endN`, or `none` exactly when no walk
reaches it. -/
theorem dloop_spec (g : Graph) (hg : InnerNodup g) (s endN : Nat) :
    ∀ (σ : DState),
      (∀ S, DInv g s endN σ S →
        ((∀ p wt, dloop g endN σ = some (p, wt) →
            IsPathList g s endN p wt ∧ ∀ k, Walk g s endN k → wt ≤ k) ∧
          (dloop g endN σ = none → ∀ k, ¬ Walk g s endN k))) := by
  intro σ
  induction σ using dloop.induct g endN with
  | case1 σ hp =>
    intro S inv
    rw [dloop]
    rcases hp2 : popMax σ.queue with _ | p
    · dsimp only
      constructor
      · intro p wt h
        cases h
      · intro _
        exact dinv_empty inv hp2
    · rw [hp2] at hp
      cases hp
  | case2 σ dz rest hp =>
    intro S inv
    rw [dloop]
    rcases hp2 : popMax σ.queue with _ | p
    · rw [hp2] at hp
      cases hp
    · rw [hp2] at hp
      have hpe : p = ((endN, dz), rest) := Option.some_inj.mp hp
      subst hpe
      dsimp only
      rw [if_pos rfl]
      constructor
      · intro p wt h
        have h1 : reconstruct_path σ.predecessors endN = p :=
          congrArg Prod.fst (Option.some_inj.mp h)
        have h2 : dz = wt := congrArg Prod.snd (Option.some_inj.mp h)
        subst h2
        rw [← h1]
        exact dinv_final inv hp2
      · intro h
        cases h
  | case3 σ node dz rest hp hne cur hcur hlt ih =>
    intro S inv
    rw [dloop]
    rcases hp2 : popMax σ.queue with _ | p
    · rw [hp2] at hp
      cases hp
    · rw [hp2] at hp
      have hpe : p = ((node, dz), rest) := Option.some_inj.mp hp
      subst hpe
      dsimp only
      rw [if_neg hne, hcur]
      dsimp only
      rw [if_pos hlt]
      exact ih S (dinv_skip inv hp2 hcur hlt)
  | case4 σ node dz rest hp hne cur hcur hge ih =>
    intro S inv
    rw [dloop]
    rcases hp2 : popMax σ.queue with _ | p
    · rw [hp2] at hp
      cases hp
    · rw [hp2] at hp
      have hpe : p = ((node, dz), rest) := Option.some_inj.mp hp
      subst hpe
      dsimp only
      rw [if_neg hne, hcur]
      dsimp only
      rw [if_neg hge]
      -- the popped entry is not stale: its distance equals the recorded one
      have hnS : ¬ node ∈ S := by
        intro hc
        have := inv.settled_stale (node, dz) (popMax_mem hp2).1 hc cur hcur
        omega
      have hdzeq : cur = dz := by
        obtain ⟨dn, hdn, hle⟩ := inv.queue_dist (node, dz) (popMax_mem hp2).1
        rw [hcur] at hdn
        have : cur = dn := Option.some_inj.mp hdn
        omega
      have hdz : alookup σ.distances node = some dz := by
        rw [hcur, hdzeq]
      exact ih (node :: S)
        (dinv_relaxAll hg (dinv_mid_start inv hp2 hdz hnS hne))
  | case5 σ node dz rest hp hne hnone ih =>
    intro S inv
    exfalso
    obtain ⟨dn, hdn, _⟩ := inv.queue_dist (node, dz) (popMax_mem hp).1
    rw [hnone] at hdn
    cases hdn

/-- `Graph::shortest_path` correctness: a returned pair is a genuine path of
minimal weight among all walks; `None` means unreachable. -/
theorem shortest_path_correct (g : Graph) (hg : InnerNodup g) (s e : Nat) :
    (∀ p wt, g.shortest_path s e = some (p, wt) →
        IsPathList g s e p wt ∧ ∀ q wt2, IsPathList g s e q wt2 → wt ≤ wt2) ∧
    (g.shortest_path s e = none → ∀ q wt2, ¬ IsPathList g s e q wt2) := by
  have hspec := dloop_spec g hg s e ⟨[(s, 0)], [], [(s, 0)]⟩ [] (dinv_init g s e)
  constructor
  · intro p wt h
    obtain ⟨h1, h2⟩ := hspec.1 p wt h
    exact ⟨h1, fun q wt2 hq => h2 wt2 (pathList_to_walk hq)⟩
  · intro h q wt2 hq
    exact hspec.2 h wt2 (pathList_to_walk hq)

/-! ## BFS emission order (claim C3) -/

theorem bfsList_sorted (g : Graph) (s : Nat) :
    List.Pairwise (DistLE g s) (g.bfsList s) := by
  have h := bfs_sorted g s [s] [s] (fun v hv => hv) (by simp)
    (fun v hv hnv => absurd hv hnv) (List.mem_singleton.mpr rfl)
    (fun v hv => by
      rw [List.mem_singleton] at hv
      subst hv
      exact ⟨0, WalkLen.nil⟩)
    (List.pairwise_singleton _ _)
    (by
      intro hq tq heq b hb dh db hdh hdb
      injection heq with h1 _
      rw [List.mem_singleton] at hb
      subst hb
      subst h1
      have := isDist_unique hdh hdb
      omega)
  exact h.1

/-! ## Graph value equality (claim C8) -/

/-- Equality of two inner weight maps as `HashMap`s: the same lookup on every
key of either (iteration order irrelevant). -/
def innerEqB (m1 m2 : List (Nat × Nat)) : Bool :=
  (keysOf m1 ++ keysOf m2).all (fun k =>
    match alookup m1 k, alookup m2 k with
    | none, none => true
    | some a, some b => a == b
    | _, _ => false)

/-- Equality of two graphs as values (Rust `==` on the struct): same flag and
the same node → (node → weight) mapping, independent of iteration order. -/
def graphEq (g1 g2 : Graph) : Bool :=
  (g1.directed == g2.directed) &&
  ((keysOf g1.adjacency_map ++ keysOf g2.adjacency_map).all (fun k =>
    match alookup g1.adjacency_map k, alookup g2.adjacency_map k with
    | none, none => true
    | some m1, some m2 => innerEqB m1 m2
    | _, _ => false))

theorem alookup_eq_none_of_not_mem {β : Type} {m : List (Nat × β)} {k : Nat}
    (h : ¬ k ∈ keysOf m) : alookup m k = none := by
  rcases he : alookup m k with _ | v
  · rfl
  · exact absurd ((alookup_isSome_iff_mem_keys m k).mp (by rw [he]; rfl)) h

theorem innerEqB_lookup {m1 m2 : List (Nat × Nat)} (h : innerEqB m1 m2 = true) :
    ∀ v, alookup m1 v = alookup m2 v := by
  intro v
  by_cases hv : v ∈ keysOf m1 ++ keysOf m2
  · have hk := List.all_eq_true.mp h v hv
    rcases h1 : alookup m1 v with _ | a <;> rcases h2 : alookup m2 v with _ | b
    · rfl
    · rw [h1, h2] at hk
      dsimp only at hk
      simp at hk
    · rw [h1, h2] at hk
      dsimp only at hk
      simp at hk
    · rw [h1, h2] at hk
      dsimp only at hk
      rw [Nat.beq_eq_true_eq] at hk
      rw [hk]
  · rw [List.mem_append] at hv
    rw [alookup_eq_none_of_not_mem (fun hc => hv (Or.inl hc)),
      alookup_eq_none_of_not_mem (fun hc => hv (Or.inr hc))]

theorem graphEq_get_weight {g1 g2 : Graph} (h : graphEq g1 g2 = true) :
    ∀ u v, g1.get_weight u v = g2.get_weight u v := by
  intro u v
  unfold graphEq at h
  rw [Bool.and_eq_true] at h
  unfold Graph.get_weight
  by_cases hu : u ∈ keysOf g1.adjacency_map ++ keysOf g2.adjacency_map
  · have hk := List.all_eq_true.mp h.2 u hu
    rcases h1 : alookup g1.adjacency_map u with _ | m1 <;>
      rcases h2 : alookup g2.adjacency_map u with _ | m2
    · rfl
    · rw [h1, h2] at hk
      dsimp only at hk
      simp at hk
    · rw [h1, h2] at hk
      dsimp only at hk
      simp at hk
    · rw [h1, h2] at hk
      dsimp only at hk
      exact innerEqB_lookup hk v
  · rw [List.mem_append] at hu
    rw [alookup_eq_none_of_not_mem (fun hc => hu (Or.inl hc)),
      alookup_eq_none_of_not_mem (fun hc => hu (Or.inr hc))]

theorem has_edge_congr {g1 g2 : Graph}
    (h : ∀ u v, g1.get_weight u v = g2.get_weight u v) (u v : Nat) :
    g1.has_edge u v = g2.has_edge u v := by
  have h1 := has_edge_iff_get_weight g1 u v
  have h2 := has_edge_iff_get_weight g2 u v
  rcases hb : g2.has_edge u v with _ | _
  · rcases hb1 : g1.has_edge u v with _ | _
    · rfl
    · obtain ⟨w, hw⟩ := h1.mp hb1
      rw [h u v] at hw
      have := h2.mpr ⟨w, hw⟩
      rw [hb] at this
      cases this
  · obtain ⟨w, hw⟩ := h2.mp hb
    rw [← h u v] at hw
    exact h1.mpr ⟨w, hw⟩

theorem walklen_congr {g1 g2 : Graph} {s : Nat}
    (h : ∀ u v, g1.get_weight u v = g2.get_weight u v) :
    ∀ {v k : Nat}, WalkLen g1 s v k → WalkLen g2 s v k := by
  intro v k hw
  induction hw with
  | nil => exact WalkLen.nil
  | cons _ he ih => exact WalkLen.cons ih (by rw [← has_edge_congr h]; exact he)

theorem reach_congr {g1 g2 : Graph}
    (h : ∀ u v, g1.get_weight u v = g2.get_weight u v) (s v : Nat) :
    Reach g1 s v ↔ Reach g2 s v :=
  ⟨fun ⟨k, hk⟩ => ⟨k, walklen_congr h hk⟩,
   fun ⟨k, hk⟩ => ⟨k, walklen_congr (fun u v => (h u v).symm) hk⟩⟩

/-! ## Concrete scenario graphs -/

/-- Build a directed graph from a list of weighted edges, in order. -/
def buildD (es : List (Nat × Nat × Nat)) : Graph :=
  es.foldl (fun g e => g.add_edge_weighted e.1 e.2.1 e.2.2) (Graph.new true)

/-- The spec's Dijkstra scenario graph. -/
def gC2 : Graph := buildD [(1, 2, 4), (2, 3, 3), (3, 4, 5), (1, 4, 15)]

/-- A graph on which `all_shortest_paths` misses an optimal path: the
zero-weight edge 2→4 ties 1→2→4 with 1→4, but node 2 is still in the heap
when node 4 (the end) is popped. -/
def gCX : Graph := buildD [(1, 4, 1), (1, 2, 1), (2, 4, 0)]

/-- Two directed graphs equal as values but with the edges of node 1 inserted
in opposite orders. -/
def gE1 : Graph := ((Graph.new true).add_edge 1 2).add_edge 1 3

def gE2 : Graph := ((Graph.new true).add_edge 1 3).add_edge 1 2

/-- The spec's all-shortest-paths scenario graph: two tied 1→4 paths through
2 and through 3, all weights strictly positive. -/
def gC1 : Graph := buildD [(1, 2, 1), (1, 3, 1), (2, 4, 1), (3, 4, 1)]

/-! ## `all_shortest_paths` correctness (claim C1): predecessor DAG chains -/

/-- All edge weights are strictly positive (`W` values the spec's scenario and
the repository's uses supply; zero weights break the algorithm, see the
counterexample). -/
def PosWeights (g : Graph) : Prop :=
  ∀ u v w, g.get_weight u v = some w → 0 < w

/-- Decidable sufficient condition for `PosWeights` on a concrete graph:
every weight stored in the adjacency map is strictly positive. -/
theorem posWeights_of_all {g : Graph}
    (h : g.adjacency_map.all (fun p => p.2.all (fun q => decide (0 < q.2))) = true) :
    PosWeights g := by
  intro u v w hw
  unfold Graph.get_weight at hw
  rcases h1 : alookup g.adjacency_map u with _ | es
  · rw [h1] at hw
    cases hw
  · rw [h1] at hw
    rw [Option.some_bind] at hw
    have h2 := List.all_eq_true.mp h (u, es) (alookup_mem h1)
    have h3 := List.all_eq_true.mp h2 (v, w) (alookup_mem hw)
    simpa using h3

/-- `c` is a complete backward chain through the multi-predecessor map:
from `n`, repeatedly step to any recorded predecessor, until a node with no
entry. -/
inductive AChain (preds : List (Nat × List Nat)) : Nat → List Nat → Prop
  | stop {n : Nat} : alookup preds n = none → AChain preds n [n]
  | step {n p : Nat} {l c : List Nat} :
      alookup preds n = some l → p ∈ l → AChain preds p c → AChain preds n (n :: c)

theorem achain_ne_nil {preds : List (Nat × List Nat)} {n : Nat} {c : List Nat}
    (h : AChain preds n c) : c ≠ [] := by
  cases h <;> simp

theorem achain_head {preds : List (Nat × List Nat)} {n : Nat} {c : List Nat}
    (h : AChain preds n c) : ∃ t, c = n :: t := by
  cases h <;> exact ⟨_, rfl⟩

/-- Everything `build_paths` emits is a backward chain appended to the
accumulator. -/
theorem bp_sound {preds : List (Nat × List Nat)} :
    ∀ (fuel : Nat) (cur : Nat) (acc q : List Nat),
      q ∈ build_paths preds fuel cur acc →
      ∃ c, AChain preds cur c ∧ q = acc ++ c := by
  intro fuel
  induction fuel with
  | zero => intro cur acc q h; simp [build_paths] at h
  | succ f ih =>
    intro cur acc q h
    rw [build_paths] at h
    rcases hl : alookup preds cur with _ | ps
    · rw [hl] at h
      simp at h
      exact ⟨[cur], AChain.stop hl, h⟩
    · rw [hl] at h
      simp only [List.mem_flatten, List.mem_map] at h
      obtain ⟨l2, ⟨p, hp, hl2⟩, hq⟩ := h
      rw [← hl2] at hq
      obtain ⟨c, hc, hceq⟩ := ih p (acc ++ [cur]) q hq
      refine ⟨cur :: c, AChain.step hl hp hc, ?_⟩
      rw [hceq]
      simp

/-- With enough fuel, `build_paths` emits every backward chain. -/
theorem bp_complete {preds : List (Nat × List Nat)} :
    ∀ {cur : Nat} {c : List Nat}, AChain preds cur c →
      ∀ fuel, c.length ≤ fuel → ∀ acc,
        (acc ++ c) ∈ build_paths preds fuel cur acc := by
  intro cur c h
  induction h with
  | @stop n hl =>
    intro fuel hfuel acc
    cases fuel with
    | zero => simp at hfuel
    | succ f =>
      rw [build_paths, hl]
      simp
  | @step n p l c hl hp hc ih =>
    intro fuel hfuel acc
    cases fuel with
    | zero => simp at hfuel
    | succ f =>
      rw [build_paths, hl]
      dsimp only
      rw [List.mem_flatten]
      refine ⟨build_paths preds f p (acc ++ [n]), List.mem_map.mpr ⟨p, hp, rfl⟩, ?_⟩
      have : acc ++ n :: c = (acc ++ [n]) ++ c := by simp
      rw [this]
      refine ih f ?_ (acc ++ [n])
      have : (n :: c).length = c.length + 1 := rfl
      omega

/-- With duplicate-free predecessor lists, `build_paths` emits no chain
twice. -/
theorem bp_nodup {preds : List (Nat × List Nat)}
    (hnd : ∀ n l, alookup preds n = some l → l.Nodup) :
    ∀ (fuel : Nat) (cur : Nat) (acc : List Nat),
      (build_paths preds fuel cur acc).Nodup := by
  intro fuel
  induction fuel with
  | zero => intro cur acc; simp [build_paths]
  | succ f ih =>
    intro cur acc
    rw [build_paths]
    rcases hl : alookup preds cur with _ | ps
    · simp
    · dsimp only
      rw [List.nodup_flatten]
      constructor
      · intro l2 hl2
        obtain ⟨p, _, hpe⟩ := List.mem_map.mp hl2
        rw [← hpe]
        exact ih p (acc ++ [cur])
      · rw [List.pairwise_map]
        refine (hnd cur ps hl).imp ?_
        intro p1 p2 hne q hq1 hq2
        obtain ⟨c1, hc1, he1⟩ := bp_sound f p1 (acc ++ [cur]) q hq1
        obtain ⟨c2, hc2, he2⟩ := bp_sound f p2 (acc ++ [cur]) q hq2
        have heq : acc ++ [cur] ++ c1 = acc ++ [cur] ++ c2 := by rw [← he1, ← he2]
        have hc : c1 = c2 := List.append_cancel_left heq
        obtain ⟨t1, ht1⟩ := achain_head hc1
        obtain ⟨t2, ht2⟩ := achain_head hc2
        rw [ht1, ht2] at hc
        injection hc with h1 _
        exact hne h1

/-- A backward chain whose links each join a recorded predecessor reads, in
reverse, as a path list of exactly the head's recorded distance. -/
theorem achain_path {g : Graph} {s : Nat} {dist : List (Nat × Nat)}
    {preds : List (Nat × List Nat)}
    (hps : ∀ n l, alookup preds n = some l → ∀ p ∈ l, ∃ w dp dn,
        g.get_weight p n = some w ∧ alookup dist p = some dp ∧
        alookup dist n = some dn ∧ dp + w = dn)
    (hstop : ∀ n, alookup preds n = none → (alookup dist n).isSome = true → n = s)
    (hs0 : alookup dist s = some 0) :
    ∀ {n c}, AChain preds n c → ∀ dn, alookup dist n = some dn →
      IsPathList g s n c.reverse dn := by
  intro n c h
  induction h with
  | @stop n hl =>
    intro dn hdn
    have hn : n = s := hstop n hl (by rw [hdn]; rfl)
    subst hn
    rw [hs0] at hdn
    have : dn = 0 := (Option.some_inj.mp hdn).symm
    subst this
    exact ⟨by simp, by simp, rfl⟩
  | @step n p l c hl hp hc ih =>
    intro dn hdn
    obtain ⟨w, dp, dn2, hw, hdp, hdn2, hsum⟩ := hps n l hl p hp
    have hdneq : dn = dn2 := by
      rw [hdn] at hdn2
      exact Option.some_inj.mp hdn2
    subst hdneq
    obtain ⟨hh, hlast, hwt⟩ := ih dp hdp
    refine ⟨?_, ?_, ?_⟩
    · rw [List.reverse_cons]
      cases hrev : c.reverse with
      | nil => exact absurd (List.reverse_eq_nil_iff.mp hrev) (achain_ne_nil hc)
      | cons a t =>
        rw [hrev] at hh
        simpa using hh
    · rw [List.reverse_cons]
      simp
    · rw [List.reverse_cons]
      have hplast : c.reverse.getLast? = some p := by
        rw [List.getLast?_reverse]
        obtain ⟨t, ht⟩ := achain_head hc
        rw [ht]
        rfl
      rw [← hsum]
      exact listPathWeight_snoc g c.reverse p n dp w hplast hw hwt

/-- Along a backward chain, recorded distances strictly decrease, so the
chain repeats no node. -/
theorem achain_nodup {dist : List (Nat × Nat)} {preds : List (Nat × List Nat)}
    (hlt : ∀ n l, alookup preds n = some l → ∀ p ∈ l, ∃ dp dn,
        alookup dist p = some dp ∧ alookup dist n = some dn ∧ dp < dn) :
    ∀ {n c}, AChain preds n c → ∀ dn, alookup dist n = some dn →
      c.Nodup ∧ ∀ x ∈ c, ∃ dx, alookup dist x = some dx ∧ dx ≤ dn := by
  intro n c h
  induction h with
  | @stop n _ =>
    intro dn hdn
    refine ⟨by simp, ?_⟩
    intro x hx
    rw [List.mem_singleton] at hx
    subst hx
    exact ⟨dn, hdn, le_refl _⟩
  | @step n p l c hl hp hc ih =>
    intro dn hdn
    obtain ⟨dp, dn2, hdp, hdn2, hplt⟩ := hlt n l hl p hp
    have hdneq : dn = dn2 := by
      rw [hdn] at hdn2
      exact Option.some_inj.mp hdn2
    subst hdneq
    obtain ⟨hnd, hmem⟩ := ih dp hdp
    constructor
    · rw [List.nodup_cons]
      refine ⟨?_, hnd⟩
      intro hin
      obtain ⟨dx, hdx, hxle⟩ := hmem n hin
      rw [hdn] at hdx
      have : dn = dx := Option.some_inj.mp hdx
      omega
    · intro x hx
      rcases List.mem_cons.mp hx with h1 | h1
      · subst h1
        exact ⟨dn, hdn, le_refl _⟩
      · obtain ⟨dx, hdx, hxle⟩ := hmem x h1
        exact ⟨dx, hdx, by omega⟩

theorem achain_mem_keys {preds : List (Nat × List Nat)} :
    ∀ {n : Nat} {c : List Nat}, AChain preds n c →
      ∀ x ∈ c.dropLast, x ∈ keysOf preds := by
  intro n c h
  induction h with
  | @stop n _ => intro x hx; simp at hx
  | @step n p l c hl hp hc ih =>
    intro x hx
    rw [List.dropLast_cons_of_ne_nil (achain_ne_nil hc)] at hx
    rcases List.mem_cons.mp hx with h1 | h1
    · subst h1
      exact (alookup_isSome_iff_mem_keys preds x).mp (by rw [hl]; rfl)
    · exact ih x h1

theorem achain_length_le {preds : List (Nat × List Nat)} {n : Nat} {c : List Nat}
    (h : AChain preds n c) (hnd : c.Nodup) : c.length ≤ preds.length + 1 := by
  have hsub : c.dropLast ⊆ keysOf preds := fun x hx => achain_mem_keys h x hx
  have hndd : c.dropLast.Nodup := hnd.sublist (List.dropLast_sublist c)
  have hcard : c.dropLast.length ≤ (keysOf preds).length := by
    have h1 : c.dropLast.toFinset.card = c.dropLast.length :=
      List.toFinset_card_of_nodup hndd
    have h2 : c.dropLast.toFinset ⊆ (keysOf preds).toFinset := by
      intro a ha
      rw [List.mem_toFinset] at ha ⊢
      exact hsub ha
    have h3 := Finset.card_le_card h2
    have h4 : (keysOf preds).toFinset.card ≤ (keysOf preds).length :=
      List.toFinset_card_le _
    omega
  have hkl : (keysOf preds).length = preds.length := List.length_map _ _
  have hll : c.dropLast.length + 1 = c.length := by
    cases c with
    | nil => exact absurd rfl (achain_ne_nil h)
    | cons a t => simp
  omega

/-- Inversion of `listPathWeight` over a final edge. -/
theorem listPathWeight_snoc_inv (g : Graph) :
    ∀ (l : List Nat) (v : Nat) (d : Nat), l ≠ [] →
      listPathWeight g (l ++ [v]) = some d →
      ∃ u w d2, l.getLast? = some u ∧ g.get_weight u v = some w ∧
        listPathWeight g l = some d2 ∧ d2 + w = d := by
  intro l
  induction l with
  | nil => intro v d hne; exact absurd rfl hne
  | cons a t ih =>
    intro v d _ h
    cases t with
    | nil =>
      rw [List.singleton_append] at h
      unfold listPathWeight at h
      rcases hw : g.get_weight a v with _ | w
      · rw [hw] at h
        simp at h
      · rw [hw] at h
        simp [listPathWeight] at h
        exact ⟨a, w, 0, rfl, hw, rfl, by omega⟩
    | cons b t2 =>
      rw [List.cons_append, List.cons_append] at h
      unfold listPathWeight at h
      rcases hw1 : g.get_weight a b with _ | w1
      · rw [hw1] at h
        simp at h
      · rw [hw1] at h
        rcases hrest : listPathWeight g (b :: (t2 ++ [v])) with _ | rw2
        · rw [hrest] at h
          simp at h
        · rw [hrest] at h
          simp at h
          obtain ⟨u, w, d2, hlast, hw, hlpw, hsum⟩ := ih v rw2 (by simp)
            (by rw [List.cons_append]; exact hrest)
          refine ⟨u, w, w1 + d2, ?_, hw, ?_, by omega⟩
          · rw [List.getLast?_cons_cons]
            exact hlast
          · unfold listPathWeight
            rw [hw1, hlpw]

/-! ### The `all_shortest_paths` loop invariant -/

/-- The ghost invariant of `all_shortest_paths`' main loop: distances and
heap behave as in `shortest_path`, and `all_predecessors` records, for every
node, a duplicate-free, nonempty list of settled optimal predecessors,
complete for every settled source. -/
structure AInv (g : Graph) (s endN : Nat) (σ : AState) (S : List Nat) : Prop where
  start_dist : alookup σ.distances s = some 0
  dist_sound : ∀ n d, alookup σ.distances n = some d → Walk g s n d
  queue_dist : ∀ p ∈ σ.queue, ∃ dn, alookup σ.distances p.1 = some dn ∧ dn ≤ p.2
  queue_nodup : σ.queue.Nodup
  settled_min : ∀ u ∈ S, ∀ du, alookup σ.distances u = some du →
      ∀ k, Walk g s u k → du ≤ k
  settled_dist : ∀ u ∈ S, (alookup σ.distances u).isSome = true
  settled_relaxed : ∀ u ∈ S, ∀ v w, g.get_weight u v = some w →
      ∀ du, alookup σ.distances u = some du →
      ∃ dv, alookup σ.distances v = some dv ∧ dv ≤ du + w
  settled_le_end : ∀ u ∈ S, ∀ du, alookup σ.distances u = some du →
      ∀ k, Walk g s endN k → du ≤ k
  settled_pred_complete : ∀ u ∈ S, ∀ v w, g.get_weight u v = some w →
      ∀ du dv, alookup σ.distances u = some du → alookup σ.distances v = some dv →
      du + w = dv → ∃ l, alookup σ.all_predecessors v = some l ∧ u ∈ l
  unsettled_queue : ∀ n d, alookup σ.distances n = some d → ¬ n ∈ S →
      (n, d) ∈ σ.queue
  settled_stale : ∀ p ∈ σ.queue, p.1 ∈ S →
      ∀ dn, alookup σ.distances p.1 = some dn → dn < p.2
  end_not_settled : ¬ endN ∈ S
  pred_none_s : alookup σ.all_predecessors s = none
  pred_sound : ∀ n l, alookup σ.all_predecessors n = some l →
      l ≠ [] ∧ l.Nodup ∧ ∀ p ∈ l, p ∈ S ∧ ∃ w dp dn,
        g.get_weight p n = some w ∧ alookup σ.distances p = some dp ∧
        alookup σ.distances n = some dn ∧ dp + w = dn
  dist_pred : ∀ n d, alookup σ.distances n = some d → n ≠ s →
      (alookup σ.all_predecessors n).isSome = true

theorem afrontier_cover {g : Graph} {s endN : Nat} {σ : AState} {S : List Nat}
    (inv : AInv g s endN σ S) :
    ∀ {v k : Nat}, Walk g s v k → ¬ v ∈ S → ∃ e ∈ σ.queue, e.2 ≤ k := by
  intro v k hw
  induction hw with
  | nil =>
    intro hs
    exact ⟨(s, 0), inv.unsettled_queue s 0 inv.start_dist hs, le_refl 0⟩
  | @cons u v2 d w hwu he ih =>
    intro hv
    by_cases hu : u ∈ S
    · obtain ⟨du, hdu⟩ : ∃ du, alookup σ.distances u = some du :=
        Option.isSome_iff_exists.mp (inv.settled_dist u hu)
      obtain ⟨dv, hdv, hdvle⟩ := inv.settled_relaxed u hu v2 w he du hdu
      have hmin := inv.settled_min u hu du hdu d hwu
      exact ⟨(v2, dv), inv.unsettled_queue v2 dv hdv hv, by omega⟩
    · obtain ⟨e, he2, hle⟩ := ih hu
      exact ⟨e, he2, by omega⟩

theorem apop_min_le {g : Graph} {s endN : Nat} {σ : AState} {S : List Nat}
    (inv : AInv g s endN σ S) {node dz : Nat} {rest : List (Nat × Nat)}
    (hpop : popMax σ.queue = some ((node, dz), rest)) (hnode : ¬ node ∈ S) :
    ∀ k, Walk g s node k → dz ≤ k := by
  intro k hw
  obtain ⟨e, he, hle⟩ := afrontier_cover inv hw hnode
  exact le_trans (popMax_isMin hpop e he) hle

/-- Whatever the heap pops is bounded by every walk weight to the (still
unsettled) end node. -/
theorem apop_le_end {g : Graph} {s endN : Nat} {σ : AState} {S : List Nat}
    (inv : AInv g s endN σ S) {node dz : Nat} {rest : List (Nat × Nat)}
    (hpop : popMax σ.queue = some ((node, dz), rest)) :
    ∀ k, Walk g s endN k → dz ≤ k := by
  intro k hw
  obtain ⟨e, he, hle⟩ := afrontier_cover inv hw inv.end_not_settled
  exact le_trans (popMax_isMin hpop e he) hle

theorem ainv_init (g : Graph) (s endN : Nat) :
    AInv g s endN ⟨[(s, 0)], [], [(s, 0)]⟩ [] := by
  have hlook : ∀ n d, alookup [(s, 0)] n = some d → n = s ∧ d = 0 := by
    intro n d h
    rw [alookup] at h
    by_cases hsn : s = n
    · rw [if_pos hsn] at h
      exact ⟨hsn.symm, (Option.some_inj.mp h).symm⟩
    · rw [if_neg hsn] at h
      rw [alookup] at h
      cases h
  refine ⟨by simp [alookup], ?_, ?_, by simp, ?_, ?_, ?_, ?_, ?_, ?_, ?_, ?_, rfl,
    ?_, ?_⟩
  · intro n d h
    obtain ⟨h1, h2⟩ := hlook n d h
    subst h1
    subst h2
    exact Walk.nil
  · intro p hp
    simp at hp
    subst hp
    exact ⟨0, by simp [alookup], le_refl 0⟩
  · intro u hu
    simp at hu
  · intro u hu
    simp at hu
  · intro u hu
    simp at hu
  · intro u hu
    simp at hu
  · intro u hu
    simp at hu
  · intro n d h _
    obtain ⟨h1, h2⟩ := hlook n d h
    subst h1
    subst h2
    simp
  · intro p _ hpS
    simp at hpS
  · simp
  · intro n l h
    rw [alookup] at h
    cases h
  · intro n d h hns
    obtain ⟨h1, _⟩ := hlook n d h
    exact absurd h1 hns

theorem ainv_skip {g : Graph} {s endN : Nat} {σ : AState} {S : List Nat}
    (inv : AInv g s endN σ S) {node dz best : Nat} {rest : List (Nat × Nat)}
    (hpop : popMax σ.queue = some ((node, dz), rest))
    (hbest : alookup σ.distances node = some best) (hlt : best < dz) :
    AInv g s endN { σ with queue := rest } S := by
  have hperm := popMax_perm hpop
  have hsub : ∀ x ∈ rest, x ∈ σ.queue := fun x hx =>
    hperm.mem_iff.mp (List.mem_cons_of_mem _ hx)
  refine ⟨inv.start_dist, inv.dist_sound, ?_, ?_, inv.settled_min, inv.settled_dist,
    inv.settled_relaxed, inv.settled_le_end, inv.settled_pred_complete, ?_, ?_,
    inv.end_not_settled, inv.pred_none_s, inv.pred_sound, inv.dist_pred⟩
  · intro p hp
    exact inv.queue_dist p (hsub p hp)
  · have hnd := hperm.nodup_iff.mpr inv.queue_nodup
    exact (List.nodup_cons.mp hnd).2
  · intro n d hlook2 hnS
    have hmem := inv.unsettled_queue n d hlook2 hnS
    have hne : (n, d) ≠ (node, dz) := by
      intro hc
      have h1 : n = node := congrArg Prod.fst hc
      have h2 : d = dz := congrArg Prod.snd hc
      rw [h1, hbest] at hlook2
      have h3 : best = d := Option.some_inj.mp hlook2
      omega
    rcases List.mem_cons.mp (hperm.mem_iff.mpr hmem) with h | h
    · exact absurd h hne
    · exact h
  · intro p hp hpS dn hdn
    exact inv.settled_stale p (hsub p hp) hpS dn hdn

/-! ### `relaxA1` equation lemmas and the mid-sweep invariant -/

theorem relaxA1_eq_skip (node dz : Nat) (σ : AState) (e : Nat × Nat) {cur : Nat}
    (hd : alookup σ.distances e.1 = some cur) (hgt : cur < dz + e.2) :
    relaxA1 node dz σ e = σ := by
  unfold relaxA1
  rw [hd]
  dsimp only
  rw [if_pos hgt]

theorem relaxA1_eq_tie (node dz : Nat) (σ : AState) (e : Nat × Nat) {cur : Nat}
    (hd : alookup σ.distances e.1 = some cur) (heq : dz + e.2 = cur) :
    relaxA1 node dz σ e = ⟨σ.distances,
      aupsert σ.all_predecessors e.1 (fun l => (l.getD []) ++ [node]), σ.queue⟩ := by
  unfold relaxA1
  rw [hd]
  dsimp only
  rw [if_neg (by omega), if_pos heq]

theorem relaxA1_eq_update (node dz : Nat) (σ : AState) (e : Nat × Nat)
    (hfire : alookup σ.distances e.1 = none ∨
      ∃ cur, alookup σ.distances e.1 = some cur ∧ dz + e.2 < cur) :
    relaxA1 node dz σ e = ⟨ainsert σ.distances e.1 (dz + e.2),
      aupsert σ.all_predecessors e.1 (fun _ => [node]),
      σ.queue ++ [(e.1, dz + e.2)]⟩ := by
  unfold relaxA1
  rcases hfire with hd | ⟨cur, hd, hlt⟩
  · rw [hd]
  · rw [hd]
    dsimp only
    rw [if_neg (by omega), if_neg (by omega)]

theorem keysOf_append {β : Type} (l1 l2 : List (Nat × β)) :
    keysOf (l1 ++ l2) = keysOf l1 ++ keysOf l2 := by
  unfold keysOf
  rw [List.map_append]

/-- The mid-sweep invariant of `all_shortest_paths` while relaxing the
freshly settled `node`: entries in `processed` are relaxed and, on exact
ties with the recorded distance, carry `node` as predecessor; `node` appears
in no other predecessor list. -/
structure AInvMid (g : Graph) (s endN node dz : Nat) (processed : List (Nat × Nat))
    (σ : AState) (S : List Nat) : Prop where
  start_dist : alookup σ.distances s = some 0
  dist_sound : ∀ n d, alookup σ.distances n = some d → Walk g s n d
  queue_dist : ∀ p ∈ σ.queue, ∃ dn, alookup σ.distances p.1 = some dn ∧ dn ≤ p.2
  queue_nodup : σ.queue.Nodup
  settled_min : ∀ u ∈ S, ∀ du, alookup σ.distances u = some du →
      ∀ k, Walk g s u k → du ≤ k
  settled_dist : ∀ u ∈ S, (alookup σ.distances u).isSome = true
  settled_relaxed1 : ∀ u ∈ S, u ≠ node → ∀ v w, g.get_weight u v = some w →
      ∀ du, alookup σ.distances u = some du →
      ∃ dv, alookup σ.distances v = some dv ∧ dv ≤ du + w
  settled_le_end : ∀ u ∈ S, ∀ du, alookup σ.distances u = some du →
      ∀ k, Walk g s endN k → du ≤ k
  settled_pc1 : ∀ u ∈ S, u ≠ node → ∀ v w, g.get_weight u v = some w →
      ∀ du dv, alookup σ.distances u = some du → alookup σ.distances v = some dv →
      du + w = dv → ∃ l, alookup σ.all_predecessors v = some l ∧ u ∈ l
  relaxed_node : ∀ e ∈ processed,
      ∃ dv, alookup σ.distances e.1 = some dv ∧ dv ≤ dz + e.2
  complete_node : ∀ e ∈ processed, ∀ dv, alookup σ.distances e.1 = some dv →
      dz + e.2 = dv → ∃ l, alookup σ.all_predecessors e.1 = some l ∧ node ∈ l
  node_entries : ∀ v l, alookup σ.all_predecessors v = some l → node ∈ l →
      v ∈ keysOf processed
  unsettled_queue : ∀ n d, alookup σ.distances n = some d → ¬ n ∈ S →
      (n, d) ∈ σ.queue
  settled_stale : ∀ p ∈ σ.queue, p.1 ∈ S →
      ∀ dn, alookup σ.distances p.1 = some dn → dn < p.2
  end_not_settled : ¬ endN ∈ S
  pred_none_s : alookup σ.all_predecessors s = none
  pred_sound : ∀ n l, alookup σ.all_predecessors n = some l →
      l ≠ [] ∧ l.Nodup ∧ ∀ p ∈ l, p ∈ S ∧ ∃ w dp dn,
        g.get_weight p n = some w ∧ alookup σ.distances p = some dp ∧
        alookup σ.distances n = some dn ∧ dp + w = dn
  dist_pred : ∀ n d, alookup σ.distances n = some d → n ≠ s →
      (alookup σ.all_predecessors n).isSome = true
  node_mem : node ∈ S
  node_dist : alookup σ.distances node = some dz

/-- A skipped neighbor (strictly worse tentative distance) extends the
processed list with nothing to record. -/
theorem relaxA1_amid_skip {g : Graph} {s endN node dz : Nat}
    {processed : List (Nat × Nat)} {σ : AState} {S : List Nat}
    (inv : AInvMid g s endN node dz processed σ S) {e : Nat × Nat} {cur : Nat}
    (hd : alookup σ.distances e.1 = some cur) (hgt : cur < dz + e.2) :
    AInvMid g s endN node dz (processed ++ [e]) σ S := by
  refine ⟨inv.start_dist, inv.dist_sound, inv.queue_dist, inv.queue_nodup,
    inv.settled_min, inv.settled_dist, inv.settled_relaxed1, inv.settled_le_end,
    inv.settled_pc1, ?_, ?_, ?_, inv.unsettled_queue, inv.settled_stale,
    inv.end_not_settled, inv.pred_none_s, inv.pred_sound, inv.dist_pred,
    inv.node_mem, inv.node_dist⟩
  · intro e2 he2
    rcases List.mem_append.mp he2 with h1 | h1
    · exact inv.relaxed_node e2 h1
    · rw [List.mem_singleton] at h1
      subst h1
      exact ⟨cur, hd, by omega⟩
  · intro e2 he2 dv hdv hsum
    rcases List.mem_append.mp he2 with h1 | h1
    · exact inv.complete_node e2 h1 dv hdv hsum
    · exfalso
      rw [List.mem_singleton] at h1
      subst h1
      rw [hd] at hdv
      have : cur = dv := Option.some_inj.mp hdv
      omega
  · intro v l hl hn
    rw [keysOf_append, List.mem_append]
    exact Or.inl (inv.node_entries v l hl hn)

/-- An exact tie appends the settled `node` to the target's predecessor
list, keeping it nonempty, duplicate-free and sound. -/
theorem relaxA1_amid_tie {g : Graph} {s endN node dz : Nat}
    {processed : List (Nat × Nat)} {σ : AState} {S : List Nat}
    (inv : AInvMid g s endN node dz processed σ S) {e : Nat × Nat} {cur : Nat}
    (he : g.get_weight node e.1 = some e.2) (hw : 0 < e.2)
    (he1 : ¬ e.1 ∈ keysOf processed)
    (hd : alookup σ.distances e.1 = some cur) (heq : dz + e.2 = cur) :
    AInvMid g s endN node dz (processed ++ [e])
      ⟨σ.distances,
        aupsert σ.all_predecessors e.1 (fun l => (l.getD []) ++ [node]),
        σ.queue⟩ S := by
  have hne1s : e.1 ≠ s := by
    intro hc
    rw [hc, inv.start_dist] at hd
    have : (0 : Nat) = cur := Option.some_inj.mp hd
    omega
  obtain ⟨l0, hl0⟩ : ∃ l0, alookup σ.all_predecessors e.1 = some l0 :=
    Option.isSome_iff_exists.mp (inv.dist_pred e.1 cur hd hne1s)
  have hlup : alookup (aupsert σ.all_predecessors e.1 (fun l => (l.getD []) ++ [node]))
      e.1 = some (l0 ++ [node]) := by
    rw [alookup_aupsert, if_pos rfl, hl0]
    rfl
  have hlupo : ∀ n, n ≠ e.1 →
      alookup (aupsert σ.all_predecessors e.1 (fun l => (l.getD []) ++ [node])) n =
      alookup σ.all_predecessors n := by
    intro n hn
    rw [alookup_aupsert, if_neg (fun hc => hn hc.symm)]
  have hnode0 : ¬ node ∈ l0 := fun hc => he1 (inv.node_entries e.1 l0 hl0 hc)
  refine ⟨inv.start_dist, inv.dist_sound, inv.queue_dist, inv.queue_nodup,
    inv.settled_min, inv.settled_dist, inv.settled_relaxed1, inv.settled_le_end,
    ?_, ?_, ?_, ?_, inv.unsettled_queue, inv.settled_stale,
    inv.end_not_settled, ?_, ?_, ?_, inv.node_mem, inv.node_dist⟩
  · -- settled_pc1
    intro u hu hun v w hvw du dv hdu hdv hsum
    obtain ⟨l, hl, hul⟩ := inv.settled_pc1 u hu hun v w hvw du dv hdu hdv hsum
    by_cases hv : v = e.1
    · subst hv
      rw [hl0] at hl
      have : l0 = l := Option.some_inj.mp hl
      subst this
      exact ⟨l0 ++ [node], hlup, List.mem_append.mpr (Or.inl hul)⟩
    · exact ⟨l, by rw [hlupo v hv]; exact hl, hul⟩
  · -- relaxed_node
    intro e2 he2
    rcases List.mem_append.mp he2 with h1 | h1
    · exact inv.relaxed_node e2 h1
    · rw [List.mem_singleton] at h1
      subst h1
      exact ⟨cur, hd, by omega⟩
  · -- complete_node
    intro e2 he2 dv hdv hsum
    rcases List.mem_append.mp he2 with h1 | h1
    · have hne : e2.1 ≠ e.1 := by
        intro hc
        exact he1 (hc ▸ List.mem_map.mpr ⟨e2, h1, rfl⟩)
      obtain ⟨l, hl, hnl⟩ := inv.complete_node e2 h1 dv hdv hsum
      exact ⟨l, by rw [hlupo e2.1 hne]; exact hl, hnl⟩
    · rw [List.mem_singleton] at h1
      subst h1
      exact ⟨l0 ++ [node], hlup, List.mem_append.mpr (Or.inr (List.mem_singleton.mpr rfl))⟩
  · -- node_entries
    intro v l hl hn
    rw [keysOf_append, List.mem_append]
    by_cases hv : v = e.1
    · subst hv
      right
      simp [keysOf]
    · rw [hlupo v hv] at hl
      exact Or.inl (inv.node_entries v l hl hn)
  · -- pred_none_s
    rw [hlupo s (fun hc => hne1s hc.symm)]
    exact inv.pred_none_s
  · -- pred_sound
    intro n l hl
    by_cases hn : n = e.1
    · subst hn
      rw [hlup] at hl
      have : l0 ++ [node] = l := Option.some_inj.mp hl
      subst this
      obtain ⟨hne, hnd, hmem⟩ := inv.pred_sound e.1 l0 hl0
      refine ⟨by simp, ?_, ?_⟩
      · rw [List.nodup_append]
        refine ⟨hnd, by simp, ?_⟩
        intro a ha hb
        rw [List.mem_singleton] at hb
        subst hb
        exact hnode0 ha
      · intro p hp
        rcases List.mem_append.mp hp with h1 | h1
        · exact hmem p h1
        · rw [List.mem_singleton] at h1
          subst h1
          exact ⟨inv.node_mem, e.2, dz, cur, he, inv.node_dist, hd, heq⟩
    · rw [hlupo n hn] at hl
      exact inv.pred_sound n l hl
  · -- dist_pred
    intro n d hdn hns
    by_cases hn : n = e.1
    · subst hn
      rw [hlup]
      rfl
    · rw [hlupo n hn]
      exact inv.dist_pred n d hdn hns

/-- A strict improvement (or first discovery) rewrites distance, resets the
predecessor list to the settled `node` alone, and pushes the heap entry. -/
theorem relaxA1_amid_update {g : Graph} {s endN node dz : Nat}
    {processed : List (Nat × Nat)} {σ : AState} {S : List Nat}
    (inv : AInvMid g s endN node dz processed σ S) {e : Nat × Nat}
    (he : g.get_weight node e.1 = some e.2)
    (he1 : ¬ e.1 ∈ keysOf processed)
    (hcur : ∀ c, alookup σ.distances e.1 = some c → dz + e.2 < c) :
    AInvMid g s endN node dz (processed ++ [e])
      ⟨ainsert σ.distances e.1 (dz + e.2),
        aupsert σ.all_predecessors e.1 (fun _ => [node]),
        σ.queue ++ [(e.1, dz + e.2)]⟩ S := by
  have hwnode : Walk g s node dz := inv.dist_sound node dz inv.node_dist
  have hwnext : Walk g s e.1 (dz + e.2) := Walk.cons hwnode he
  have hne1s : e.1 ≠ s := by
    intro hc
    rw [hc] at hcur
    have := hcur 0 inv.start_dist
    omega
  have hnextS : ¬ e.1 ∈ S := by
    intro hc
    obtain ⟨du, hdu⟩ : ∃ du, alookup σ.distances e.1 = some du :=
      Option.isSome_iff_exists.mp (inv.settled_dist e.1 hc)
    have h1 := inv.settled_min e.1 hc du hdu (dz + e.2) hwnext
    have h2 := hcur du hdu
    omega
  have hnextnode : e.1 ≠ node := fun hc => hnextS (by rw [hc]; exact inv.node_mem)
  have hlookn : alookup (ainsert σ.distances e.1 (dz + e.2)) e.1 = some (dz + e.2) := by
    rw [alookup_ainsert, if_pos rfl]
  have hlooko : ∀ n, n ≠ e.1 →
      alookup (ainsert σ.distances e.1 (dz + e.2)) n = alookup σ.distances n := by
    intro n hn
    rw [alookup_ainsert, if_neg (fun hc => hn hc.symm)]
  have hplookn : alookup (aupsert σ.all_predecessors e.1 (fun _ => [node])) e.1 =
      some [node] := by
    rw [alookup_aupsert, if_pos rfl]
  have hplooko : ∀ n, n ≠ e.1 →
      alookup (aupsert σ.all_predecessors e.1 (fun _ => [node])) n =
      alookup σ.all_predecessors n := by
    intro n hn
    rw [alookup_aupsert, if_neg (fun hc => hn hc.symm)]
  have hnotq : ¬ (e.1, dz + e.2) ∈ σ.queue := by
    intro hc
    obtain ⟨dn, hdn, hle⟩ := inv.queue_dist (e.1, dz + e.2) hc
    have := hcur dn hdn
    omega
  refine ⟨?_, ?_, ?_, ?_, ?_, ?_, ?_, ?_, ?_, ?_, ?_, ?_, ?_, ?_,
    inv.end_not_settled, ?_, ?_, ?_, inv.node_mem, ?_⟩
  · -- start_dist
    rw [hlooko s (fun hc => hne1s hc.symm)]
    exact inv.start_dist
  · -- dist_sound
    intro n d h
    by_cases hn : n = e.1
    · subst hn
      rw [hlookn] at h
      rw [← Option.some_inj.mp h]
      exact hwnext
    · rw [hlooko n hn] at h
      exact inv.dist_sound n d h
  · -- queue_dist
    intro p hp
    rcases List.mem_append.mp hp with hp1 | hp1
    · obtain ⟨dn, hdn, hle⟩ := inv.queue_dist p hp1
      by_cases hpe : p.1 = e.1
      · rw [hpe] at hdn
        have := hcur dn hdn
        refine ⟨dz + e.2, ?_, by omega⟩
        rw [hpe]
        exact hlookn
      · exact ⟨dn, by rw [hlooko p.1 hpe]; exact hdn, hle⟩
    · rw [List.mem_singleton] at hp1
      subst hp1
      exact ⟨dz + e.2, hlookn, le_refl _⟩
  · -- queue_nodup
    rw [List.nodup_append]
    refine ⟨inv.queue_nodup, by simp, ?_⟩
    intro a ha hb
    rw [List.mem_singleton] at hb
    subst hb
    exact hnotq ha
  · -- settled_min
    intro u hu du hdu k hwk
    have hue : u ≠ e.1 := fun hc => hnextS (by rw [← hc]; exact hu)
    rw [hlooko u hue] at hdu
    exact inv.settled_min u hu du hdu k hwk
  · -- settled_dist
    intro u hu
    have hue : u ≠ e.1 := fun hc => hnextS (by rw [← hc]; exact hu)
    rw [hlooko u hue]
    exact inv.settled_dist u hu
  · -- settled_relaxed1
    intro u hu hun v w hvw du hdu
    have hue : u ≠ e.1 := fun hc => hnextS (by rw [← hc]; exact hu)
    rw [hlooko u hue] at hdu
    obtain ⟨dv0, hdv0, hle0⟩ := inv.settled_relaxed1 u hu hun v w hvw du hdu
    by_cases hv : v = e.1
    · rw [hv] at hdv0
      have := hcur dv0 hdv0
      refine ⟨dz + e.2, ?_, by omega⟩
      rw [hv]
      exact hlookn
    · exact ⟨dv0, by rw [hlooko v hv]; exact hdv0, hle0⟩
  · -- settled_le_end
    intro u hu du hdu k hwk
    have hue : u ≠ e.1 := fun hc => hnextS (by rw [← hc]; exact hu)
    rw [hlooko u hue] at hdu
    exact inv.settled_le_end u hu du hdu k hwk
  · -- settled_pc1
    intro u hu hun v w hvw du dv hdu hdv hsum
    have hue : u ≠ e.1 := fun hc => hnextS (by rw [← hc]; exact hu)
    rw [hlooko u hue] at hdu
    by_cases hv : v = e.1
    · exfalso
      subst hv
      rw [hlookn] at hdv
      have hdveq : dz + e.2 = dv := Option.some_inj.mp hdv
      obtain ⟨dv0, hdv0, hle0⟩ := inv.settled_relaxed1 u hu hun e.1 w hvw du hdu
      have := hcur dv0 hdv0
      omega
    · rw [hlooko v hv] at hdv
      obtain ⟨l, hl, hul⟩ := inv.settled_pc1 u hu hun v w hvw du dv hdu hdv hsum
      exact ⟨l, by rw [hplooko v hv]; exact hl, hul⟩
  · -- relaxed_node
    intro e2 he2
    rcases List.mem_append.mp he2 with h1 | h1
    · have hne : e2.1 ≠ e.1 := by
        intro hc
        exact he1 (hc ▸ List.mem_map.mpr ⟨e2, h1, rfl⟩)
      obtain ⟨dv0, hdv0, hle0⟩ := inv.relaxed_node e2 h1
      exact ⟨dv0, by rw [hlooko e2.1 hne]; exact hdv0, hle0⟩
    · rw [List.mem_singleton] at h1
      subst h1
      exact ⟨dz + e2.2, hlookn, le_refl _⟩
  · -- complete_node
    intro e2 he2 dv hdv hsum
    rcases List.mem_append.mp he2 with h1 | h1
    · have hne : e2.1 ≠ e.1 := by
        intro hc
        exact he1 (hc ▸ List.mem_map.mpr ⟨e2, h1, rfl⟩)
      rw [hlooko e2.1 hne] at hdv
      obtain ⟨l, hl, hnl⟩ := inv.complete_node e2 h1 dv hdv hsum
      exact ⟨l, by rw [hplooko e2.1 hne]; exact hl, hnl⟩
    · rw [List.mem_singleton] at h1
      subst h1
      exact ⟨[node], hplookn, List.mem_singleton.mpr rfl⟩
  · -- node_entries
    intro v l hl hn
    rw [keysOf_append, List.mem_append]
    by_cases hv : v = e.1
    · subst hv
      right
      simp [keysOf]
    · rw [hplooko v hv] at hl
      exact Or.inl (inv.node_entries v l hl hn)
  · -- unsettled_queue
    intro n d h hnS
    by_cases hn : n = e.1
    · subst hn
      rw [hlookn] at h
      rw [← Option.some_inj.mp h]
      exact List.mem_append.mpr (Or.inr (List.mem_singleton.mpr rfl))
    · rw [hlooko n hn] at h
      exact List.mem_append.mpr (Or.inl (inv.unsettled_queue n d h hnS))
  · -- settled_stale
    intro p hp hpS dn hdn
    rcases List.mem_append.mp hp with hp1 | hp1
    · have hpe : p.1 ≠ e.1 := fun hc => hnextS (by rw [← hc]; exact hpS)
      rw [hlooko p.1 hpe] at hdn
      exact inv.settled_stale p hp1 hpS dn hdn
    · rw [List.mem_singleton] at hp1
      subst hp1
      exact absurd hpS hnextS
  · -- pred_none_s
    rw [hplooko s (fun hc => hne1s hc.symm)]
    exact inv.pred_none_s
  · -- pred_sound
    intro n l hl
    by_cases hn : n = e.1
    · subst hn
      rw [hplookn] at hl
      have : [node] = l := Option.some_inj.mp hl
      subst this
      refine ⟨by simp, by simp, ?_⟩
      intro p hp
      rw [List.mem_singleton] at hp
      subst hp
      exact ⟨inv.node_mem, e.2, dz, dz + e.2,
        he, by rw [hlooko p (fun hc => hnextnode hc.symm)]; exact inv.node_dist,
        hlookn, rfl⟩
    · rw [hplooko n hn] at hl
      obtain ⟨hne, hnd, hmem⟩ := inv.pred_sound n l hl
      refine ⟨hne, hnd, ?_⟩
      intro p hp
      obtain ⟨hpS, w, dp, dn, hw, hdp, hdn, hsum⟩ := hmem p hp
      have hpe : p ≠ e.1 := fun hc => hnextS (by rw [← hc]; exact hpS)
      exact ⟨hpS, w, dp, dn, hw, by rw [hlooko p hpe]; exact hdp,
        by rw [hlooko n hn]; exact hdn, hsum⟩
  · -- dist_pred
    intro n d hdn hns
    by_cases hn : n = e.1
    · subst hn
      rw [hplookn]
      rfl
    · rw [hlooko n hn] at hdn
      rw [hplooko n hn]
      exact inv.dist_pred n d hdn hns
  · -- node_dist
    rw [hlooko node (fun hc => hnextnode hc.symm)]
    exact inv.node_dist

/-- One `relaxA1` step on a fresh neighbor entry preserves the mid-sweep
invariant. -/
theorem relaxA1_amid {g : Graph} {s endN node dz : Nat}
    {processed : List (Nat × Nat)} {σ : AState} {S : List Nat}
    (inv : AInvMid g s endN node dz processed σ S) {e : Nat × Nat}
    (he : g.get_weight node e.1 = some e.2) (hw : 0 < e.2)
    (he1 : ¬ e.1 ∈ keysOf processed) :
    AInvMid g s endN node dz (processed ++ [e]) (relaxA1 node dz σ e) S := by
  rcases hd : alookup σ.distances e.1 with _ | cur
  · rw [relaxA1_eq_update node dz σ e (Or.inl hd)]
    exact relaxA1_amid_update inv he he1 (fun c hc => by rw [hd] at hc; cases hc)
  · rcases Nat.lt_trichotomy cur (dz + e.2) with hlt | heq | hgt
    · rw [relaxA1_eq_skip node dz σ e hd hlt]
      exact relaxA1_amid_skip inv hd hlt
    · rw [relaxA1_eq_tie node dz σ e hd heq.symm]
      exact relaxA1_amid_tie inv he hw he1 hd heq.symm
    · rw [relaxA1_eq_update node dz σ e (Or.inr ⟨cur, hd, hgt⟩)]
      refine relaxA1_amid_update inv he he1 ?_
      intro c hc
      rw [hd] at hc
      rw [← Option.some_inj.mp hc]
      exact hgt

/-- Folding `relaxA1` over a duplicate-free neighbor list preserves the
mid-sweep invariant, accumulating the processed entries. -/
theorem relaxListA_mid {g : Graph} {s endN node dz : Nat} {S : List Nat} :
    ∀ (rest processed : List (Nat × Nat)) (σ : AState),
      AInvMid g s endN node dz processed σ S →
      (∀ e ∈ rest, g.get_weight node e.1 = some e.2 ∧ 0 < e.2) →
      (keysOf (processed ++ rest)).Nodup →
      AInvMid g s endN node dz (processed ++ rest)
        (rest.foldl (relaxA1 node dz) σ) S := by
  intro rest
  induction rest with
  | nil =>
    intro processed σ inv _ _
    rw [List.append_nil]
    exact inv
  | cons e t ih =>
    intro processed σ inv hmem hkeys
    rw [List.foldl_cons]
    have hsplit : keysOf (processed ++ e :: t) =
        keysOf processed ++ e.1 :: keysOf t := by
      rw [keysOf_append]
      rfl
    have he1 : ¬ e.1 ∈ keysOf processed := by
      rw [hsplit, List.nodup_append] at hkeys
      intro hc
      exact hkeys.2.2 hc (List.mem_cons_self _ _)
    have h1 := relaxA1_amid inv (hmem e (List.mem_cons_self _ _)).1
      (hmem e (List.mem_cons_self _ _)).2 he1
    have hkeys2 : (keysOf ((processed ++ [e]) ++ t)).Nodup := by
      have : (processed ++ [e]) ++ t = processed ++ e :: t := by simp
      rw [this]
      exact hkeys
    have h2 := ih (processed ++ [e]) _ h1
      (fun x hx => hmem x (List.mem_cons_of_mem _ hx)) hkeys2
    have : processed ++ e :: t = (processed ++ [e]) ++ t := by simp
    rw [this]
    exact h2

/-- Settling a freshly popped optimal node establishes the mid-sweep
invariant over the empty processed list. -/
theorem ainv_mid_start {g : Graph} {s endN : Nat} {σ : AState} {S : List Nat}
    {node dz : Nat} {rest : List (Nat × Nat)}
    (inv : AInv g s endN σ S)
    (hpop : popMax σ.queue = some ((node, dz), rest))
    (hdz : alookup σ.distances node = some dz)
    (hnS : ¬ node ∈ S) (hne : node ≠ endN) :
    AInvMid g s endN node dz [] { σ with queue := rest } (node :: S) := by
  have hperm := popMax_perm hpop
  have hsub : ∀ x ∈ rest, x ∈ σ.queue := fun x hx =>
    hperm.mem_iff.mp (List.mem_cons_of_mem _ hx)
  have hndrest : ((node, dz) :: rest).Nodup := hperm.nodup_iff.mpr inv.queue_nodup
  have hmin : ∀ k, Walk g s node k → dz ≤ k := apop_min_le inv hpop hnS
  have hend : ∀ k, Walk g s endN k → dz ≤ k := apop_le_end inv hpop
  refine ⟨inv.start_dist, inv.dist_sound, ?_, ?_, ?_, ?_, ?_, ?_, ?_, ?_, ?_, ?_,
    ?_, ?_, ?_, inv.pred_none_s, ?_, inv.dist_pred, List.mem_cons_self _ _, hdz⟩
  · intro p hp
    exact inv.queue_dist p (hsub p hp)
  · exact (List.nodup_cons.mp hndrest).2
  · intro u hu du hdu k hwk
    rcases List.mem_cons.mp hu with h1 | h1
    · subst h1
      rw [hdz] at hdu
      rw [← Option.some_inj.mp hdu]
      exact hmin k hwk
    · exact inv.settled_min u h1 du hdu k hwk
  · intro u hu
    rcases List.mem_cons.mp hu with h1 | h1
    · subst h1
      rw [hdz]
      rfl
    · exact inv.settled_dist u h1
  · intro u hu hun v w hvw du hdu
    rcases List.mem_cons.mp hu with h1 | h1
    · exact absurd h1 hun
    · exact inv.settled_relaxed u h1 v w hvw du hdu
  · intro u hu du hdu k hwk
    rcases List.mem_cons.mp hu with h1 | h1
    · subst h1
      rw [hdz] at hdu
      rw [← Option.some_inj.mp hdu]
      exact hend k hwk
    · exact inv.settled_le_end u h1 du hdu k hwk
  · intro u hu hun v w hvw du dv hdu hdv hsum
    rcases List.mem_cons.mp hu with h1 | h1
    · exact absurd h1 hun
    · exact inv.settled_pred_complete u h1 v w hvw du dv hdu hdv hsum
  · intro e he
    simp at he
  · intro e he
    simp at he
  · intro v l hl hn
    exfalso
    obtain ⟨_, _, hmem⟩ := inv.pred_sound v l hl
    exact hnS (hmem node hn).1
  · intro n d h hnS2
    have hn1 : ¬ n ∈ S := fun hc => hnS2 (List.mem_cons_of_mem _ hc)
    have hn2 : n ≠ node := fun hc => hnS2 (by rw [hc]; exact List.mem_cons_self _ _)
    have hmem := inv.unsettled_queue n d h hn1
    rcases List.mem_cons.mp (hperm.mem_iff.mpr hmem) with h1 | h1
    · exact absurd (congrArg Prod.fst h1) hn2
    · exact h1
  · intro p hp hpS dn hdn
    rcases List.mem_cons.mp hpS with h1 | h1
    · obtain ⟨dn0, hdn0, hle0⟩ := inv.queue_dist p (hsub p hp)
      rw [h1, hdz] at hdn0
      have hdn0e : dz = dn0 := Option.some_inj.mp hdn0
      rw [h1, hdz] at hdn
      have hdne : dz = dn := Option.some_inj.mp hdn
      rcases Nat.lt_or_ge dz p.2 with hlt | hge
      · omega
      · exfalso
        have hpe : p = (node, dz) := by
          have : p.2 = dz := by omega
          obtain ⟨pa, pb⟩ := p
          simp at h1 this ⊢
          exact ⟨h1, this⟩
        rw [hpe] at hp
        exact (List.nodup_cons.mp hndrest).1 hp
    · exact inv.settled_stale p (hsub p hp) h1 dn hdn
  · intro hc
    rcases List.mem_cons.mp hc with h1 | h1
    · exact hne h1.symm
    · exact inv.end_not_settled h1
  · intro n l hl
    obtain ⟨hne2, hnd2, hmem⟩ := inv.pred_sound n l hl
    refine ⟨hne2, hnd2, ?_⟩
    intro p hp
    obtain ⟨hpS, rest2⟩ := hmem p hp
    exact ⟨List.mem_cons_of_mem _ hpS, rest2⟩

/-- Once every outgoing edge of `node` is processed, the mid-sweep invariant
yields the plain invariant with `node` settled. -/
theorem ainv_of_amid {g : Graph} {s endN node dz : Nat}
    {processed : List (Nat × Nat)} {σ : AState} {S : List Nat}
    (inv : AInvMid g s endN node dz processed σ S)
    (hcover : ∀ v w, g.get_weight node v = some w → (v, w) ∈ processed) :
    AInv g s endN σ S := by
  refine ⟨inv.start_dist, inv.dist_sound, inv.queue_dist, inv.queue_nodup,
    inv.settled_min, inv.settled_dist, ?_, inv.settled_le_end, ?_,
    inv.unsettled_queue, inv.settled_stale, inv.end_not_settled,
    inv.pred_none_s, inv.pred_sound, inv.dist_pred⟩
  · intro u hu v w hvw du hdu
    by_cases hun : u = node
    · subst hun
      obtain ⟨dv, hdv, hle⟩ := inv.relaxed_node (v, w) (hcover v w hvw)
      have hdu2 : du = dz := by
        rw [inv.node_dist] at hdu
        exact (Option.some_inj.mp hdu).symm
      subst hdu2
      exact ⟨dv, hdv, hle⟩
    · exact inv.settled_relaxed1 u hu hun v w hvw du hdu
  · intro u hu v w hvw du dv hdu hdv hsum
    by_cases hun : u = node
    · subst hun
      have hdu2 : du = dz := by
        rw [inv.node_dist] at hdu
        exact (Option.some_inj.mp hdu).symm
      subst hdu2
      exact inv.complete_node (v, w) (hcover v w hvw) dv hdv hsum
    · exact inv.settled_pc1 u hu hun v w hvw du dv hdu hdv hsum

/-- The full relaxation sweep of `all_shortest_paths` restores the plain
invariant. -/
theorem ainv_relaxAllA {g : Graph} {s endN node dz : Nat} {σ : AState}
    {S : List Nat} (hg : InnerNodup g) (hpos : PosWeights g)
    (inv : AInvMid g s endN node dz [] σ S) :
    AInv g s endN (relaxAllA g node dz σ) S := by
  unfold relaxAllA
  rcases hn : alookup g.adjacency_map node with _ | ns
  · refine ainv_of_amid inv ?_
    intro v w hw
    exfalso
    unfold Graph.get_weight at hw
    rw [hn] at hw
    cases hw
  · have hedges : ∀ e ∈ ns, g.get_weight node e.1 = some e.2 ∧ 0 < e.2 := by
      intro e he2
      have hgw : g.get_weight node e.1 = some e.2 := by
        unfold Graph.get_weight
        rw [hn]
        show alookup ns e.1 = some e.2
        exact mem_alookup_of_nodup (hg (node, ns) (alookup_mem hn)) he2
      exact ⟨hgw, hpos node e.1 e.2 hgw⟩
    have hkeys : (keysOf (([] : List (Nat × Nat)) ++ ns)).Nodup := by
      rw [List.nil_append]
      exact hg (node, ns) (alookup_mem hn)
    have hmid := relaxListA_mid ns [] σ inv hedges hkeys
    refine ainv_of_amid hmid ?_
    intro v w hw
    unfold Graph.get_weight at hw
    rw [hn] at hw
    exact alookup_mem hw

/-! ### The end pop: the emitted list is exactly the optimal paths -/

/-- Every path of the optimal weight is a backward chain through the
recorded predecessors: subpath optimality plus the cut lemma settle every
proper prefix, and completeness of the recorded ties supplies each link. -/
theorem path_to_achain {g : Graph} {s endN : Nat} {σ : AState} {S : List Nat}
    (inv : AInv g s endN σ S) (hpos : PosWeights g) {dz : Nat}
    (hdz : alookup σ.distances endN = some dz)
    (hcut : ∀ v k, Walk g s v k → k < dz → v ∈ S) :
    ∀ (q : List Nat) (n dn : Nat), IsPathList g s n q dn →
      alookup σ.distances n = some dn →
      (n = endN ∨ n ∈ S) →
      AChain σ.all_predecessors n q.reverse := by
  intro q
  induction q using List.reverseRecOn with
  | nil =>
    intro n dn hpath _ _
    obtain ⟨hh, _, _⟩ := hpath
    simp at hh
  | append_singleton q2 a ih =>
    intro n dn hpath hdn hnS
    obtain ⟨hh, hlast, hwt⟩ := hpath
    have ha : a = n := by
      rw [getLast?_append_right q2 [a] (by simp)] at hlast
      exact Option.some_inj.mp hlast
    subst ha
    cases q2 with
    | nil =>
      have has : a = s := by simpa using hh
      subst has
      have hdn0 : dn = 0 := by
        simp [listPathWeight] at hwt
        omega
      subst hdn0
      have : ([] ++ [a]).reverse = [a] := by simp
      rw [this]
      exact AChain.stop inv.pred_none_s
    | cons b q3 =>
      have hq2ne : (b :: q3) ≠ [] := by simp
      obtain ⟨u, w, d2, hulast, huw, hlpw, hsum⟩ :=
        listPathWeight_snoc_inv g (b :: q3) a dn hq2ne hwt
      have hbs : b = s := by simpa using hh
      have hpath2 : IsPathList g s u (b :: q3) d2 := by
        refine ⟨?_, hulast, hlpw⟩
        rw [hbs]
        rfl
      have hwu : Walk g s u d2 := pathList_to_walk hpath2
      have hw0 : 0 < w := hpos u a w huw
      have hdnz : dn ≤ dz := by
        rcases hnS with h | h
        · rw [h] at hdn
          rw [hdz] at hdn
          exact le_of_eq (Option.some_inj.mp hdn).symm
        · exact inv.settled_le_end a h dn hdn dz (inv.dist_sound endN dz hdz)
      have huS : u ∈ S := hcut u d2 hwu (by omega)
      obtain ⟨du, hdu⟩ := Option.isSome_iff_exists.mp (inv.settled_dist u huS)
      have hdule : du ≤ d2 := inv.settled_min u huS du hdu d2 hwu
      obtain ⟨dv, hdv, hdvle⟩ := inv.settled_relaxed u huS a w huw du hdu
      have hdveq : dv = dn := by
        rw [hdn] at hdv
        exact (Option.some_inj.mp hdv).symm
      have hdu2 : du = d2 := by omega
      obtain ⟨l, hl, hul⟩ :=
        inv.settled_pred_complete u huS a w huw du dn hdu hdn (by omega)
      have hpath3 : IsPathList g s u (b :: q3) du := by
        rw [hdu2]
        exact hpath2
      have hch := ih u du hpath3 hdu (Or.inr huS)
      have hrev : ((b :: q3) ++ [a]).reverse = a :: (b :: q3).reverse := by simp
      rw [hrev]
      exact AChain.step hl hul hch

/-- At the pop of the end node, `reconstruct_all_paths` emits a
duplicate-free list whose members are exactly the paths of the (minimal)
popped weight. -/
theorem ainv_final {g : Graph} {s endN : Nat} {σ : AState} {S : List Nat}
    (inv : AInv g s endN σ S) (hpos : PosWeights g)
    {dz : Nat} {rest : List (Nat × Nat)}
    (hpop : popMax σ.queue = some ((endN, dz), rest)) :
    (reconstruct_all_paths σ.all_predecessors endN).Nodup ∧
    (∀ q, q ∈ reconstruct_all_paths σ.all_predecessors endN ↔
      IsPathList g s endN q dz) ∧
    (∀ k, Walk g s endN k → dz ≤ k) := by
  have hmin : ∀ k, Walk g s endN k → dz ≤ k :=
    apop_min_le inv hpop inv.end_not_settled
  obtain ⟨dn, hdn, hdnle⟩ := inv.queue_dist (endN, dz) (popMax_mem hpop).1
  have hwalk : Walk g s endN dn := inv.dist_sound endN dn hdn
  have hdzeq : dn = dz := le_antisymm hdnle (hmin dn hwalk)
  subst hdzeq
  have hps : ∀ n l, alookup σ.all_predecessors n = some l → ∀ p ∈ l,
      ∃ w dp dn2, g.get_weight p n = some w ∧ alookup σ.distances p = some dp ∧
        alookup σ.distances n = some dn2 ∧ dp + w = dn2 := by
    intro n l hl p hp
    exact ((inv.pred_sound n l hl).2.2 p hp).2
  have hlt : ∀ n l, alookup σ.all_predecessors n = some l → ∀ p ∈ l,
      ∃ dp dn2, alookup σ.distances p = some dp ∧
        alookup σ.distances n = some dn2 ∧ dp < dn2 := by
    intro n l hl p hp
    obtain ⟨w, dp, dn2, hw, hdp, hdn2, hsum⟩ := hps n l hl p hp
    have := hpos p n w hw
    exact ⟨dp, dn2, hdp, hdn2, by omega⟩
  have hstop : ∀ n, alookup σ.all_predecessors n = none →
      (alookup σ.distances n).isSome = true → n = s := by
    intro n hl hd2
    by_contra hns
    obtain ⟨d, hd3⟩ := Option.isSome_iff_exists.mp hd2
    have := inv.dist_pred n d hd3 hns
    rw [hl] at this
    cases this
  have hnd : ∀ n l, alookup σ.all_predecessors n = some l → l.Nodup :=
    fun n l hl => (inv.pred_sound n l hl).2.1
  have hcut : ∀ v k, Walk g s v k → k < dn → v ∈ S := by
    intro v k hw hk
    by_contra hvs
    obtain ⟨e, he, hle⟩ := afrontier_cover inv hw hvs
    have h2 : dn ≤ e.2 := popMax_isMin hpop e he
    omega
  refine ⟨?_, ?_, hmin⟩
  · unfold reconstruct_all_paths
    exact List.Nodup.map List.reverse_injective
      (bp_nodup hnd (σ.all_predecessors.length + 1) endN [])
  · intro q
    constructor
    · intro hq
      unfold reconstruct_all_paths at hq
      obtain ⟨q0, hq0, hq0e⟩ := List.mem_map.mp hq
      obtain ⟨c, hc, hce⟩ := bp_sound (σ.all_predecessors.length + 1) endN [] q0 hq0
      rw [List.nil_append] at hce
      subst hce
      rw [← hq0e]
      exact achain_path hps hstop inv.start_dist hc dn hdn
    · intro hq
      have hch := path_to_achain inv hpos hdn hcut q endN dn hq hdn (Or.inl rfl)
      have hnodup := (achain_nodup hlt hch dn hdn).1
      have hlen := achain_length_le hch hnodup
      have hbp := bp_complete hch (σ.all_predecessors.length + 1) (by omega) []
      unfold reconstruct_all_paths
      rw [List.mem_map]
      refine ⟨q.reverse, ?_, List.reverse_reverse q⟩
      rw [List.nil_append] at hbp
      exact hbp

/-- An empty heap means the end node is unreachable. -/
theorem ainv_empty {g : Graph} {s endN : Nat} {σ : AState} {S : List Nat}
    (inv : AInv g s endN σ S) (hq : popMax σ.queue = none) :
    ∀ k, ¬ Walk g s endN k := by
  intro k hw
  have hqnil : σ.queue = [] := (popMax_none_iff _).mp hq
  obtain ⟨e, he, _⟩ := afrontier_cover inv hw inv.end_not_settled
  rw [hqnil] at he
  simp at he

/-- Main loop correctness of `all_shortest_paths` over strictly positive
weights: from any state satisfying the invariant, the loop returns a
duplicate-free list of exactly the minimal-weight paths, or `none` exactly
when the end is unreachable. -/
theorem aloop_spec (g : Graph) (hg : InnerNodup g) (hpos : PosWeights g)
    (s endN : Nat) :
    ∀ (σ : AState),
      (∀ S, AInv g s endN σ S →
        ((∀ ps wt, aloop g endN σ = some (ps, wt) →
            ps.Nodup ∧ (∀ q, q ∈ ps ↔ IsPathList g s endN q wt) ∧
            (∀ k, Walk g s endN k → wt ≤ k)) ∧
          (aloop g endN σ = none → ∀ k, ¬ Walk g s endN k))) := by
  intro σ
  induction σ using aloop.induct g endN with
  | case1 σ hp =>
    intro S inv
    rw [aloop]
    rcases hp2 : popMax σ.queue with _ | p
    · dsimp only
      constructor
      · intro ps wt h
        cases h
      · intro _
        exact ainv_empty inv hp2
    · rw [hp2] at hp
      cases hp
  | case2 σ dz rest hp =>
    intro S inv
    rw [aloop]
    rcases hp2 : popMax σ.queue with _ | p
    · rw [hp2] at hp
      cases hp
    · rw [hp2] at hp
      have hpe : p = ((endN, dz), rest) := Option.some_inj.mp hp
      subst hpe
      dsimp only
      rw [if_pos rfl]
      constructor
      · intro ps wt h
        have h1 : reconstruct_all_paths σ.all_predecessors endN = ps :=
          congrArg Prod.fst (Option.some_inj.mp h)
        have h2 : dz = wt := congrArg Prod.snd (Option.some_inj.mp h)
        subst h2
        rw [← h1]
        exact ainv_final inv hpos hp2
      · intro h
        cases h
  | case3 σ node dz rest hp hne cur hcur hlt ih =>
    intro S inv
    rw [aloop]
    rcases hp2 : popMax σ.queue with _ | p
    · rw [hp2] at hp
      cases hp
    · rw [hp2] at hp
      have hpe : p = ((node, dz), rest) := Option.some_inj.mp hp
      subst hpe
      dsimp only
      rw [if_neg hne, hcur]
      dsimp only
      rw [if_pos hlt]
      exact ih S (ainv_skip inv hp2 hcur hlt)
  | case4 σ node dz rest hp hne cur hcur hge ih =>
    intro S inv
    rw [aloop]
    rcases hp2 : popMax σ.queue with _ | p
    · rw [hp2] at hp
      cases hp
    · rw [hp2] at hp
      have hpe : p = ((node, dz), rest) := Option.some_inj.mp hp
      subst hpe
      dsimp only
      rw [if_neg hne, hcur]
      dsimp only
      rw [if_neg hge]
      have hnS : ¬ node ∈ S := by
        intro hc
        have := inv.settled_stale (node, dz) (popMax_mem hp2).1 hc cur hcur
        omega
      have hdzeq : cur = dz := by
        obtain ⟨dn, hdn, hle⟩ := inv.queue_dist (node, dz) (popMax_mem hp2).1
        rw [hcur] at hdn
        have : cur = dn := Option.some_inj.mp hdn
        omega
      have hdz : alookup σ.distances node = some dz := by
        rw [hcur, hdzeq]
      exact ih (node :: S)
        (ainv_relaxAllA hg hpos (ainv_mid_start inv hp2 hdz hnS hne))
  | case5 σ node dz rest hp hne hnone ih =>
    intro S inv
    exfalso
    obtain ⟨dn, hdn, _⟩ := inv.queue_dist (node, dz) (popMax_mem hp).1
    rw [hnone] at hdn
    cases hdn

/-- `Graph::all_shortest_paths` correctness over strictly positive weights:
a `some (paths, w)` result lists every start→end path of weight `w` exactly
once, `w` is minimal among all start→end paths, and `none` means
unreachable. -/
theorem all_shortest_paths_correct (g : Graph) (hg : InnerNodup g)
    (hpos : PosWeights g) (s e : Nat) :
    (∀ ps wt, g.all_shortest_paths s e = some (ps, wt) →
        ps.Nodup ∧ (∀ q, q ∈ ps ↔ IsPathList g s e q wt) ∧
        (∀ q wt2, IsPathList g s e q wt2 → wt ≤ wt2)) ∧
    (g.all_shortest_paths s e = none → ∀ q wt2, ¬ IsPathList g s e q wt2) := by
  have hspec := aloop_spec g hg hpos s e ⟨[(s, 0)], [], [(s, 0)]⟩ [] (ainv_init g s e)
  constructor
  · intro ps wt h
    obtain ⟨h1, h2, h3⟩ := hspec.1 ps wt h
    exact ⟨h1, h2, fun q wt2 hq => h3 wt2 (pathList_to_walk hq)⟩
  · intro h q wt2 hq
    exact hspec.2 h wt2 (pathList_to_walk hq)

/-! ## The claims -/

/-- C1 (corrected), counterexample: on the graph with directed edges
(1→4,1), (1→2,1), (2→4,0), `all_shortest_paths(1,4)` returns `([[1,4]], 1)`:
it reports minimum weight 1 yet omits `[1,2,4]`, a genuine 1→4 path of that
same weight 1, so it does not return every optimal path.  (Node 2 still sits
in the heap, tied at distance 1, when the end node is popped and the
function returns.) -/
theorem claim_C1_counterexample :
    gCX.all_shortest_paths 1 4 = some ([[1, 4]], 1) ∧
    IsPathList gCX 1 4 [1, 2, 4] 1 ∧
    ¬ [1, 2, 4] ∈ [[1, 4]] := by
  refine ⟨?_, ⟨by decide, by decide, by decide⟩, by decide⟩
  unfold Graph.all_shortest_paths
  exact aloopF_sound gCX 4 30 ⟨[(1, 0)], [], [(1, 0)]⟩ (some ([[1, 4]], 1)) (by decide)

/-- C1 (corrected), amended: restricted to strictly positive edge weights —
the zero-weight counterexample being the only obstruction — the claim holds
in full generality.  For every graph (hence for every insertion order, each
of which produces some graph value) with duplicate-free adjacency rows and
every start/end pair: a `some (paths, w)` result of `all_shortest_paths`
is a duplicate-free list whose members are exactly the start→end paths of
weight `w`, that weight is minimal among all start→end paths, and `none` is
returned exactly when no start→end path exists. -/
theorem claim_C1_amended (g : Graph) (hg : InnerNodup g) (hpos : PosWeights g)
    (s e : Nat) :
    (∀ ps wt, g.all_shortest_paths s e = some (ps, wt) →
        ps.Nodup ∧ (∀ q, q ∈ ps ↔ IsPathList g s e q wt) ∧
        (∀ q wt2, IsPathList g s e q wt2 → wt ≤ wt2)) ∧
    (g.all_shortest_paths s e = none → ∀ q wt2, ¬ IsPathList g s e q wt2) :=
  all_shortest_paths_correct g hg hpos s e

/-- C1 (corrected), witness: the amended theorem applied to the spec's
scenario graph (edges (1→2,1), (1→3,1), (2→4,1), (3→4,1)): the call returns
weight 2 with a duplicate-free list whose members are exactly the two optimal
paths. -/
theorem claim_C1_amended_witness :
    InnerNodup gC1 ∧ PosWeights gC1 ∧
    gC1.all_shortest_paths 1 4 = some ([[1, 3, 4], [1, 2, 4]], 2) ∧
    ([[1, 3, 4], [1, 2, 4]] : List (List Nat)).Nodup ∧
    (∀ q, q ∈ [[1, 3, 4], [1, 2, 4]] ↔ IsPathList gC1 1 4 q 2) := by
  have hg : InnerNodup gC1 := by
    unfold InnerNodup
    decide
  have hpos : PosWeights gC1 := posWeights_of_all (by decide)
  have heq : gC1.all_shortest_paths 1 4 = some ([[1, 3, 4], [1, 2, 4]], 2) := by
    unfold Graph.all_shortest_paths
    exact aloopF_sound gC1 4 30 ⟨[(1, 0)], [], [(1, 0)]⟩
      (some ([[1, 3, 4], [1, 2, 4]], 2)) (by decide)
  obtain ⟨hnd, hmem, _⟩ := (claim_C1_amended gC1 hg hpos 1 4).1 _ _ heq
  exact ⟨hg, hpos, heq, hnd, hmem⟩

/-- C2 (confirmed): over `Nat` weights (non-negative by construction), a
`some (path, w)` result of `shortest_path` is a genuine start→end path of
weight `w` minimal among all start→end paths, and `none` is returned exactly
when no path exists; and on the spec's scenario graph the result is
`([1,2,3,4], 12)`.  `InnerNodup` states that the per-node neighbor maps have
no duplicate keys, which every real `HashMap` satisfies. -/
theorem claim_C2 (g : Graph) (hg : InnerNodup g) (s e : Nat) :
    ((∀ p wt, g.shortest_path s e = some (p, wt) →
        IsPathList g s e p wt ∧ ∀ q wt2, IsPathList g s e q wt2 → wt ≤ wt2) ∧
      (g.shortest_path s e = none → ∀ q wt2, ¬ IsPathList g s e q wt2)) ∧
    gC2.shortest_path 1 4 = some ([1, 2, 3, 4], 12) := by
  refine ⟨shortest_path_correct g hg s e, ?_⟩
  unfold Graph.shortest_path
  exact dloopF_sound gC2 4 30 ⟨[(1, 0)], [], [(1, 0)]⟩
    (some ([1, 2, 3, 4], 12)) (by decide)

/-- C2 witness: the scenario graph has duplicate-free neighbor maps, and the
theorem applied there returns the spec's path and weight. -/
theorem claim_C2_witness :
    InnerNodup gC2 ∧ gC2.shortest_path 1 4 = some ([1, 2, 3, 4], 12) :=
  ⟨by unfold InnerNodup; decide,
   (claim_C2 gC2 (by unfold InnerNodup; decide) 1 4).2⟩

/-- C3 (confirmed): `bfs(start)` yields exactly the reachable nodes, each
once (no duplicates, no unreachable node), and its emission order is
non-decreasing in graph distance from the start (`Pairwise (DistLE)` over
the yielded sequence).  Termination on cyclic graphs is inherent: `bfsList`
is a total function, proved terminating by the strictly decreasing measure
of unvisited nodes plus queue length. -/
theorem claim_C3 (g : Graph) (s : Nat) :
    (∀ v, v ∈ g.bfsList s ↔ Reach g s v) ∧
    (g.bfsList s).Nodup ∧
    List.Pairwise (DistLE g s) (g.bfsList s) :=
  ⟨bfsList_mem_iff g s, bfsList_nodup g s, bfsList_sorted g s⟩

/-- C4 (confirmed): the mirror invariant — every stored edge (u→v,w) has the
mirrored (v→u,w) — holds of a fresh undirected graph and is preserved by
`add_node`, by `add_edge_weighted` (including weight overwrites, which
rewrite both directions), and by `subgraph`. -/
theorem claim_C4 (g : Graph) (hund : g.directed = false) (hm : Mirrored g) :
    Mirrored (Graph.new false) ∧
    (∀ n, Mirrored (g.add_node n)) ∧
    (∀ a b w, Mirrored (g.add_edge_weighted a b w)) ∧
    (∀ nodes, Mirrored (g.subgraph nodes)) :=
  ⟨mirrored_new false,
   fun n => mirrored_add_node g n hm,
   fun a b w => mirrored_add_edge_weighted g a b w hund hm,
   fun nodes => mirrored_subgraph g nodes hund⟩

/-- C4 witness: a fresh undirected graph is mirrored, and inserting 1→2 with
weight 5 makes 2→1 carry weight 5. -/
theorem claim_C4_witness :
    Graph.undirected.directed = false ∧
    (Graph.undirected.add_edge_weighted 1 2 5).get_weight 2 1 = some 5 :=
  ⟨rfl,
   (claim_C4 Graph.undirected rfl (mirrored_new false)).2.2.1 1 2 5 1 2 5
     (by decide)⟩

/-- C5 (confirmed): `connected_components` returns an error exactly on
directed graphs, and succeeds exactly on undirected ones. -/
theorem claim_C5 (g : Graph) :
    ((∃ e, g.connected_components = Except.error e) ↔ g.directed = true) ∧
    ((∃ l, g.connected_components = Except.ok l) ↔ g.directed = false) :=
  connected_components_error_iff g

/-- C6 (confirmed): `get` on a `new(w, h, default)` grid returns the default
inside the bounds and `none` outside (Lean's total `Option`-valued indexing
models the never-panicking Rust accessor). -/
theorem claim_C6 (T : Type) (w h : Nat) (d : T) (x y : Nat) :
    Grid.get (Grid.new w h d) x y = if x < w ∧ y < h then some d else none :=
  grid_new_get T w h d x y

/-- C7 (corrected), counterexample: on a 2×2 grid at the out-of-bounds
coordinate (3,3), both `neighbors` and `cardinal_neighbors` are empty, yet
the grid is not 1×1 — so "both empty only when the grid is 1×1" fails as
stated over every coordinate. -/
theorem claim_C7_counterexample :
    (Grid.new 2 2 (0 : Nat)).cardinal_neighbors 3 3 = [] ∧
    (Grid.new 2 2 (0 : Nat)).neighbors 3 3 = [] ∧
    ¬ ((Grid.new 2 2 (0 : Nat)).width = 1 ∧ (Grid.new 2 2 (0 : Nat)).height = 1) :=
  ⟨by decide, by decide, by decide⟩

/-- C7 (corrected), amended: `cardinal_neighbors` is always a subset of
`neighbors`; and on grids whose extents fit `i32` (width, height < 2³¹, so
the source's `as i32` casts are exact), for an in-bounds coordinate
(x < width, y < height) emptiness of either list implies the grid is 1×1.
Out-of-bounds coordinates (the counterexample) and `i32`-overflowing extents
(where the truncating casts make the bounds checks reject everything) are
excluded. -/
theorem claim_C7_amended (T : Type) (g : Grid T) (x y : Nat) :
    (∀ p ∈ g.cardinal_neighbors x y, p ∈ g.neighbors x y) ∧
    (g.width < 2 ^ 31 → g.height < 2 ^ 31 →
      x < g.width → y < g.height → g.cardinal_neighbors x y = [] →
      g.width = 1 ∧ g.height = 1) ∧
    (g.width < 2 ^ 31 → g.height < 2 ^ 31 →
      x < g.width → y < g.height → g.neighbors x y = [] →
      g.width = 1 ∧ g.height = 1) := by
  have hcard : g.width < 2 ^ 31 → g.height < 2 ^ 31 →
      x < g.width → y < g.height → g.cardinal_neighbors x y = [] →
      g.width = 1 ∧ g.height = 1 := by
    intro hw31 hh31 hx hy hemp
    constructor
    · by_contra hw
      have h2 : 2 ≤ g.width := by omega
      exact cardinal_nonempty_of_wide T g x y hx hy h2 hw31 hh31 hemp
    · by_contra hh
      have h2 : 2 ≤ g.height := by omega
      exact cardinal_nonempty_of_tall T g x y hx hy h2 hw31 hh31 hemp
  refine ⟨mem_cardinal_mem_neighbors T g x y, hcard, ?_⟩
  intro hw31 hh31 hx hy hemp
  apply hcard hw31 hh31 hx hy
  rcases hc : g.cardinal_neighbors x y with _ | ⟨p, t⟩
  · rfl
  · have hp := mem_cardinal_mem_neighbors T g x y p
      (by rw [hc]; exact List.mem_cons_self _ _)
    rw [hemp] at hp
    simp at hp

/-- C7 (corrected), witness: on a 2×2 grid at the in-bounds origin, (1,0) is
a cardinal neighbor and hence a neighbor. -/
theorem claim_C7_amended_witness :
    (1, 0) ∈ (Grid.new 2 2 (0 : Nat)).cardinal_neighbors 0 0 ∧
    (1, 0) ∈ (Grid.new 2 2 (0 : Nat)).neighbors 0 0 :=
  ⟨by decide,
   (claim_C7_amended Nat (Grid.new 2 2 0) 0 0).1 (1, 0) (by decide)⟩

/-- C8 (corrected), counterexample: `gE1` and `gE2` are equal as values
(same directedness and the same node→(node→weight) mapping — `graphEq`, the
meaning of `==` on the struct), differing only in the insertion order of
node 1's two edges; yet `bfs(1)` yields [1,2,3] on one and [1,3,2] on the
other.  The bfs sequence is therefore not a function of the graph value:
it depends on `HashSet` iteration order, exactly the caveat the spec itself
records ("callers must not depend on intra-level order"). -/
theorem claim_C8_counterexample :
    graphEq gE1 gE2 = true ∧
    gE1.bfsList 1 = [1, 2, 3] ∧ gE2.bfsList 1 = [1, 3, 2] ∧
    ¬ ([1, 2, 3] : List Nat) = [1, 3, 2] := by
  refine ⟨by decide, ?_, ?_, by decide⟩
  · unfold Graph.bfsList
    exact bfsVisitF_sound gE1 10 [1] [1] [1, 2, 3] (by decide)
  · unfold Graph.bfsList
    exact bfsVisitF_sound gE2 10 [1] [1] [1, 3, 2] (by decide)

/-- C8 (corrected), amended: every operation is a pure function of the
representation (trivially, in this embedding), and the *set* of nodes that
bfs yields is a function of the graph value alone: graphs equal as values
yield the same bfs membership.  (The bfs sequence and tie-broken shortest
paths may differ between equal graphs, per the counterexample.) -/
theorem claim_C8_amended (g1 g2 : Graph) (h : graphEq g1 g2 = true) (s : Nat) :
    ∀ v, v ∈ g1.bfsList s ↔ v ∈ g2.bfsList s := by
  intro v
  rw [bfsList_mem_iff g1 s v, bfsList_mem_iff g2 s v]
  exact reach_congr (graphEq_get_weight h) s v

/-- C8 witness: the amended theorem applied to the two equal-value graphs of
the counterexample. -/
theorem claim_C8_witness :
    graphEq gE1 gE2 = true ∧ (2 ∈ gE1.bfsList 1 ↔ 2 ∈ gE2.bfsList 1) :=
  ⟨by decide, claim_C8_amended gE1 gE2 (by decide) 1 2⟩

/-- C9 (confirmed): `bfs(s)` always yields `s` first (so is never empty),
and for a node absent from the adjacency map it yields exactly `[s]`. -/
theorem claim_C9 (g : Graph) (s : Nat) :
    (∃ t, g.bfsList s = s :: t) ∧
    (alookup g.adjacency_map s = none → g.bfsList s = [s]) :=
  ⟨bfsList_head g s, fun h => bfsList_absent g s h⟩

/-- C9 witness: bfs of node 5 on the empty graph yields exactly [5]. -/
theorem claim_C9_witness :
    alookup (Graph.new false).adjacency_map 5 = none ∧
    (Graph.new false).bfsList 5 = [5] :=
  ⟨rfl, (claim_C9 (Graph.new false) 5).2 rfl⟩

/-- C10 (confirmed): unchecked indexing (`grid[(x,y)]`, modelled by
`indexGet`, `none` standing for a panic) validates only the linear index
`y*width+x` against the data length: with `x ≥ width` but `y*width+x` in
range it succeeds, reads the cell at a *different* coordinate (the one with
that linear index), while the checked `get` returns `none`; and `swap`
likewise succeeds on such aliased pairs. -/
theorem claim_C10 (T : Type) (g : Grid T) (x y : Nat)
    (hlen : g.data.length = g.width * g.height) (hx : g.width ≤ x)
    (hidx : y * g.width + x < g.width * g.height) :
    (∃ t, Grid.indexGet g x y = some t) ∧
      Grid.get g x y = none ∧
      Grid.indexGet g x y =
        Grid.get g ((y * g.width + x) % g.width) ((y * g.width + x) / g.width) ∧
      ((y * g.width + x) % g.width, (y * g.width + x) / g.width) ≠ (x, y) ∧
      (∀ x2 y2, y2 * g.width + x2 < g.width * g.height →
        (Grid.swap g (x, y) (x2, y2)).isSome = true) :=
  grid_unchecked_alias T g x y hlen hx hidx

/-- C10 witness: on a 2×2 grid, the out-of-range column x = 2 at y = 0 has
linear index 2 < 4, so unchecked access succeeds while `get` reports out of
bounds. -/
theorem claim_C10_witness :
    (Grid.new 2 2 (0 : Nat)).data.length =
      (Grid.new 2 2 (0 : Nat)).width * (Grid.new 2 2 (0 : Nat)).height ∧
    Grid.get (Grid.new 2 2 (0 : Nat)) 2 0 = none ∧
    Grid.indexGet (Grid.new 2 2 (0 : Nat)) 2 0 = some 0 :=
  ⟨by decide,
   (claim_C10 Nat (Grid.new 2 2 0) 2 0 (by decide) (by decide) (by decide)).2.1,
   by decide⟩

end AoC
